import Mathlib

/-!
FEVER `types/eve.go`: the EVE event codec

A verification development for `src/types/eve.go`.

The file defines the sensor timestamp codec (`suriTime`), the event record
(`EveEvent` and its body structs) and the output wrapper (`EveOutEvent`).
Everything the file does is a call into the Go standard library (`time`,
`strconv`, `encoding/json`), so the embedding consists of

* the declarations of `eve.go` itself, transcribed one for one
  (`SuricataTimestampFormat`, the struct declarations as type descriptors, the
  four methods), and
* the standard-library routines those declarations run, written after the
  library sources (Go 1.21 line): `time.Parse` and `Time.Format` evaluated at
  the constant layout `SuricataTimestampFormat`, `strconv.Unquote`,
  `strconv.FormatInt`, `strconv.ParseInt`, `json.Number.Int64` and the struct
  encoder and decoder of `encoding/json`.

Conventions of the embedding.

* Go strings and byte slices are `List Char` (`Str`).  The routines modelled
  here accept only ASCII where they inspect bytes, so a code point stands for
  its UTF-8 encoding; Go strings are assumed to hold valid UTF-8.
* Go `int` is the 64-bit `int`; `uint64` arithmetic is `Nat` modulo `2^64`
  where the source converts.
* JSON text is represented by its syntax tree (`JSON`): the scanner and the
  printer of `encoding/json` are not part of the embedding, number literals
  keep their text.
* A pointer has no address: a pointer value holds what it points to.  The one
  place where two pointers to one object matter, the shallow copy that
  `UnmarshalJSON` decodes into, is followed member by member
  (`receiverAfter`) for the case that decoding fails.
* The decoder stops at the error of an `Unmarshaler` and at an invalid number
  literal for a `json.Number`, as in the sources followed here.  A release of
  the library that reports another error at these places, or that saves the
  error and decodes the members after it, is not followed; it differs in the
  error returned and in what a failed decode leaves behind, not in whether an
  error is returned.
-/

namespace Fever

/-! ## Strings -/

/-- Go `string` / `[]byte`. -/
abbrev Str := List Char

/-- The errors the codec can report. -/
inductive Error where
  /-- The `strconv.ErrSyntax` of `strconv.Unquote` and `strconv.ParseInt`. -/
  | quoteSyntax
  /-- The `strconv.ErrRange` of `strconv.ParseInt`. -/
  | range
  /-- A `*time.ParseError`. -/
  | timeParse
  /-- A `*json.UnmarshalTypeError`. -/
  | unmarshalType
  /-- The `json: invalid number literal` error. -/
  | invalidNumber
  /-- The output of a `Marshaler` was not valid JSON (`*json.MarshalerError`). -/
  | marshaler
  deriving DecidableEq, Repr

deriving instance DecidableEq for Except

/-- The byte `'0' + d`. -/
def digitChar (d : Nat) : Char := Char.ofNat (48 + d)

/-- The value `c - '0'` of a byte. -/
def digitVal (c : Char) : Nat := c.toNat - 48

/-- The test `'0' <= c && c <= '9'`. -/
def isDigitChar (c : Char) : Bool := decide (48 ≤ c.toNat) && decide (c.toNat ≤ 57)

/-- The decimal digits of `u`, most significant first, `"0"` for zero: the
digit loops of `time.appendInt` and of `strconv.FormatInt`.  `fuel` bounds the
number of digits. -/
def decimalAux : Nat → Nat → Str → Str
  | 0, _, acc => acc
  | fuel + 1, u, acc =>
    if u < 10 then digitChar u :: acc
    else decimalAux fuel (u / 10) (digitChar (u % 10) :: acc)

/-- Decimal text of a natural number. -/
def decimal (u : Nat) : Str := decimalAux (u + 1) u []

/-! ## Package `time` -/

/-- A `time.Time`, reduced to what `Format` and `Parse` read and write: the
Unix second count (`t.unixSec()`), the nanosecond within the second
(`t.nsec()`) and the offset east of UTC, in seconds, that the location of `t`
has at that instant.  `Parse` attaches either `time.Local` (when its offset at
the instant equals the parsed one) or a `FixedZone`; both give the offset
recorded here. -/
structure Time where
  unix : Int
  nsec : Nat
  offset : Int
  deriving DecidableEq, Repr

def secondsPerMinute : Nat := 60
def secondsPerHour : Nat := 60 * secondsPerMinute
def secondsPerDay : Nat := 24 * secondsPerHour
def daysPer400Years : Nat := 365 * 400 + 97
def daysPer100Years : Nat := 365 * 100 + 24
def daysPer4Years : Nat := 365 * 4 + 1

/-- The year of the absolute epoch. -/
def absoluteZeroYear : Int := -292277022399

/-- The constant `unixToInternal + internalToAbsolute`. -/
def unixToAbsolute : Int := 9223372028715321600

/-- Conversion `uint64(x)` of an `int64`. -/
def toUint64 (x : Int) : Nat := (x % 18446744073709551616).toNat

/-- Integer division of Go: truncation toward zero. -/
def goDiv (a b : Int) : Int := Int.tdiv a b

/-- The method `Time.abs`: seconds since the absolute epoch, in the zone of `t`. -/
def Time.abs (t : Time) : Nat := toUint64 (t.unix + t.offset + unixToAbsolute)

/-- The function `isLeap`.  Only the comparison of a remainder with zero is
used, for which the truncated remainder of Go and `%` agree. -/
def isLeap (year : Int) : Bool :=
  decide (year % 4 = 0) && (decide (year % 100 ≠ 0) || decide (year % 400 = 0))

/-- The table `daysBefore`: days in a non-leap year before month `m + 1`. -/
def daysBefore (m : Nat) : Nat :=
  [0, 31, 59, 90, 120, 151, 181, 212, 243, 273, 304, 334, 365].getD m 0

/-- The function `daysIn`. -/
def daysIn (m : Nat) (year : Int) : Nat :=
  if m = 2 ∧ isLeap year then 29 else daysBefore m - daysBefore (m - 1)

/-- The function `absDate` with `full = true`: year, month and day of month of
an absolute time. -/
def absDate (abs : Nat) : Int × Nat × Nat :=
  let d := abs / secondsPerDay
  -- 400-year cycles
  let n := d / daysPer400Years
  let y := 400 * n
  let d := d - daysPer400Years * n
  -- 100-year cycles
  let n := d / daysPer100Years
  let n := n - n / 4
  let y := y + 100 * n
  let d := d - daysPer100Years * n
  -- 4-year cycles
  let n := d / daysPer4Years
  let y := y + 4 * n
  let d := d - daysPer4Years * n
  -- years within a 4-year cycle
  let n := d / 365
  let n := n - n / 4
  let y := y + n
  let d := d - 365 * n
  let year : Int := (y : Int) + absoluteZeroYear
  let day := d
  if isLeap year ∧ day = 31 + 29 - 1 then (year, 2, 29)
  else
    let day := if isLeap year ∧ day > 31 + 29 - 1 then day - 1 else day
    let month := day / 31
    let fin := daysBefore (month + 1)
    if day ≥ fin then (year, month + 1 + 1, day - fin + 1)
    else (year, month + 1, day - daysBefore month + 1)

/-- The function `absClock`. -/
def absClock (abs : Nat) : Nat × Nat × Nat :=
  let sec := abs % secondsPerDay
  let hour := sec / secondsPerHour
  let sec := sec - hour * secondsPerHour
  let min := sec / secondsPerMinute
  let sec := sec - min * secondsPerMinute
  (hour, min, sec)

/-- The function `time.appendInt`: `x` in decimal, zero padded to `width`. -/
def appendInt (b : Str) (x : Int) (width : Nat) : Str :=
  let b := if x < 0 then b ++ ['-'] else b
  let u := x.natAbs
  let n := (decimal u).length
  b ++ List.replicate (width - n) '0' ++ decimal u

/-- Removal of the trailing bytes equal to `c`. -/
def trimRight (c : Char) (b : Str) : Str :=
  (b.reverse.dropWhile (fun x => x == c)).reverse

/-- The function `time.appendNano` for the chunk `.999999`
(`stdFracSecond9`, six digits, separator `.`). -/
def appendNano (b : Str) (nanosec : Nat) : Str :=
  if nanosec = 0 then b
  else
    let b := b ++ ['.']
    let b := appendInt b nanosec 9
    let b := b.take (b.length - 9 + 6)
    let b := trimRight '0' b
    if b.getLast? = some '.' then b.dropLast else b

/-- `SuricataTimestampFormat` (eve.go:15). -/
def SuricataTimestampFormat : Str := "2006-01-02T15:04:05.999999-0700".toList

/-- The method `Time.Format` at the layout `SuricataTimestampFormat`, whose
chunks are `2006` `-` `01` `-` `02` `T` `15` `:` `04` `:` `05` `.999999`
`-0700`. -/
def Time.Format (t : Time) : Str :=
  let abs := t.abs
  let (year, month, day) := absDate abs
  let (hour, min, sec) := absClock abs
  let b := appendInt [] year 4
  let b := appendInt (b ++ ['-']) month 2
  let b := appendInt (b ++ ['-']) day 2
  let b := appendInt (b ++ ['T']) hour 2
  let b := appendInt (b ++ [':']) min 2
  let b := appendInt (b ++ [':']) sec 2
  let b := appendNano b t.nsec
  -- stdNumTZ
  let zone := goDiv t.offset 60
  let b := if zone < 0 then b ++ ['-'] else b ++ ['+']
  let zone := if zone < 0 then -zone else zone
  let b := appendInt b (goDiv zone 60) 2
  appendInt b (Int.tmod zone 60) 2

/-- The function `norm` of package `time`: `(hi, lo)` with `lo` brought into
`[0, base)`. -/
def norm (hi lo base : Int) : Int × Int :=
  let (hi, lo) :=
    if lo < 0 then
      let n := goDiv (-lo - 1) base + 1
      (hi - n, lo + n * base)
    else (hi, lo)
  if lo ≥ base then
    let n := goDiv lo base
    (hi + n, lo - n * base)
  else (hi, lo)

/-- The function `daysSinceEpoch`: days from the absolute epoch to the start
of `year`. -/
def daysSinceEpoch (year : Int) : Nat :=
  let y := toUint64 (year - absoluteZeroYear)
  let n := y / 400
  let y := y - 400 * n
  let d := daysPer400Years * n
  let n := y / 100
  let y := y - 100 * n
  let d := d + daysPer100Years * n
  let n := y / 4
  let y := y - 4 * n
  let d := d + daysPer4Years * n
  let n := y
  d + 365 * n

/-- Conversion `int64(x)` of a `uint64`, and 64-bit wrap-around of a sum. -/
def toInt64 (x : Int) : Int := (x + 9223372036854775808) % 18446744073709551616 - 9223372036854775808

/-- The function `time.Date` with location `time.UTC`; the result is the Unix
second count (the nanoseconds are kept by the caller). -/
def dateUnix (year month day hour min sec nsec : Int) : Int × Int :=
  let m := month - 1
  let (year, m) := norm year m 12
  let month := m + 1
  let (sec, nsec) := norm sec nsec 1000000000
  let (min, sec) := norm min sec 60
  let (hour, min) := norm hour min 60
  let (day, hour) := norm day hour 24
  let d := daysSinceEpoch year
  let d := d + daysBefore (month - 1).toNat
  let d := if isLeap year ∧ month ≥ 3 then d + 1 else d
  let d := toUint64 ((d : Int) + (day - 1))
  let abs := d * secondsPerDay
  let abs := toUint64 ((abs : Int) + (hour * secondsPerHour + min * secondsPerMinute + sec))
  (toInt64 ((abs : Int) - unixToAbsolute), nsec)

/-- The function `time.isDigit`. -/
def isDigit (s : Str) (i : Nat) : Bool :=
  match s.get? i with
  | some c => isDigitChar c
  | none => false

/-- The function `time.getnum`: a one- or two-digit number; two digits are
required when `fixed`. -/
def getnum (s : Str) (fixed : Bool) : Except Error (Nat × Str) :=
  if !isDigit s 0 then .error .timeParse
  else if !isDigit s 1 then
    if fixed then .error .timeParse
    else .ok (digitVal (s.getD 0 '0'), s.drop 1)
  else .ok (digitVal (s.getD 0 '0') * 10 + digitVal (s.getD 1 '0'), s.drop 2)

/-- The function `time.leadingInt`. -/
def leadingInt : Str → Nat → Except Error (Nat × Str)
  | [], x => .ok (x, [])
  | c :: s, x =>
    if !isDigitChar c then .ok (x, c :: s)
    else if x > 9223372036854775808 / 10 then .error .timeParse
    else
      let x := x * 10 + digitVal c
      if x > 9223372036854775808 then .error .timeParse else leadingInt s x

/-- The function `time.atoi`. -/
def atoi (s : Str) : Except Error Int :=
  let neg := s.head? = some '-'
  let s := if s.head? = some '-' ∨ s.head? = some '+' then s.drop 1 else s
  match leadingInt s 0 with
  | .ok (q, []) => .ok (if neg then -(q : Int) else q)
  | _ => .error .timeParse

/-- The function `time.cutspace`. -/
def cutspace (s : Str) : Str := s.dropWhile (fun c => c == ' ')

/-- The function `time.skip`: remove the literal text `pfx` of the layout from
the front of `value`. `fuel` bounds the iterations by the length of `pfx`. -/
def skipAux : Nat → Str → Str → Except Error Str
  | 0, value, _ => .ok value
  | fuel + 1, value, pfx =>
    match pfx with
    | [] => .ok value
    | p :: ps =>
      if p = ' ' then
        if value.head?.isSome ∧ value.head? ≠ some ' ' then .error .timeParse
        else skipAux fuel (cutspace value) (cutspace (p :: ps))
      else
        match value with
        | [] => .error .timeParse
        | v :: vs => if v ≠ p then .error .timeParse else skipAux fuel vs ps

/-- The function `time.skip`. -/
def skip (value pfx : Str) : Except Error Str := skipAux (pfx.length + 1) value pfx

/-- The function `time.commaOrPeriod`. -/
def commaOrPeriod (c : Char) : Bool := c == '.' || c == ','

/-- The function `time.parseNanoseconds`, called with `nbytes = 1 + i` where
`i` is the number of digits that follow the separator. -/
def parseNanoseconds (value : Str) (nbytes : Nat) : Except Error Nat :=
  if !(value.head?.map commaOrPeriod).getD false then .error .timeParse
  else
    let nbytes := if nbytes > 10 then 10 else nbytes
    let value := if nbytes ≥ 10 then value.take 10 else value
    match atoi ((value.take nbytes).drop 1) with
    | .error e => .error e
    | .ok ns =>
      if ns < 0 then .error .timeParse
      else .ok (ns.toNat * 10 ^ (10 - nbytes))

/-- Chunk `2006` (`stdLongYear`). -/
def parseYear (value : Str) : Except Error (Int × Str) :=
  if value.length < 4 ∨ !isDigit value 0 then .error .timeParse
  else match atoi (value.take 4) with
    | .error e => .error e
    | .ok year => .ok (year, value.drop 4)

/-- Chunk `01` (`stdZeroMonth`). -/
def parseMonth (value : Str) : Except Error (Nat × Str) :=
  match getnum value true with
  | .error e => .error e
  | .ok (month, value) =>
    if month ≤ 0 ∨ 12 < month then .error .timeParse else .ok (month, value)

/-- Chunk `15` (`stdHour`): one or two digits. -/
def parseHour (value : Str) : Except Error (Nat × Str) :=
  match getnum value false with
  | .error e => .error e
  | .ok (hour, value) =>
    if 24 ≤ hour then .error .timeParse else .ok (hour, value)

/-- Chunks `04` and `05` (`stdZeroMinute`, `stdZeroSecond`). -/
def parseSixty (value : Str) : Except Error (Nat × Str) :=
  match getnum value true with
  | .error e => .error e
  | .ok (n, value) =>
    if 60 ≤ n then .error .timeParse else .ok (n, value)

/-- Chunk `.999999` (`stdFracSecond9`): an optional fraction of any number of
digits, after `.` or `,`. -/
def parseFrac (value : Str) : Except Error (Nat × Str) :=
  if value.length < 2 ∨ !(value.head?.map commaOrPeriod).getD false ∨ !isDigit value 1 then
    .ok (0, value)
  else
    let i := ((value.drop 1).takeWhile isDigitChar).length
    match parseNanoseconds value (1 + i) with
    | .error e => .error e
    | .ok nsec => .ok (nsec, value.drop (1 + i))

/-- Chunk `-0700` (`stdNumTZ`): sign, two digits of hours, two of minutes. -/
def parseZone (value : Str) : Except Error (Int × Str) :=
  if value.length < 5 then .error .timeParse
  else
    let sign := value.take 1
    let hour := (value.take 3).drop 1
    let min := (value.take 5).drop 3
    match getnum hour true with
    | .error e => .error e
    | .ok (hr, _) =>
      match getnum min true with
      | .error e => .error e
      | .ok (mm, _) =>
        if hr > 24 ∨ mm > 60 then .error .timeParse
        else
          let zoneOffset : Int := (hr * 60 + mm) * 60
          if sign = ['+'] then .ok (zoneOffset, value.drop 5)
          else if sign = ['-'] then .ok (-zoneOffset, value.drop 5)
          else .error .timeParse

/-- The function `time.Parse` at the layout `SuricataTimestampFormat`: the
chunks are read in layout order, the text between them with `skip`; then the
day of the month is validated and the instant is built by `Date` in UTC,
shifted by the parsed offset (`addSec`, which cannot saturate for the years
`0..9999` a four-digit year admits). -/
def Parse (value : Str) : Except Error Time := do
  let (year, value) ← parseYear value
  let value ← skip value ['-']
  let (month, value) ← parseMonth value
  let value ← skip value ['-']
  let (day, value) ← getnum value true
  let value ← skip value ['T']
  let (hour, value) ← parseHour value
  let value ← skip value [':']
  let (min, value) ← parseSixty value
  let value ← skip value [':']
  let (sec, value) ← parseSixty value
  let (nsec, value) ← parseFrac value
  let (zoneOffset, value) ← parseZone value
  if value ≠ [] then .error .timeParse
  else if day < 1 ∨ day > daysIn month year then .error .timeParse
  else
    let (unix, nsec) := dateUnix year month day hour min sec nsec
    .ok { unix := unix - zoneOffset, nsec := nsec.toNat, offset := zoneOffset }

/-! ## Auxiliary definitions used in the proofs -/

/-- Absolute second count of `0000-01-01T00:00:00`. -/
def absYear0 : Nat := 9223371966548102400

/-- Absolute second count of `10000-01-01T00:00:00`. -/
def absYear10000 : Nat := 9223372282117622400

/-- The last part of `absDate`: month and day of month from the day of the
year, given whether the year is a leap year. -/
def monthDay (leap : Bool) (yday : Nat) : Nat × Nat :=
  if leap ∧ yday = 31 + 29 - 1 then (2, 29)
  else
    let day := if leap ∧ yday > 31 + 29 - 1 then yday - 1 else yday
    let month := day / 31
    let fin := daysBefore (month + 1)
    if day ≥ fin then (month + 1 + 1, day - fin + 1)
    else (month + 1, day - daysBefore month + 1)

/-- The first part of `absDate`: the year, counted from the absolute epoch,
and the day of the year. -/
def absYearDay (abs : Nat) : Nat × Nat :=
  let d := abs / secondsPerDay
  let n := d / daysPer400Years
  let y := 400 * n
  let d := d - daysPer400Years * n
  let n := d / daysPer100Years
  let n := n - n / 4
  let y := y + 100 * n
  let d := d - daysPer100Years * n
  let n := d / daysPer4Years
  let y := y + 4 * n
  let d := d - daysPer4Years * n
  let n := d / 365
  let n := n - n / 4
  let y := y + n
  let d := d - 365 * n
  (y, d)

/-- The decimal text of `u`, zero padded to `w` bytes: what `appendInt`
appends for a non-negative number. -/
def pad (w u : Nat) : Str := List.replicate (w - (decimal u).length) '0' ++ decimal u

/-- The `w`-digit text of `v` without its trailing zeros (empty for zero). -/
def fracList : Nat → Nat → Str
  | 0, _ => []
  | w + 1, v => if v % 10 = 0 then fracList w (v / 10) else pad (w + 1) v

/-- The number a string of digits denotes, continuing from `x`. -/
def valOf (ds : Str) (x : Nat) : Nat := ds.foldl (fun a c => a * 10 + digitVal c) x

/-- The text of a timestamp with the given fields in the form `Format`
produces: four-digit year, two-digit month, day, hour, minute and second, the
microseconds without trailing zeros (nothing when they are zero), the sign
and the hours and minutes of the offset. -/
def stampText (y mo d h mi s micro : Nat) (neg : Bool) (zh zm : Nat) : Str :=
  [digitChar (y / 1000), digitChar (y / 100 % 10), digitChar (y / 10 % 10), digitChar (y % 10),
    '-', digitChar (mo / 10), digitChar (mo % 10),
    '-', digitChar (d / 10), digitChar (d % 10),
    'T', digitChar (h / 10), digitChar (h % 10),
    ':', digitChar (mi / 10), digitChar (mi % 10),
    ':', digitChar (s / 10), digitChar (s % 10)] ++
  ((if micro = 0 then [] else '.' :: fracList 6 micro) ++
    [if neg then '-' else '+', digitChar (zh / 10), digitChar (zh % 10),
      digitChar (zm / 10), digitChar (zm % 10)])

/-- The characters `Format` writes: digits, `-`, `T`, `:`, `.` and `+`. -/
def stampChar (c : Char) : Bool :=
  isDigitChar c || c == '-' || c == 'T' || c == ':' || c == '.' || c == '+'

/-- The wall-clock reading of `t` lies in the years `0..9999`, its offset is
less than 25 hours in magnitude and its nanoseconds are below one second:
the instants whose text `Parse` reads back. -/
def Time.encodable (t : Time) : Prop :=
  t.nsec < 1000000000 ∧ -62167219200 ≤ t.unix + t.offset ∧
    t.unix + t.offset < 253402300800 ∧ t.offset.natAbs < 90000

instance (t : Time) : Decidable t.encodable := by
  unfold Time.encodable
  infer_instance

/-- The method `Time.Year`. -/
def Time.Year (t : Time) : Int := (absDate t.abs).1

/-- The instant `Parse` returns for the text of `t`: the microseconds of `t`
and its offset in whole minutes, at the same wall-clock reading. -/
def Time.reread (t : Time) : Time :=
  { unix := t.unix + t.offset - goDiv t.offset 60 * 60,
    nsec := t.nsec / 1000 * 1000,
    offset := goDiv t.offset 60 * 60 }

/-! ## Package `strconv` -/

/-- The function `strconv.FormatInt(i, 10)`: a minus sign for a negative
number, then the decimal digits of its magnitude. -/
def FormatInt (i : Int) : Str :=
  if i < 0 then '-' :: decimal i.natAbs else decimal i.natAbs

/-- The digit loop of `strconv.ParseUint(s, 10, 64)`: `none` is a syntax
error, `some (n, true)` a range error (with `n` the maximal value),
`some (n, false)` the value. -/
def parseUintLoop : Str → Nat → Option (Nat × Bool)
  | [], n => some (n, false)
  | c :: s, n =>
    if isDigitChar c then
      -- `n >= cutoff`: `n * 10` overflows
      if n ≥ 18446744073709551615 / 10 + 1 then some (18446744073709551615, true)
      else
        let n1 := n * 10 + digitVal c
        -- `n1 < n || n1 > maxVal`: `n + d` overflows
        if n1 > 18446744073709551615 then some (18446744073709551615, true)
        else parseUintLoop s n1
    else none

/-- The function `strconv.ParseUint(s, 10, 64)`. -/
def ParseUint (s : Str) : Option (Nat × Bool) :=
  if s = [] then none else parseUintLoop s 0

/-- The function `strconv.ParseInt(s, 10, 64)`: the value returned and the
error, if any.  On a range error the value is the integer of largest
magnitude with the sign of the input; on a syntax error it is zero. -/
def ParseInt (s : Str) : Int × Option Error :=
  match s with
  | [] => (0, some .quoteSyntax)
  | c :: rest =>
    let neg := c = '-'
    let s := if c = '+' ∨ c = '-' then rest else c :: rest
    match ParseUint s with
    | none => (0, some .quoteSyntax)
    | some (un, _) =>
      -- an `ErrRange` of `ParseUint` falls through to the two tests below,
      -- which it fails because `un` is then the maximal `uint64`
      if ¬ neg ∧ un ≥ 9223372036854775808 then (9223372036854775807, some .range)
      else if neg ∧ un > 9223372036854775808 then (-9223372036854775808, some .range)
      else (if neg then -(un : Int) else (un : Int), none)

/-- The function `strconv.unhex`. -/
def unhex (c : Char) : Option Nat :=
  if '0' ≤ c ∧ c ≤ '9' then some (c.toNat - '0'.toNat)
  else if 'a' ≤ c ∧ c ≤ 'f' then some (c.toNat - 'a'.toNat + 10)
  else if 'A' ≤ c ∧ c ≤ 'F' then some (c.toNat - 'A'.toNat + 10)
  else none

/-- The hexadecimal number of `strconv.UnquoteChar` after `\x`, `\u`, `\U`. -/
def unhexAll : Str → Nat → Option Nat
  | [], v => some v
  | c :: s, v =>
    match unhex c with
    | none => none
    | some x => unhexAll s (v * 16 + x)

/-- The test `utf8.ValidRune`. -/
def validRune (v : Nat) : Bool :=
  (decide (v < 0xD800)) || (decide (0xDFFF < v) && decide (v ≤ 0x10FFFF))

/-- The function `strconv.UnquoteChar`: the first character or escape sequence
of `s` and the rest of `s`.  A byte written `\xNN` or in octal is represented
by the code point of the same number. -/
def UnquoteChar (s : Str) (quote : Char) : Except Error (Char × Str) :=
  match s with
  | [] => .error .quoteSyntax
  | c :: rest =>
    if c = quote ∧ (quote = '\'' ∨ quote = '"') then .error .quoteSyntax
    else if c ≠ '\\' then .ok (c, rest)
    else
      match rest with
      | [] => .error .quoteSyntax
      | e :: s =>
        if e = 'a' then .ok (Char.ofNat 7, s)
        else if e = 'b' then .ok (Char.ofNat 8, s)
        else if e = 'f' then .ok (Char.ofNat 12, s)
        else if e = 'n' then .ok ('\n', s)
        else if e = 'r' then .ok ('\r', s)
        else if e = 't' then .ok ('\t', s)
        else if e = 'v' then .ok (Char.ofNat 11, s)
        else if e = 'x' ∨ e = 'u' ∨ e = 'U' then
          let n := if e = 'x' then 2 else if e = 'u' then 4 else 8
          if s.length < n then .error .quoteSyntax
          else
            match unhexAll (s.take n) 0 with
            | none => .error .quoteSyntax
            | some v =>
              if e = 'x' then .ok (Char.ofNat v, s.drop n)
              else if !validRune v then .error .quoteSyntax
              else .ok (Char.ofNat v, s.drop n)
        else if '0' ≤ e ∧ e ≤ '7' then
          match s with
          | d1 :: d2 :: s =>
            if '0' ≤ d1 ∧ d1 ≤ '7' ∧ '0' ≤ d2 ∧ d2 ≤ '7' then
              let v := ((e.toNat - 48) * 8 + (d1.toNat - 48)) * 8 + (d2.toNat - 48)
              if v > 255 then .error .quoteSyntax else .ok (Char.ofNat v, s)
            else .error .quoteSyntax
          | _ => .error .quoteSyntax
        else if e = '\\' then .ok ('\\', s)
        else if e = '\'' ∨ e = '"' then
          if e ≠ quote then .error .quoteSyntax else .ok (e, s)
        else .error .quoteSyntax

/-- The loop of `strconv.unquote` over a quoted string with escape sequences:
characters are read with `UnquoteChar` up to the closing quote; the result is
the text read and what follows the closing quote.  A single-quoted string
holds one character. -/
def unquoteLoop : Nat → Str → Char → Str → Except Error (Str × Str)
  | 0, _, _, _ => .error .quoteSyntax
  | fuel + 1, s, quote, buf =>
    match s with
    | [] => .error .quoteSyntax
    | c :: rest =>
      if c = quote then .ok (buf, rest)
      else
        match UnquoteChar (c :: rest) quote with
        | .error e => .error e
        | .ok (r, rem) =>
          if c = '\n' then .error .quoteSyntax
          else if quote = '\'' then
            match rem with
            | q :: rem' => if q = quote then .ok (buf ++ [r], rem') else .error .quoteSyntax
            | [] => .error .quoteSyntax
          else unquoteLoop fuel rem quote (buf ++ [r])

/-- The function `strconv.Unquote`. -/
def Unquote (s : Str) : Except Error Str :=
  match s with
  | [] => .error .quoteSyntax
  | [_] => .error .quoteSyntax
  | quote :: rest =>
    if ¬ rest.contains quote then .error .quoteSyntax
    else if quote = '`' then
      let body := rest.takeWhile (fun c => c != '`')
      let rem := (rest.dropWhile (fun c => c != '`')).drop 1
      if rem ≠ [] then .error .quoteSyntax
      else .ok (body.filter (fun c => c != '\r'))
    else if quote = '"' ∨ quote = '\'' then
      let body := rest.takeWhile (fun c => c != quote)
      let rem := (rest.dropWhile (fun c => c != quote)).drop 1
      if ¬ body.contains '\\' ∧ ¬ body.contains '\n' ∧ (quote = '"' ∨ body.length ≤ 1) then
        if rem ≠ [] then .error .quoteSyntax else .ok body
      else
        match unquoteLoop (rest.length + 1) rest quote [] with
        | .error e => .error e
        | .ok (out, rem) => if rem ≠ [] then .error .quoteSyntax else .ok out
    else .error .quoteSyntax

/-! ## `eve.go`: the timestamp codec -/

/-- The zero `time.Time` (`Time{}`): January 1, year 1, 00:00:00 UTC. -/
def zeroTime : Time := { unix := -62135596800, nsec := 0, offset := 0 }

/-- The method `(*suriTime).UnmarshalJSON` (eve.go:25): the value of the
receiver after the call and the error returned.  When `Unquote` fails the
receiver is untouched; otherwise `t.Time` is assigned the result of
`time.Parse`, which is the zero time when parsing fails. -/
def suriTime.UnmarshalJSON (t : Time) (b : Str) : Time × Option Error :=
  match Unquote b with
  | .error err => (t, some err)
  | .ok data =>
    match Parse data with
    | .ok t' => (t', none)
    | .error err => (zeroTime, some err)

/-- The method `(*suriTime).MarshalJSON` (eve.go:34); its error is always
`nil`. -/
def suriTime.MarshalJSON (t : Time) : Str × Option Error :=
  (['"'] ++ t.Format ++ ['"'], none)

/-! ## Package `encoding/json`: values -/

/-- A JSON text, by its syntax tree.  A number keeps its literal; the
members of an object keep their order and may repeat a name. -/
inductive JSON where
  | null
  | bool (b : Bool)
  | num (lit : Str)
  | str (s : Str)
  | arr (xs : List JSON)
  | obj (ms : List (Str × JSON))

/-- How a struct field takes part in the JSON form of its struct. -/
inductive FieldKind where
  /-- A field with tag `json:"name"`. -/
  | plain
  /-- A field with tag `json:"name,omitempty"`. -/
  | omitempty
  /-- An embedded struct without tag: its fields are promoted. -/
  | embedded
  deriving DecidableEq, Repr

/-- The Go types that occur in `eve.go`.  A struct is the list of its fields
in declaration order, each with its JSON name (empty for an embedded struct),
its kind and its type. -/
inductive GoType where
  /-- The types `int` and `int64`. -/
  | int
  | string
  | bool
  /-- The type `[]string`. -/
  | strings
  /-- The type `json.Number`. -/
  | number
  /-- The type `*suriTime`. -/
  | suriTimePtr
  | struct (fields : List (Str × FieldKind × GoType))
  /-- A pointer to a struct. -/
  | ptr (fields : List (Str × FieldKind × GoType))

/-- Go values of the types of `GoType`. -/
inductive GoVal where
  | int (n : Int)
  | str (s : Str)
  | bool (b : Bool)
  /-- A `[]string`: `none` is the nil slice. -/
  | strs (xs : Option (List Str))
  | num (s : Str)
  /-- A `*suriTime`: `none` is the nil pointer, `some t` a pointer to `t`. -/
  | time (t : Option Time)
  | struct (fields : List GoVal)
  /-- The nil pointer to a struct. -/
  | nilPtr
  /-- A pointer to the struct `v`. -/
  | ptr (v : GoVal)

instance : Inhabited FieldKind := ⟨.plain⟩

instance : Inhabited JSON := ⟨.null⟩

instance : Inhabited GoType := ⟨.int⟩

instance : Inhabited GoVal := ⟨.nilPtr⟩

/-- A struct type, as the list of its fields. -/
abbrev Fields := List (Str × FieldKind × GoType)

mutual
/-- The zero value of a type. -/
def GoType.zero : GoType → GoVal
  | .int => .int 0
  | .string => .str []
  | .bool => .bool false
  | .strings => .strs none
  | .number => .num []
  | .suriTimePtr => .time none
  | .struct fs => .struct (zeroFields fs)
  | .ptr _ => .nilPtr
/-- The zero values of the fields of a struct. -/
def zeroFields : List (Str × FieldKind × GoType) → List GoVal
  | [] => []
  | (_, _, t) :: fs => t.zero :: zeroFields fs
end

mutual
/-- The value `v` is a value of type `t`; integers are in the range of
`int64`. -/
def GoType.has : GoType → GoVal → Bool
  | .int, .int n => decide (-9223372036854775808 ≤ n) && decide (n ≤ 9223372036854775807)
  | .string, .str _ => true
  | .bool, .bool _ => true
  | .strings, .strs _ => true
  | .number, .num _ => true
  | .suriTimePtr, .time _ => true
  | .struct fs, .struct vs => hasFields fs vs
  | .ptr _, .nilPtr => true
  | .ptr fs, .ptr (.struct vs) => hasFields fs vs
  | _, _ => false
/-- The values `vs` are values of the fields `fs`, one for one. -/
def hasFields : List (Str × FieldKind × GoType) → List GoVal → Bool
  | [], [] => true
  | (_, _, t) :: fs, v :: vs => t.has v && hasFields fs vs
  | _, _ => false
end

/-! ## Package `encoding/json`: the fields of a struct -/

/-- A field of a struct as `encoding/json` sees it: the index sequence that
leads to it through embedded structs, its JSON name, whether it is
`omitempty`, and its type. -/
structure FieldInfo where
  index : List Nat
  name : Str
  omitEmpty : Bool
  typ : GoType

mutual
/-- All fields of a struct, those of embedded structs included, in the order
of their index sequences. -/
def allFields (pfx : List Nat) (i : Nat) : List (Str × FieldKind × GoType) → List FieldInfo
  | [] => []
  | (name, kind, t) :: fs =>
    (match kind with
      | .embedded => embeddedFields (pfx ++ [i]) t
      | .omitempty => [{ index := pfx ++ [i], name := name, omitEmpty := true, typ := t }]
      | .plain => [{ index := pfx ++ [i], name := name, omitEmpty := false, typ := t }])
    ++ allFields pfx (i + 1) fs
/-- The fields an embedded struct contributes. -/
def embeddedFields (pfx : List Nat) : GoType → List FieldInfo
  | .struct fs => allFields pfx 0 fs
  | _ => []
end

/-- The Go rule for fields of one JSON name (`dominantField`): the field of
least depth wins, and two fields at the least depth, both tagged, hide each
other.  (All fields of `eve.go` are tagged.) -/
def dominant (all : List FieldInfo) (f : FieldInfo) : Bool :=
  all.all (fun g => g.index == f.index || g.name != f.name ||
    decide (f.index.length < g.index.length))

/-- The function `typeFields`: the fields of a struct that take part in its
JSON form, sorted by index sequence. -/
def typeFields (fs : Fields) : List FieldInfo :=
  (allFields [] 0 fs).filter (dominant (allFields [] 0 fs))

/-- The function `isEmptyValue`, for `omitempty`. -/
def isEmptyValue : GoVal → Bool
  | .int n => n == 0
  | .str s => s.isEmpty
  | .bool b => !b
  | .strs none => true
  | .strs (some xs) => xs.isEmpty
  | .num s => s.isEmpty
  | .time t => t.isNone
  | .nilPtr => true
  | .struct _ => false
  | .ptr _ => false

/-! ## Package `encoding/json`: encoding -/

/-- The function `isValidNumber`: the grammar of a JSON number. -/
def isValidNumber (s : Str) : Bool :=
  if s = [] then false
  else
    let s := if s.head? = some '-' then s.drop 1 else s
    if s = [] then false
    else
      match s with
      | [] => false
      | c :: r =>
        if ¬ (c = '0' ∨ ('1' ≤ c ∧ c ≤ '9')) then false
        else
          let s := if c = '0' then r else r.dropWhile isDigitChar
          let s := if s.length ≥ 2 ∧ s.head? = some '.' ∧ isDigit s 1
            then (s.drop 2).dropWhile isDigitChar else s
          if s.length ≥ 2 ∧ (s.head? = some 'e' ∨ s.head? = some 'E') then
            let s := s.drop 1
            if s.head? = some '+' ∨ s.head? = some '-' then
              let s := s.drop 1
              if s = [] then false else (s.dropWhile isDigitChar) = []
            else (s.dropWhile isDigitChar) = []
          else s = []

/-- The text a `Marshaler` returned, read as JSON (the `compact` step of
`encoding/json`).  The only marshaler of `eve.go` is `*suriTime`, which
returns a double-quoted text; such a text is a JSON string when it holds no
quote, no backslash and no control character.  Any other text is reported as
invalid. -/
def jsonOfRaw (raw : Str) : Except Error JSON :=
  match raw with
  | '"' :: rest =>
    if rest.getLast? = some '"' ∧
        rest.dropLast.all (fun c => c != '"' && c != '\\' && decide (32 ≤ c.toNat)) then
      .ok (.str rest.dropLast)
    else .error .marshaler
  | _ => .error .marshaler

mutual
/-- The encoder of `encoding/json` (`json.Marshal`) on a value of type `t`. -/
def marshalVal : GoType → GoVal → Except Error JSON
  | .int, .int n => .ok (.num (FormatInt n))
  | .string, .str s => .ok (.str s)
  | .bool, .bool b => .ok (.bool b)
  | .strings, .strs none => .ok .null
  | .strings, .strs (some xs) => .ok (.arr (xs.map .str))
  | .number, .num s =>
    let numStr := if s = [] then ['0'] else s
    if isValidNumber numStr then .ok (.num numStr) else .error .invalidNumber
  | .suriTimePtr, .time none => .ok .null
  | .suriTimePtr, .time (some t) =>
    match suriTime.MarshalJSON t with
    | (b, none) => jsonOfRaw b
    | (_, some err) => .error err
  | .struct fs, .struct vs =>
    match marshalFields ((typeFields fs).map (fun f => f.index)) [] 0 fs vs with
    | .ok ms => .ok (.obj ms)
    | .error err => .error err
  | .ptr _, .nilPtr => .ok .null
  | .ptr fs, .ptr (.struct vs) =>
    match marshalFields ((typeFields fs).map (fun f => f.index)) [] 0 fs vs with
    | .ok ms => .ok (.obj ms)
    | .error err => .error err
  | _, _ => .error .unmarshalType
/-- The members the encoder writes for the fields `fs` of a struct, whose
values are `vs`: the fields are visited in the order of their index
sequences, those of an embedded struct in place; a field that is not among
the fields `alive` of the struct being encoded is skipped, and so is an
empty `omitempty` field. -/
def marshalFields (alive : List (List Nat)) (pfx : List Nat) (i : Nat) :
    List (Str × FieldKind × GoType) → List GoVal → Except Error (List (Str × JSON))
  | [], _ => .ok []
  | _ :: _, [] => .error .unmarshalType
  | (name, kind, t) :: fs, v :: vs =>
    match marshalFields alive pfx (i + 1) fs vs with
    | .error err => .error err
    | .ok rest =>
      match kind with
      | .embedded =>
        match marshalEmbedded alive (pfx ++ [i]) t v with
        | .ok ms => .ok (ms ++ rest)
        | .error err => .error err
      | .omitempty =>
        if alive.contains (pfx ++ [i]) ∧ ¬ isEmptyValue v then
          match marshalVal t v with
          | .ok j => .ok ((name, j) :: rest)
          | .error err => .error err
        else .ok rest
      | .plain =>
        if alive.contains (pfx ++ [i]) then
          match marshalVal t v with
          | .ok j => .ok ((name, j) :: rest)
          | .error err => .error err
        else .ok rest
/-- The members written for an embedded struct. -/
def marshalEmbedded (alive : List (List Nat)) (pfx : List Nat) :
    GoType → GoVal → Except Error (List (Str × JSON))
  | .struct fs, .struct vs => marshalFields alive pfx 0 fs vs
  | _, _ => .error .unmarshalType
end

/-! ## Package `encoding/json`: decoding -/

/-- A lower-case hexadecimal digit. -/
def hexDigit (n : Nat) : Char := "0123456789abcdef".toList.getD n '0'

/-- The spelling of a character inside a JSON string, as the encoder writes
it (HTML escaping on). -/
def escapeChar (c : Char) : Str :=
  if c = '"' then ['\\', '"']
  else if c = '\\' then ['\\', '\\']
  else if c = '\n' then ['\\', 'n']
  else if c = '\r' then ['\\', 'r']
  else if c = '\t' then ['\\', 't']
  else if c.toNat < 32 ∨ c = '<' ∨ c = '>' ∨ c = '&' then
    ['\\', 'u', '0', '0', hexDigit (c.toNat / 16), hexDigit (c.toNat % 16)]
  else if c.toNat = 0x2028 ∨ c.toNat = 0x2029 then
    ['\\', 'u', '2', '0', '2', hexDigit (c.toNat % 16)]
  else [c]

/-- Members of a list joined by commas. -/
def joinComma : List Str → Str
  | [] => []
  | [x] => x
  | x :: y :: xs => x ++ [','] ++ joinComma (y :: xs)

mutual
/-- The text of a JSON value in the spelling of the encoder.  The decoder
hands an `Unmarshaler` the bytes of the value it is to decode; the syntax
tree does not record how those bytes spell the value, so the embedding hands
over this spelling.  For `*suriTime` the choice is immaterial: another
spelling of a string differs by escape sequences only, which
`strconv.Unquote` either resolves to the same content or rejects, and it
rejects only spellings (`\/`, surrogate pairs) of characters that no
timestamp contains. -/
def JSON.text : JSON → Str
  | .null => "null".toList
  | .bool true => "true".toList
  | .bool false => "false".toList
  | .num lit => lit
  | .str s => ['"'] ++ (s.map escapeChar).flatten ++ ['"']
  | .arr xs => ['['] ++ joinComma (textList xs) ++ [']']
  | .obj ms => ['{'] ++ joinComma (textMembers ms) ++ ['}']
/-- The texts of the elements of an array. -/
def textList : List JSON → List Str
  | [] => []
  | x :: xs => x.text :: textList xs
/-- The texts of the members of an object. -/
def textMembers : List (Str × JSON) → List Str
  | [] => []
  | (k, v) :: ms => (['"'] ++ (k.map escapeChar).flatten ++ ['"', ':'] ++ v.text) :: textMembers ms
end

/-- The function `foldRune` on the characters that matter for the field names
of `eve.go`, which are ASCII: a lower-case ASCII letter folds to its upper-case
form, and so do the two characters outside ASCII whose case orbit holds an
ASCII letter (U+017F and U+212A).  Other characters fold within the
characters outside ASCII and are left as they are. -/
def foldChar (c : Char) : Char :=
  if 'a' ≤ c ∧ c ≤ 'z' then Char.ofNat (c.toNat - 32)
  else if c.toNat = 0x17F then 'S'
  else if c.toNat = 0x212A then 'K'
  else c

/-- The function `foldName`. -/
def foldName (s : Str) : Str := s.map foldChar

/-- The field a member name selects: the field of that exact name, or else the
first field whose name equals it up to case. -/
def findField (fields : List FieldInfo) (key : Str) : Option FieldInfo :=
  match fields.find? (fun f => f.name == key) with
  | some f => some f
  | none => fields.find? (fun f => foldName f.name == foldName key)

/-- The value of the field with index sequence `idx` in a struct with field
values `vs`. -/
def getAt : List Nat → List GoVal → Option GoVal
  | [], _ => none
  | [i], vs => vs.get? i
  | i :: j :: rest, vs =>
    match vs.get? i with
    | some (.struct vs') => getAt (j :: rest) vs'
    | _ => none

/-- Assignment to the field with index sequence `idx`. -/
def setAt : List Nat → GoVal → List GoVal → List GoVal
  | [], _, vs => vs
  | [i], v, vs => vs.set i v
  | i :: j :: rest, v, vs =>
    match vs.get? i with
    | some (.struct vs') => vs.set i (.struct (setAt (j :: rest) v vs'))
    | _ => vs

/-- What decoding a JSON value into a Go value leaves: the Go value after
the decoding (kept also when the decoding stops with an error), the first
error the decoder saved and went on from (`d.saveError`), and the error that
stopped it. -/
structure DecOut where
  val : GoVal
  saved : Option Error := none
  fatal : Option Error := none

/-- The `*suriTime` a JSON value is decoded into: the pointee is the one the
pointer has, or a new zero value when the pointer is nil (`indirect`); the
value is handed to `UnmarshalJSON`, whose error stops the decoder. -/
def decodeSuriTime (j : JSON) (v : GoVal) : DecOut :=
  let cur := match v with
    | .time (some t) => t
    | _ => zeroTime
  match suriTime.UnmarshalJSON cur j.text with
  | (t, err) => { val := .time (some t), fatal := err }

/-- A JSON value of the wrong kind for the Go value: the error is saved and
decoding goes on.  A nil pointer to a struct has been replaced by a pointer to
a new zero struct before the kinds are compared (`indirect`). -/
def typeMismatch (t : GoType) (v : GoVal) : DecOut :=
  match t, v with
  | .ptr fs, .nilPtr => { val := .ptr (.struct (zeroFields fs)), saved := some .unmarshalType }
  | _, _ => { val := v, saved := some .unmarshalType }

/-- The string of a decoded element of a `[]string`. -/
def GoVal.strOf : GoVal → Str
  | .str s => s
  | _ => []

mutual
/-- The decoder of `encoding/json` (`d.value`): the JSON value `j` is decoded
into the Go value `v` of type `t`.  (Where `v` is not a value of type `t`,
which does not happen in Go, the zero value of `t` stands for it.) -/
def decodeValue (t : GoType) : JSON → GoVal → DecOut
  | .null, v =>
    match t with
    | .ptr _ => { val := .nilPtr }
    | .suriTimePtr => { val := .time none }
    | .strings => { val := .strs none }
    | _ => { val := v }
  | .bool b, v =>
    match t with
    | .bool => { val := .bool b }
    | .suriTimePtr => decodeSuriTime (.bool b) v
    | _ => typeMismatch t v
  | .num lit, v =>
    match t with
    | .int =>
      match ParseInt lit with
      | (n, none) => { val := .int n }
      | (_, some _) => { val := v, saved := some .unmarshalType }
    | .number => { val := .num lit }
    | .suriTimePtr => decodeSuriTime (.num lit) v
    | _ => typeMismatch t v
  | .str s, v =>
    match t with
    | .string => { val := .str s }
    | .number =>
      if isValidNumber s then { val := .num s }
      else { val := v, fatal := some .invalidNumber }
    | .suriTimePtr => decodeSuriTime (.str s) v
    | _ => typeMismatch t v
  | .arr xs, v =>
    match t with
    | .strings =>
      let old := match v with
        | .strs (some ys) => ys
        | _ => []
      match decodeElems xs old with
      | (ys, saved) => { val := .strs (some ys), saved := saved }
    | .suriTimePtr => decodeSuriTime (.arr xs) v
    | _ => typeMismatch t v
  | .obj ms, v =>
    match t with
    | .struct fs =>
      let vs := match v with
        | .struct vs => vs
        | _ => zeroFields fs
      match decodeMembers (typeFields fs) ms vs with
      | (vs', saved, fatal) => { val := .struct vs', saved := saved, fatal := fatal }
    | .ptr fs =>
      let vs := match v with
        | .ptr (.struct vs) => vs
        | _ => zeroFields fs
      match decodeMembers (typeFields fs) ms vs with
      | (vs', saved, fatal) => { val := .ptr (.struct vs'), saved := saved, fatal := fatal }
    | .suriTimePtr => decodeSuriTime (.obj ms) v
    | _ => typeMismatch t v
/-- The members of an object decoded, in order, into the fields of a struct
(`d.object`): a member whose name selects no field is skipped. -/
def decodeMembers (fields : List FieldInfo) :
    List (Str × JSON) → List GoVal → List GoVal × Option Error × Option Error
  | [], vs => (vs, none, none)
  | (k, j) :: ms, vs =>
    match findField fields k with
    | none => decodeMembers fields ms vs
    | some f =>
      match decodeValue f.typ j ((getAt f.index vs).getD f.typ.zero) with
      | { val := new, saved := s1, fatal := some err } => (setAt f.index new vs, s1, some err)
      | { val := new, saved := s1, fatal := none } =>
        match decodeMembers fields ms (setAt f.index new vs) with
        | (vs', s2, fatal) => (vs', s1 <|> s2, fatal)
/-- The elements of an array decoded into a `[]string` (`d.array`): element
`i` is decoded into the element the slice has at `i`, or into an empty string
past its length (the slice is taken to have no spare capacity). -/
def decodeElems : List JSON → List Str → List Str × Option Error
  | [], _ => ([], none)
  | x :: xs, old =>
    match decodeValue .string x (.str (old.headD [])) with
    | { val := new, saved := s1, fatal := _ } =>
      match decodeElems xs old.tail with
      | (ys, s2) => (new.strOf :: ys, s1 <|> s2)
end

/-- The function `json.Unmarshal(data, &x)` for a struct `x` of type `t`: the
value of `x` after the call and the error returned. -/
def Unmarshal (t : GoType) (data : JSON) (x : GoVal) : GoVal × Option Error :=
  match decodeValue t data x with
  | { val := v, saved := saved, fatal := fatal } => (v, fatal <|> saved)

/-! ## `eve.go`: the event record -/

/-- The struct `AlertEvent` (eve.go:39). -/
def AlertEvent : Fields := [
  ("action".toList, .plain, .string),
  ("gid".toList, .plain, .int),
  ("signature_id".toList, .plain, .int),
  ("rev".toList, .plain, .int),
  ("signature".toList, .plain, .string),
  ("category".toList, .plain, .string),
  ("severity".toList, .plain, .int)]

/-- The struct `DNSEvent` (eve.go:50). -/
def DNSEvent : Fields := [
  ("type".toList, .plain, .string),
  ("id".toList, .plain, .int),
  ("rcode".toList, .plain, .string),
  ("rrname".toList, .plain, .string),
  ("rrtype".toList, .plain, .string),
  ("ttl".toList, .plain, .int),
  ("rdata".toList, .plain, .string),
  ("tx_id".toList, .plain, .int)]

/-- The struct `HTTPEvent` (eve.go:62). -/
def HTTPEvent : Fields := [
  ("hostname".toList, .plain, .string),
  ("url".toList, .plain, .string),
  ("http_user_agent".toList, .plain, .string),
  ("http_content_type".toList, .plain, .string),
  ("http_method".toList, .plain, .string),
  ("protocol".toList, .plain, .string),
  ("status".toList, .plain, .int),
  ("length".toList, .plain, .int)]

/-- The struct `fileinfoEvent` (eve.go:73). -/
def fileinfoEvent : Fields := [
  ("filename".toList, .plain, .string),
  ("magic".toList, .plain, .string),
  ("state".toList, .plain, .string),
  ("md5".toList, .plain, .string),
  ("stored".toList, .plain, .bool),
  ("size".toList, .plain, .int),
  ("tx_id".toList, .plain, .int)]

/-- The struct `flowEvent` (eve.go:83). -/
def flowEvent : Fields := [
  ("pkts_toserver".toList, .plain, .int),
  ("pkts_toclient".toList, .plain, .int),
  ("bytes_toserver".toList, .plain, .int),
  ("bytes_toclient".toList, .plain, .int),
  ("start".toList, .plain, .suriTimePtr),
  ("end".toList, .plain, .suriTimePtr),
  ("age".toList, .plain, .int),
  ("state".toList, .plain, .string),
  ("reason".toList, .plain, .string)]

/-- The struct `TLSEvent` (eve.go:96). -/
def TLSEvent : Fields := [
  ("subject".toList, .plain, .string),
  ("issuerdn".toList, .plain, .string),
  ("fingerprint".toList, .plain, .string),
  ("sni".toList, .plain, .string),
  ("version".toList, .plain, .string)]

/-- The struct `statsEvent` (eve.go:104). -/
def statsEvent : Fields := [
  ("uptime".toList, .plain, .int),
  ("capture".toList, .plain, .struct [
    ("kernel_packets".toList, .plain, .int),
    ("kernel_drops".toList, .plain, .int)]),
  ("decoder".toList, .plain, .struct [
    ("pkts".toList, .plain, .int),
    ("bytes".toList, .plain, .int),
    ("invalid".toList, .plain, .int),
    ("ipv4".toList, .plain, .int),
    ("ipv6".toList, .plain, .int),
    ("ethernet".toList, .plain, .int),
    ("raw".toList, .plain, .int),
    ("null".toList, .plain, .int),
    ("sll".toList, .plain, .int),
    ("tcp".toList, .plain, .int),
    ("udp".toList, .plain, .int),
    ("sctp".toList, .plain, .int),
    ("icmpv4".toList, .plain, .int),
    ("icmpv6".toList, .plain, .int),
    ("ppp".toList, .plain, .int),
    ("pppoe".toList, .plain, .int),
    ("gre".toList, .plain, .int),
    ("vlan".toList, .plain, .int),
    ("vlan_qinq".toList, .plain, .int),
    ("teredo".toList, .plain, .int),
    ("ipv4_in_ipv6".toList, .plain, .int),
    ("ipv6_in_ipv6".toList, .plain, .int),
    ("mpls".toList, .plain, .int),
    ("avg_pkt_size".toList, .plain, .int),
    ("max_pkt_size".toList, .plain, .int),
    ("erspan".toList, .plain, .int),
    ("ipraw".toList, .plain, .struct [
      ("invalid_ip_version".toList, .plain, .int)]),
    ("ltnull".toList, .plain, .struct [
      ("pkt_too_small".toList, .plain, .int),
      ("unsupported_type".toList, .plain, .int)]),
    ("dce".toList, .plain, .struct [
      ("pkt_too_small".toList, .plain, .int)])]),
  ("flow".toList, .plain, .struct [
    ("memcap".toList, .plain, .int),
    ("spare".toList, .plain, .int),
    ("emerg_mode_entered".toList, .plain, .int),
    ("emerg_mode_over".toList, .plain, .int),
    ("tcp_reuse".toList, .plain, .int),
    ("memuse".toList, .plain, .int)]),
  ("defrag".toList, .plain, .struct [
    ("ipv4".toList, .plain, .struct [
      ("fragments".toList, .plain, .int),
      ("reassembled".toList, .plain, .int),
      ("timeouts".toList, .plain, .int)]),
    ("ipv6".toList, .plain, .struct [
      ("fragments".toList, .plain, .int),
      ("reassembled".toList, .plain, .int),
      ("timeouts".toList, .plain, .int)]),
    ("max_frag_hits".toList, .plain, .int)]),
  ("stream".toList, .plain, .struct [
    ("3whs_ack_in_wrong_dir".toList, .plain, .int),
    ("3whs_async_wrong_seq".toList, .plain, .int),
    ("3whs_right_seq_wrong_ack_evasion".toList, .plain, .int)]),
  ("tcp".toList, .plain, .struct [
    ("sessions".toList, .plain, .int),
    ("ssn_memcap_drop".toList, .plain, .int),
    ("pseudo".toList, .plain, .int),
    ("pseudo_failed".toList, .plain, .int),
    ("invalid_checksum".toList, .plain, .int),
    ("no_flow".toList, .plain, .int),
    ("syn".toList, .plain, .int),
    ("synack".toList, .plain, .int),
    ("rst".toList, .plain, .int),
    ("segment_memcap_drop".toList, .plain, .int),
    ("stream_depth_reached".toList, .plain, .int),
    ("reassembly_gap".toList, .plain, .int),
    ("memuse".toList, .plain, .int),
    ("reassembly_memuse".toList, .plain, .int)]),
  ("detect".toList, .plain, .struct [
    ("alert".toList, .plain, .int)]),
  ("flow_mgr".toList, .plain, .struct [
    ("closed_pruned".toList, .plain, .int),
    ("new_pruned".toList, .plain, .int),
    ("est_pruned".toList, .plain, .int)]),
  ("dns".toList, .plain, .struct [
    ("memuse".toList, .plain, .int),
    ("memcap_state".toList, .plain, .int),
    ("memcap_global".toList, .plain, .int)]),
  ("http".toList, .plain, .struct [
    ("memuse".toList, .plain, .int),
    ("memcap".toList, .plain, .int)])]

/-- The struct `sshEvent` (eve.go:209). -/
def sshEvent : Fields := [
  ("client".toList, .plain, .struct [
    ("proto_version".toList, .plain, .string),
    ("software_version".toList, .plain, .string)]),
  ("server".toList, .plain, .struct [
    ("proto_version".toList, .plain, .string),
    ("software_version".toList, .plain, .string)])]

/-- The struct `smtpEvent` (eve.go:220). -/
def smtpEvent : Fields := [
  ("helo".toList, .plain, .string),
  ("mail_from".toList, .plain, .string),
  ("rcpt_to".toList, .plain, .strings)]

/-- The struct `tcpEvent` (eve.go:226). -/
def tcpEvent : Fields := [
  ("state".toList, .plain, .string),
  ("syn".toList, .plain, .bool),
  ("tcp_flags".toList, .plain, .string),
  ("tcp_flags_tc".toList, .plain, .string),
  ("tcp_flags_ts".toList, .plain, .string)]

/-- The struct `emailEvent` (eve.go:234). -/
def emailEvent : Fields := [
  ("status".toList, .plain, .string)]

/-- The struct `packetInfo` (eve.go:238). -/
def packetInfo : Fields := [
  ("linktype".toList, .plain, .int)]

/-- The struct `ExtraInfo` (eve.go:243). -/
def ExtraInfo : Fields := [
  ("bloom-ioc".toList, .omitempty, .string)]

/-- The struct `EveEvent` (eve.go:249). -/
def EveEvent : Fields := [
  ("timestamp".toList, .plain, .suriTimePtr),
  ("event_type".toList, .plain, .string),
  ("flow_id".toList, .omitempty, .int),
  ("in_iface".toList, .omitempty, .string),
  ("src_ip".toList, .omitempty, .string),
  ("src_port".toList, .omitempty, .int),
  ("src_host".toList, .omitempty, .strings),
  ("dest_ip".toList, .omitempty, .string),
  ("dest_port".toList, .omitempty, .int),
  ("dest_host".toList, .omitempty, .strings),
  ("proto".toList, .omitempty, .string),
  ("app_proto".toList, .omitempty, .string),
  ("tx_id".toList, .omitempty, .int),
  ("tcp".toList, .omitempty, (.ptr tcpEvent)),
  ("packet_info".toList, .omitempty, (.ptr packetInfo)),
  ("alert".toList, .omitempty, (.ptr AlertEvent)),
  ("payload".toList, .omitempty, .string),
  ("payload_printable".toList, .omitempty, .string),
  ("stream".toList, .omitempty, .int),
  ("packet".toList, .omitempty, .string),
  ("smtp".toList, .omitempty, (.ptr smtpEvent)),
  ("email".toList, .omitempty, (.ptr emailEvent)),
  ("dns".toList, .omitempty, (.ptr DNSEvent)),
  ("http".toList, .omitempty, (.ptr HTTPEvent)),
  ("fileinfo".toList, .omitempty, (.ptr fileinfoEvent)),
  ("flow".toList, .omitempty, (.ptr flowEvent)),
  ("ssh".toList, .omitempty, (.ptr sshEvent)),
  ("tls".toList, .omitempty, (.ptr TLSEvent)),
  ("stats".toList, .omitempty, (.ptr statsEvent)),
  ("_extra".toList, .omitempty, (.ptr ExtraInfo))]

/-! ## `eve.go`: the output wrapper -/

/-- The field `FlowID` of an event record (the third field of `EveEvent`). -/
def FlowID (e : GoVal) : Int :=
  match e with
  | .struct vs =>
    match vs.get? 2 with
    | some (.int n) => n
    | _ => 0
  | _ => 0

/-- The assignment `e.FlowID = n`. -/
def setFlowID (e : GoVal) (n : Int) : GoVal :=
  match e with
  | .struct vs => .struct (vs.set 2 (.int n))
  | _ => e

/-- The encoding `json.Marshal(e)` of an `EveEvent`: the canonical form. -/
def EveEvent.Marshal (e : GoVal) : Except Error JSON := marshalVal (.struct EveEvent) e

/-- The decoding `json.Unmarshal(d, &e)` of an `EveEvent`. -/
def EveEvent.Unmarshal (d : JSON) (e : GoVal) : GoVal × Option Error :=
  Fever.Unmarshal (.struct EveEvent) d e

/-- The struct that `EveOutEvent.MarshalJSON` encodes (eve.go:292):
`struct { FlowID string; Alias }` with `Alias` the method-less copy of
`EveOutEvent`, whose underlying type is `EveEvent`. -/
def outStruct : Fields := [
  ("flow_id".toList, .plain, .string),
  ([], .embedded, .struct EveEvent)]

/-- The struct that `EveOutEvent.UnmarshalJSON` decodes into (eve.go:307):
`struct { EveOutEvent2; FlowID json.Number }`. -/
def inStruct : Fields := [
  ([], .embedded, .struct EveEvent),
  ("flow_id".toList, .plain, .number)]

/-- The method `EveOutEvent.MarshalJSON` (eve.go:290). -/
def EveOutEvent.MarshalJSON (e : GoVal) : Except Error JSON :=
  marshalVal (.struct outStruct) (.struct [.str (FormatInt (FlowID e)), e])

/-- The value is a non-nil pointer or a non-nil slice: what it refers to is
shared by a copy of the struct that holds it. -/
def GoVal.shared : GoVal → Bool
  | .time (some _) => true
  | .ptr _ => true
  | .strs (some _) => true
  | _ => false

/-- What decoding the JSON value `j` into a field of the copy `x` does to the
same field of `*e` while the two share what they refer to; `recv` is the field
of `*e` and `new` the field of `x` after the decoding.  The result is the
field of `*e` afterwards and whether the two still share.  A `null` sets the
pointer or slice of `x` to nil and leaves what `*e` refers to alone.  A
pointer is decoded into in place.  The elements of an array are decoded in
place into the elements of a slice as far as it reaches (it is taken to have
no spare capacity); past them, and for an empty array, `x` gets a new slice. -/
def shareField (j : JSON) (recv new : GoVal) : GoVal × Bool :=
  match j, recv with
  | .null, _ => (recv, false)
  | .arr xs, .strs (some old) =>
    match new with
    | .strs (some ys) =>
      if xs.isEmpty then (recv, false)
      else (.strs (some (ys.take old.length ++ old.drop ys.length)),
        decide (ys.length ≤ old.length))
    | _ => (recv, true)
  | _, .strs (some _) => (recv, true)
  | _, _ => (new, true)

/-- What one member, decoded into the field of `x` with index sequence
`index`, does to the fields `recv` of `*e`, of which the fields `live` still
share what they refer to with `x`; `new` is the field of `x` after the
decoding.  Only the fields of the embedded record (index `[0, n]`) are
shared. -/
def shareStep (index : List Nat) (j : JSON) (new : GoVal) (recv : List GoVal)
    (live : List Nat) : List GoVal × List Nat :=
  match index with
  | [0, n] =>
    if live.contains n then
      match shareField j ((recv.get? n).getD new) new with
      | (r, true) => (recv.set n r, live)
      | (r, false) => (recv.set n r, live.erase n)
    else (recv, live)
  | _ => (recv, live)

/-- The fields of `*e` while `json.Unmarshal` decodes the members `ms` into
the copy `x` (eve.go:307): `x.EveOutEvent2` is a shallow copy of `*e`, so
what the fields `live` of `*e` refer to is written to when the decoder writes
through the same field of `x`.  `recv` holds the fields of `*e`.  The
decoder stops at the first error that is not saved. -/
def receiverAfter (fields : List FieldInfo) :
    List (Str × JSON) → List GoVal → List GoVal → List Nat → List GoVal
  | [], _, recv, _ => recv
  | (k, j) :: ms, x, recv, live =>
    match findField fields k with
    | none => receiverAfter fields ms x recv live
    | some f =>
      match (decodeValue f.typ j ((getAt f.index x).getD f.typ.zero)).fatal with
      | some _ =>
        (shareStep f.index j (decodeValue f.typ j ((getAt f.index x).getD f.typ.zero)).val
          recv live).1
      | none =>
        receiverAfter fields ms
          (setAt f.index (decodeValue f.typ j ((getAt f.index x).getD f.typ.zero)).val x)
          (shareStep f.index j (decodeValue f.typ j ((getAt f.index x).getD f.typ.zero)).val
            recv live).1
          (shareStep f.index j (decodeValue f.typ j ((getAt f.index x).getD f.typ.zero)).val
            recv live).2

/-- The fields of a struct that are non-nil pointers or slices. -/
def liveFields (vs : List GoVal) : List Nat :=
  (List.range vs.length).filter (fun n => ((vs.get? n).getD .nilPtr).shared)

/-- The receiver `*e` after a call of `UnmarshalJSON` in which
`json.Unmarshal` failed: `*e` is not assigned, but what its pointers and
slices refer to has been written to as far as the decoder got. -/
def receiverOnFailure (e : GoVal) (d : JSON) : GoVal :=
  match d, e with
  | .obj ms, .struct vs =>
    .struct (receiverAfter (typeFields inStruct) ms [e, .num []] vs (liveFields vs))
  | _, _ => e

/-- The method `(*EveOutEvent).UnmarshalJSON` (eve.go:305): the value of the
receiver `*e` after the call and the error returned.  `x` starts as a shallow
copy of `*e` with an empty `FlowID`; when `json.Unmarshal` fails the receiver
is not assigned (`receiverOnFailure`: what it points to may have been written
to); otherwise it is assigned the decoded record, and then its `FlowID` the
value `Int64` returned, whatever its error. -/
def EveOutEvent.UnmarshalJSON (e : GoVal) (d : JSON) : GoVal × Option Error :=
  match Fever.Unmarshal (.struct inStruct) d (.struct [e, .num []]) with
  | (_, some err) => (receiverOnFailure e d, some err)
  | (.struct [e', .num flowID], none) => (setFlowID e' (ParseInt flowID).1, none)
  | (_, none) => (e, none)

/-! ## Auxiliary definitions for the proofs about the codec -/

mutual
/-- A type without embedded structs and without `json.Number`, at any depth,
whose structs have fields of distinct names: the types of the event record. -/
def GoType.regular : GoType → Bool
  | .number => false
  | .struct fs => regularFields fs
  | .ptr fs => regularFields fs
  | _ => true
/-- The fields of a regular struct. -/
def regularFields : List (Str × FieldKind × GoType) → Bool
  | [] => true
  | (name, kind, t) :: fs =>
    kind != .embedded && t.regular && fs.all (fun f => f.1 != name) && regularFields fs
end

mutual
/-- Every timestamp in the value is `encodable`. -/
def GoVal.timesOK : GoVal → Bool
  | .time (some t) => decide t.encodable
  | .struct vs => timesOKList vs
  | .ptr v => v.timesOK
  | _ => true
/-- Every timestamp in the values is `encodable`. -/
def timesOKList : List GoVal → Bool
  | [] => true
  | v :: vs => v.timesOK && timesOKList vs
end

/-- The fields of a struct without embedded structs, as `encoding/json` sees
them. -/
def flatInfos (pfx : List Nat) (i : Nat) : List (Str × FieldKind × GoType) → List FieldInfo
  | [] => []
  | (name, kind, t) :: fs =>
    { index := pfx ++ [i], name := name, omitEmpty := kind == .omitempty, typ := t } ::
      flatInfos pfx (i + 1) fs

/-- No error was saved and none stopped the decoder. -/
def DecOut.clean (o : DecOut) : Prop := o.saved = none ∧ o.fatal = none

/-- The field at index `i` under `pfx` is written by the encoder: it is
among the fields `alive` and it is not an empty `omitempty` field. -/
def present (alive : List (List Nat)) (pfx : List Nat) (i : Nat) (kind : FieldKind)
    (v : GoVal) : Prop :=
  alive.contains (pfx ++ [i]) = true ∧ (kind = .plain ∨ isEmptyValue v = false)

instance (alive : List (List Nat)) (pfx : List Nat) (i : Nat) (kind : FieldKind) (v : GoVal) :
    Decidable (present alive pfx i kind v) := by
  unfold present
  infer_instance


/-- The zero `EveEvent` (`var e EveEvent`). -/
def zeroEvent : GoVal := GoType.zero (.struct EveEvent)

/-- The field `Timestamp` of an event record (its first field); `none` when
the pointer is nil. -/
def Timestamp (e : GoVal) : Option Time :=
  match e with
  | .struct vs =>
    match vs.get? 0 with
    | some (.time t) => t
    | _ => none
  | _ => none

/-- The assignment `e.Timestamp = &suriTime{t}`. -/
def setTimestamp (e : GoVal) (t : Time) : GoVal :=
  match e with
  | .struct vs => .struct (vs.set 0 (.time (some t)))
  | _ => e

mutual
/-- The value a decoder that starts from the zero value reads back from the
encoding of `v`: a timestamp comes back as its `reread`, and a field that
`omitempty` left out comes back as the zero value. -/
def GoType.norm : GoType → GoVal → GoVal
  | .suriTimePtr, .time (some t) => .time (some t.reread)
  | .struct fs, .struct vs => .struct (normFields fs vs)
  | .ptr fs, .ptr (.struct vs) => .ptr (.struct (normFields fs vs))
  | _, v => v
/-- The fields read back from the encoding of a struct. -/
def normFields : List (Str × FieldKind × GoType) → List GoVal → List GoVal
  | (_, kind, t) :: fs, v :: vs =>
    (if kind == .omitempty && isEmptyValue v then t.zero else t.norm v) :: normFields fs vs
  | _, _ => []
end

/-- An empty `[]string` that is not nil. -/
def GoVal.emptyList : GoVal → Bool
  | .strs (some []) => true
  | _ => false

mutual
/-- The value is read back unchanged from its encoding: its timestamps are
whole microseconds at an offset of whole minutes, and no `omitempty` field
holds an empty list that is not nil. -/
def GoType.stable : GoType → GoVal → Bool
  | .suriTimePtr, .time (some t) => decide (t.reread = t)
  | .struct fs, .struct vs => stableFields fs vs
  | .ptr fs, .ptr (.struct vs) => stableFields fs vs
  | _, _ => true
/-- The fields of a struct are read back unchanged. -/
def stableFields : List (Str × FieldKind × GoType) → List GoVal → Bool
  | (_, kind, t) :: fs, v :: vs =>
    !(kind == .omitempty && v.emptyList) && t.stable v && stableFields fs vs
  | _, _ => true
end

mutual
/-- A type of counters: `int`, or a struct whose fields are counters and are
always written. -/
def GoType.counters : GoType → Bool
  | .int => true
  | .struct fs => countersFields fs
  | _ => false
/-- The fields of a struct of counters. -/
def countersFields : List (Str × FieldKind × GoType) → Bool
  | [] => true
  | (_, kind, t) :: fs => kind == .plain && t.counters && countersFields fs
end

mutual
/-- The JSON value lists the fields of the type in the order of their
declaration, at every depth: an object for a struct has one member for each
field, in order. -/
def GoType.ordered : GoType → JSON → Bool
  | .struct fs, .obj ms => orderedFields fs ms
  | .struct _, _ => false
  | _, _ => true
/-- The members are those of the fields, in order. -/
def orderedFields : List (Str × FieldKind × GoType) → List (Str × JSON) → Bool
  | [], [] => true
  | (name, _, t) :: fs, (k, j) :: ms => name == k && t.ordered j && orderedFields fs ms
  | _, _ => false
end

/-- The field `Flow.Start` of an event record; `none` when a pointer on the
way is nil. -/
def flowStart (e : GoVal) : Option Time :=
  match e with
  | .struct vs =>
    match vs.get? 25 with
    | some (.ptr (.struct fvs)) =>
      match fvs.get? 4 with
      | some (.time t) => t
      | _ => none
    | _ => none
  | _ => none

/-- The record decoded, into a new `EveEvent`, from the encoding of `e`, and
the error of the encoding or of the decoding. -/
def EveEvent.recode (e : GoVal) : GoVal × Option Error :=
  match EveEvent.Marshal e with
  | .ok j => EveEvent.Unmarshal j zeroEvent
  | .error err => (zeroEvent, some err)

/-- A record of a flow as the sensor writes it, with the given text of the
timestamp `flow.start`. -/
def flowSample (start : Str) : JSON :=
  .obj [("timestamp".toList, .str "2017-03-06T06:54:10.839668+0000".toList),
    ("event_type".toList, .str "flow".toList),
    ("src_ip".toList, .str "10.0.0.1".toList),
    ("src_port".toList, .num "53".toList),
    ("proto".toList, .str "UDP".toList),
    ("flow".toList, .obj [
      ("pkts_toserver".toList, .num ['3']),
      ("pkts_toclient".toList, .num ['2']),
      ("bytes_toserver".toList, .num "200".toList),
      ("bytes_toclient".toList, .num "100".toList),
      ("start".toList, .str start),
      ("end".toList, .str "2017-03-06T06:54:10.839668+0000".toList),
      ("age".toList, .num ['4']),
      ("state".toList, .str "closed".toList),
      ("reason".toList, .str "timeout".toList)])]

/-- The call `UnmarshalJSON` with receiver `e0` on the bytes that
`MarshalJSON` returned for `e`: the receiver afterwards and the error of
either method. -/
def EveOutEvent.recode (e0 e : GoVal) : GoVal × Option Error :=
  match EveOutEvent.MarshalJSON e with
  | .ok j => EveOutEvent.UnmarshalJSON e0 j
  | .error err => (e0, some err)

/-- The text of a timestamp with the given fields of full width, with the
texts `w1 … w5` where the layout has its separators `-`, `-`, `T`, `:` and
`:`, and the text `zone` where it has the offset. -/
def stampShape (y mo d h mi s micro : Nat) (w1 w2 w3 w4 w5 zone : Str) : Str :=
  digitChar (y / 1000) :: digitChar (y / 100 % 10) :: digitChar (y / 10 % 10) ::
    digitChar (y % 10) ::
  (w1 ++ digitChar (mo / 10) :: digitChar (mo % 10) ::
  (w2 ++ digitChar (d / 10) :: digitChar (d % 10) ::
  (w3 ++ digitChar (h / 10) :: digitChar (h % 10) ::
  (w4 ++ digitChar (mi / 10) :: digitChar (mi % 10) ::
  (w5 ++ digitChar (s / 10) :: digitChar (s % 10) ::
  ((if micro = 0 then [] else '.' :: fracList 6 micro) ++ zone))))))

/-- The JSON value is one of those the encoder writes for an empty Go value,
which `omitempty` leaves out: `null`, `false`, `0`, `""` or `[]`. -/
def JSON.isZero : JSON → Bool
  | .null => true
  | .bool b => !b
  | .num lit => lit == ['0']
  | .str s => s.isEmpty
  | .arr xs => xs.isEmpty
  | .obj _ => false

/-- An event record of a DNS query: a timestamp, the type `dns`, a negative
`FlowID`, a source address and port and the protocol. -/
def sampleEvent : GoVal :=
  .struct (((((((zeroFields EveEvent).set 0
    (.time (some { unix := 1488783250, nsec := 839668000, offset := 0 }))).set 1
    (.str "dns".toList)).set 2 (.int (-42))).set 4 (.str "10.0.0.1".toList)).set 5
    (.int 53)).set 10 (.str "UDP".toList))

/-- A stats body with an uptime of one day, 1000 captured packets and 7
dropped ones; the other counters are 0. -/
def statsSample : List GoVal :=
  ((zeroFields statsEvent).set 0 (.int 86400)).set 1 (.struct [.int 1000, .int 7])

/-- The fields of an event record of type `stats` that carries `statsSample`. -/
def statsRecord : List GoVal :=
  (((zeroFields EveEvent).set 0
    (.time (some { unix := 1488783250, nsec := 839668000, offset := 0 }))).set 1
    (.str "stats".toList)).set 28 (.ptr (.struct statsSample))
/-! ## Theorems -/

/-! ### Digits -/

theorem isDigitChar_digitChar : ∀ d, d < 10 → isDigitChar (digitChar d) = true := by decide

theorem digitVal_digitChar : ∀ d, d < 10 → digitVal (digitChar d) = d := by decide

theorem decimalAux_acc (fuel u : Nat) (acc : Str) :
    decimalAux fuel u acc = decimalAux fuel u [] ++ acc := by
  induction fuel generalizing u acc with
  | zero => simp [decimalAux]
  | succ f ih =>
    unfold decimalAux
    split
    · simp
    · rw [ih (u / 10) (digitChar (u % 10) :: acc), ih (u / 10) [digitChar (u % 10)]]
      simp

theorem decimalAux_fuel (f g u : Nat) (acc : Str) (hf : u < f) (hg : u < g) :
    decimalAux f u acc = decimalAux g u acc := by
  induction f generalizing g u acc with
  | zero => omega
  | succ f ih =>
    cases g with
    | zero => omega
    | succ g =>
      unfold decimalAux
      split
      · rfl
      · exact ih g (u / 10) _ (by omega) (by omega)

theorem decimal_lt (u : Nat) (h : u < 10) : decimal u = [digitChar u] := by
  simp [decimal, decimalAux, h]

theorem decimal_ge (u : Nat) (h : 10 ≤ u) :
    decimal u = decimal (u / 10) ++ [digitChar (u % 10)] := by
  have h1 : ¬ u < 10 := by omega
  rw [decimal, decimalAux]
  simp only [h1, if_false]
  rw [decimalAux_acc, decimalAux_fuel u (u / 10 + 1) (u / 10) [] (by omega) (by omega)]
  rfl

theorem appendInt_nil (b : Str) (x : Int) (w : Nat) : appendInt b x w = b ++ appendInt [] x w := by
  unfold appendInt
  split <;> simp

theorem decimal_length_pos (u : Nat) : 0 < (decimal u).length := by
  by_cases h : u < 10
  · simp [decimal_lt u h]
  · rw [decimal_ge u (by omega)]; simp

theorem appendInt_two (b : Str) (x : Nat) (h : x < 100) :
    appendInt b (x : Int) 2 = b ++ [digitChar (x / 10), digitChar (x % 10)] := by
  have hx : ¬ ((x : Int) < 0) := by omega
  unfold appendInt
  simp only [hx, if_false, Int.natAbs_ofNat]
  by_cases h10 : x < 10
  · rw [decimal_lt x h10]
    have : x / 10 = 0 := by omega
    have h2 : x % 10 = x := by omega
    simp [this, h2, digitChar]
  · rw [decimal_ge x (by omega), decimal_lt (x / 10) (by omega)]
    simp

theorem appendInt_four (b : Str) (x : Nat) (h : x < 10000) :
    appendInt b (x : Int) 4 =
      b ++ [digitChar (x / 1000), digitChar (x / 100 % 10), digitChar (x / 10 % 10),
        digitChar (x % 10)] := by
  have hx : ¬ ((x : Int) < 0) := by omega
  unfold appendInt
  simp only [hx, if_false, Int.natAbs_ofNat]
  by_cases h10 : x < 10
  · rw [decimal_lt x h10]
    have e1 : x / 1000 = 0 := by omega
    have e2 : x / 100 % 10 = 0 := by omega
    have e3 : x / 10 % 10 = 0 := by omega
    have e4 : x % 10 = x := by omega
    simp [e1, e2, e3, e4, digitChar]
  · by_cases h100 : x < 100
    · rw [decimal_ge x (by omega), decimal_lt (x / 10) (by omega)]
      have e1 : x / 1000 = 0 := by omega
      have e2 : x / 100 % 10 = 0 := by omega
      have e3 : x / 10 % 10 = x / 10 := by omega
      simp [e1, e2, e3, digitChar]
    · by_cases h1000 : x < 1000
      · rw [decimal_ge x (by omega), decimal_ge (x / 10) (by omega),
          decimal_lt (x / 10 / 10) (by omega)]
        have e1 : x / 1000 = 0 := by omega
        have e2 : x / 100 % 10 = x / 10 / 10 := by omega
        simp [e1, e2, digitChar]
      · rw [decimal_ge x (by omega), decimal_ge (x / 10) (by omega),
          decimal_ge (x / 10 / 10) (by omega), decimal_lt (x / 10 / 10 / 10) (by omega)]
        have e1 : x / 1000 = x / 10 / 10 / 10 := by omega
        have e2 : x / 100 % 10 = x / 10 / 10 % 10 := by omega
        simp [e1, e2]

/-! ### Calendar arithmetic -/

theorem cycle100 (d1 : Nat) (h : d1 < 146097) :
    d1 / 36524 - d1 / 36524 / 4 ≤ 3 ∧
    d1 - 36524 * (d1 / 36524 - d1 / 36524 / 4) ≤ 36524 ∧
    36524 * (d1 / 36524 - d1 / 36524 / 4) ≤ d1 ∧
    (d1 - 36524 * (d1 / 36524 - d1 / 36524 / 4) = 36524 →
      d1 / 36524 - d1 / 36524 / 4 = 3) := by
  omega

theorem cycle4 (d2 : Nat) (h : d2 ≤ 36524) :
    d2 / 1461 ≤ 24 ∧ d2 - 1461 * (d2 / 1461) ≤ 1460 ∧ 1461 * (d2 / 1461) ≤ d2 ∧
    (d2 / 1461 = 24 → d2 - 1461 * (d2 / 1461) = 1460 → d2 = 36524) := by
  omega

theorem cycle1 (d3 : Nat) (h : d3 ≤ 1460) :
    d3 / 365 - d3 / 365 / 4 ≤ 3 ∧
    d3 - 365 * (d3 / 365 - d3 / 365 / 4) ≤ 365 ∧
    365 * (d3 / 365 - d3 / 365 / 4) ≤ d3 ∧
    (d3 - 365 * (d3 / 365 - d3 / 365 / 4) = 365 →
      d3 / 365 - d3 / 365 / 4 = 3 ∧ d3 = 1460) := by
  omega

theorem yearSplit (n1 n2 n3 n4 y : Nat) (h2 : n2 ≤ 3) (h3 : n3 ≤ 24) (h4 : n4 ≤ 3)
    (hy : y = 400 * n1 + 100 * n2 + 4 * n3 + n4) :
    y / 400 = n1 ∧ (y - 400 * n1) / 100 = n2 ∧ (y - 400 * n1 - 100 * n2) / 4 = n3 ∧
      y - 400 * n1 - 100 * n2 - 4 * n3 = n4 := by
  omega

set_option maxRecDepth 100000 in
theorem monthDay_spec : ∀ leap : Bool, ∀ yday, yday < 366 → (leap = true ∨ yday < 365) →
    1 ≤ (monthDay leap yday).1 ∧ (monthDay leap yday).1 ≤ 12 ∧
    1 ≤ (monthDay leap yday).2 ∧
    (monthDay leap yday).2 ≤
      (if (monthDay leap yday).1 = 2 ∧ leap = true then 29
       else daysBefore (monthDay leap yday).1 - daysBefore ((monthDay leap yday).1 - 1)) ∧
    daysBefore ((monthDay leap yday).1 - 1) +
      (if leap = true ∧ (monthDay leap yday).1 ≥ 3 then 1 else 0) +
      ((monthDay leap yday).2 - 1) = yday := by
  decide

theorem isLeap_cycles (n1 n2 n3 n4 : Nat) (h2 : n2 ≤ 3) (h3 : n3 ≤ 24) (h4 : n4 ≤ 3) :
    isLeap (((400 * n1 + 100 * n2 + 4 * n3 + n4 : Nat) : Int) + absoluteZeroYear) =
      decide (n4 = 3 ∧ (n3 ≠ 24 ∨ n2 = 3)) := by
  unfold isLeap absoluteZeroYear
  rw [Bool.eq_iff_iff]
  simp only [Bool.and_eq_true, Bool.or_eq_true, decide_eq_true_eq]
  omega

theorem absDate_eq (abs : Nat) :
    absDate abs =
      (((absYearDay abs).1 : Int) + absoluteZeroYear,
        monthDay (isLeap (((absYearDay abs).1 : Int) + absoluteZeroYear)) (absYearDay abs).2) := by
  unfold absDate absYearDay monthDay
  simp only []
  split_ifs <;> simp_all

theorem absYearDay_spec (abs : Nat) :
    ∃ n1 n2 n3 n4 : Nat, n2 ≤ 3 ∧ n3 ≤ 24 ∧ n4 ≤ 3 ∧
      (absYearDay abs).1 = 400 * n1 + 100 * n2 + 4 * n3 + n4 ∧
      abs / 86400 = 146097 * n1 + 36524 * n2 + 1461 * n3 + 365 * n4 + (absYearDay abs).2 ∧
      ((absYearDay abs).2 < 365 ∨ ((absYearDay abs).2 = 365 ∧ n4 = 3 ∧ (n3 ≠ 24 ∨ n2 = 3))) := by
  unfold absYearDay
  simp only [secondsPerDay, secondsPerHour, secondsPerMinute, daysPer400Years, daysPer100Years,
    daysPer4Years, Nat.reduceMul, Nat.reduceAdd]
  generalize abs / 86400 = D
  have hd1 : D - 146097 * (D / 146097) < 146097 := by omega
  have hD : 146097 * (D / 146097) ≤ D := by omega
  generalize D / 146097 = n1 at *
  generalize hd1e : D - 146097 * n1 = d1 at *
  obtain ⟨a1, a2, a3, a4⟩ := cycle100 d1 hd1
  generalize d1 / 36524 - d1 / 36524 / 4 = n2 at *
  generalize hd2e : d1 - 36524 * n2 = d2 at *
  obtain ⟨b1, b2, b3, b4⟩ := cycle4 d2 a2
  generalize d2 / 1461 = n3 at *
  generalize hd3e : d2 - 1461 * n3 = d3 at *
  obtain ⟨c1, c2, c3, c4⟩ := cycle1 d3 b2
  generalize d3 / 365 - d3 / 365 / 4 = n4 at *
  generalize hyd : d3 - 365 * n4 = yday at *
  refine ⟨n1, n2, n3, n4, a1, b1, c1, rfl, by omega, ?_⟩
  by_cases hlt : yday < 365
  · exact Or.inl hlt
  · have e : yday = 365 := by omega
    obtain ⟨f1, f2⟩ := c4 e
    refine Or.inr ⟨e, f1, ?_⟩
    by_cases h24 : n3 = 24
    · exact Or.inr (a4 (b4 h24 f2))
    · exact Or.inl h24

theorem daysSinceEpoch_cycles (n1 n2 n3 n4 : Nat) (h2 : n2 ≤ 3) (h3 : n3 ≤ 24) (h4 : n4 ≤ 3)
    (hn : 400 * n1 + 100 * n2 + 4 * n3 + n4 < 18446744073709551616) :
    daysSinceEpoch (((400 * n1 + 100 * n2 + 4 * n3 + n4 : Nat) : Int) + absoluteZeroYear) =
      146097 * n1 + 36524 * n2 + 1461 * n3 + 365 * n4 := by
  unfold daysSinceEpoch
  have e : toUint64 (((400 * n1 + 100 * n2 + 4 * n3 + n4 : Nat) : Int) + absoluteZeroYear
      - absoluteZeroYear) = 400 * n1 + 100 * n2 + 4 * n3 + n4 := by
    unfold toUint64
    rw [add_sub_cancel_right, Int.emod_eq_of_lt (by omega) (by omega)]
    exact Int.toNat_ofNat _
  rw [e]
  generalize hy : 400 * n1 + 100 * n2 + 4 * n3 + n4 = y at *
  obtain ⟨e1, e2, e3, e4⟩ := yearSplit n1 n2 n3 n4 y h2 h3 h4 hy.symm
  simp only [daysPer400Years, daysPer100Years, daysPer4Years, Nat.reduceMul, Nat.reduceAdd]
  rw [e1, e2, e3, e4]

theorem absDate_spec (abs : Nat) (h0 : absYear0 ≤ abs) (h1 : abs < absYear10000) :
    0 ≤ (absDate abs).1 ∧ (absDate abs).1 ≤ 9999 ∧
    1 ≤ (absDate abs).2.1 ∧ (absDate abs).2.1 ≤ 12 ∧
    1 ≤ (absDate abs).2.2 ∧ (absDate abs).2.2 ≤ daysIn (absDate abs).2.1 (absDate abs).1 ∧
    daysSinceEpoch (absDate abs).1 + daysBefore ((absDate abs).2.1 - 1) +
      (if isLeap (absDate abs).1 = true ∧ (absDate abs).2.1 ≥ 3 then 1 else 0) +
      ((absDate abs).2.2 - 1) = abs / 86400 := by
  obtain ⟨n1, n2, n3, n4, h2, h3, h4, hy, hD, hleap⟩ := absYearDay_spec abs
  rw [absDate_eq]
  simp only [absYear0, absYear10000] at h0 h1
  have hleapEq := isLeap_cycles n1 n2 n3 n4 h2 h3 h4
  have hlo : 106751990353566 ≤ abs / 86400 := by omega
  have hhi : abs / 86400 < 106751994005991 := by omega
  have hdse := daysSinceEpoch_cycles n1 n2 n3 n4 h2 h3 h4 (by omega)
  rw [hy]
  generalize (absYearDay abs).2 = yday at *
  generalize abs / 86400 = D at *
  have hyd : yday < 366 := by omega
  have hl : (isLeap (((400 * n1 + 100 * n2 + 4 * n3 + n4 : Nat) : Int) + absoluteZeroYear) = true
      ∨ yday < 365) := by
    rw [hleapEq]
    rcases hleap with h | ⟨_, h, h'⟩
    · exact Or.inr h
    · exact Or.inl (by simp [h, h'])
  obtain ⟨m1, m2, m3, m4, m5⟩ := monthDay_spec _ yday hyd hl
  have hR : yday ≤ 364 ∨ n4 = 3 := by omega
  have r1 : 730692555 ≤ n1 := by omega
  have r2 : n1 ≤ 730692580 := by omega
  have r3 : n1 = 730692555 → n2 = 3 ∧ n3 = 24 ∧ n4 = 3 := by
    intro h
    subst h
    have : n2 = 3 := by omega
    subst this
    have : n3 = 24 := by omega
    subst this
    omega
  have r4 : n1 = 730692580 → 100 * n2 + 4 * n3 + n4 ≤ 398 := by
    intro h
    subst h
    omega
  refine ⟨?_, ?_, m1, m2, m3, ?_, ?_⟩
  · dsimp only [absoluteZeroYear]
    by_cases h : n1 = 730692555
    · obtain ⟨q1, q2, q3⟩ := r3 h
      omega
    · omega
  · dsimp only [absoluteZeroYear]
    by_cases h : n1 = 730692580
    · have := r4 h
      omega
    · omega
  · unfold daysIn
    simpa using m4
  · rw [hdse]
    simp only [] at m5 ⊢
    omega

theorem norm_id (hi lo base : Int) (h0 : 0 ≤ lo) (h1 : lo < base) : norm hi lo base = (hi, lo) := by
  unfold norm
  have a : ¬ lo < 0 := by omega
  have b : ¬ lo ≥ base := by omega
  simp [a, b]

theorem absClock_spec (abs : Nat) :
    (absClock abs).1 < 24 ∧ (absClock abs).2.1 < 60 ∧ (absClock abs).2.2 < 60 ∧
    (absClock abs).1 * 3600 + (absClock abs).2.1 * 60 + (absClock abs).2.2 = abs % 86400 := by
  unfold absClock
  simp only [secondsPerDay, secondsPerHour, secondsPerMinute, Nat.reduceMul]
  have h : abs % 86400 < 86400 := Nat.mod_lt _ (by decide)
  generalize abs % 86400 = s at *
  omega

theorem dateUnix_abs (abs : Nat) (nsec : Nat) (h0 : absYear0 ≤ abs) (h1 : abs < absYear10000)
    (hn : nsec < 1000000000) :
    dateUnix (absDate abs).1 (absDate abs).2.1 (absDate abs).2.2 (absClock abs).1
      (absClock abs).2.1 (absClock abs).2.2 nsec = ((abs : Int) - unixToAbsolute, (nsec : Int)) := by
  obtain ⟨y0, y1, m0, m1, d0, d1, hsum⟩ := absDate_spec abs h0 h1
  obtain ⟨c1, c2, c3, csum⟩ := absClock_spec abs
  generalize (absDate abs).1 = year at *
  generalize (absDate abs).2.1 = month at *
  generalize (absDate abs).2.2 = day at *
  generalize (absClock abs).1 = hour at *
  generalize (absClock abs).2.1 = min at *
  generalize (absClock abs).2.2 = sec at *
  unfold dateUnix
  have n1 := norm_id year ((month : Int) - 1) 12 (by omega) (by omega)
  have n2 := norm_id sec nsec 1000000000 (by omega) (by omega)
  have n3 := norm_id min sec 60 (by omega) (by omega)
  have n4 := norm_id hour min 60 (by omega) (by omega)
  have n5 := norm_id day hour 24 (by omega) (by omega)
  simp only [n1, n2, n3, n4, n5]
  have e1 : ((month : Int) - 1 + 1 - 1).toNat = month - 1 := by omega
  have e2 : ((month : Int) - 1 + 1 ≥ 3) ↔ month ≥ 3 := by omega
  rw [e1]
  simp only [e2]
  simp only [absYear0, absYear10000] at h0 h1
  have hD : abs / 86400 < 106751994005991 := by omega
  generalize hd : (daysSinceEpoch year + daysBefore (month - 1)) = dd at *
  have e3 : (if isLeap year = true ∧ month ≥ 3 then dd + 1 else dd) =
      dd + (if isLeap year = true ∧ month ≥ 3 then 1 else 0) := by
    split <;> rfl
  rw [e3]
  generalize (if isLeap year = true ∧ month ≥ 3 then 1 else 0) = lp at *
  have e4 : toUint64 (((dd + lp : Nat) : Int) + ((day : Int) - 1)) = abs / 86400 := by
    unfold toUint64
    rw [Int.emod_eq_of_lt (by omega) (by omega)]
    omega
  rw [e4]
  simp only [secondsPerDay, secondsPerHour, secondsPerMinute, Nat.reduceMul, unixToAbsolute]
  have e5 : toUint64 (((abs / 86400 * 86400 : Nat) : Int) +
      ((hour : Int) * (3600 : Nat) + (min : Int) * (60 : Nat) + (sec : Int))) = abs := by
    unfold toUint64
    rw [Int.emod_eq_of_lt (by omega) (by omega)]
    omega
  rw [e5]
  unfold toInt64
  rw [Int.emod_eq_of_lt (by omega) (by omega)]
  simp

/-! ### Zero-padded decimals and fractions -/

theorem appendInt_natCast (b : Str) (n w : Nat) : appendInt b (n : Int) w = b ++ pad w n := by
  have hx : ¬ ((n : Int) < 0) := by omega
  unfold appendInt pad
  simp only [hx, if_false, Int.natAbs_ofNat, List.append_assoc]

theorem pad_one (u : Nat) (h : u < 10) : pad 1 u = [digitChar u] := by
  simp [pad, decimal_lt u h]

theorem pad_succ (w u : Nat) (hw : 1 ≤ w) :
    pad (w + 1) u = pad w (u / 10) ++ [digitChar (u % 10)] := by
  unfold pad
  by_cases h : u < 10
  · have e0 : u / 10 = 0 := by omega
    have e1 : u % 10 = u := by omega
    rw [decimal_lt u h, e0, e1, decimal_lt 0 (by omega)]
    simp only [List.length_singleton, Nat.add_sub_cancel]
    have : w = (w - 1) + 1 := by omega
    conv_lhs => rw [this, List.replicate_succ']
    simp [digitChar]
  · rw [decimal_ge u (by omega)]
    simp

theorem pad_length (w u : Nat) (hw : 1 ≤ w) (hu : u < 10 ^ w) : (pad w u).length = w := by
  induction w generalizing u with
  | zero => omega
  | succ w ih =>
    by_cases h1 : w = 0
    · subst h1
      rw [pad_one u (by simpa using hu)]
      rfl
    · rw [pad_succ w u (by omega)]
      have : u / 10 < 10 ^ w := by
        rw [Nat.div_lt_iff_lt_mul (by decide)]
        rw [pow_succ] at hu
        exact hu
      simp [ih (u / 10) (by omega) this]

theorem digitChar_eq_zero : ∀ d, d < 10 → (digitChar d = '0' ↔ d = 0) := by decide

theorem trimRight_snoc (c x : Char) (xs : Str) :
    trimRight c (xs ++ [x]) = if x = c then trimRight c xs else xs ++ [x] := by
  unfold trimRight
  simp only [List.reverse_append, List.reverse_cons, List.reverse_nil, List.nil_append,
    List.singleton_append, List.dropWhile_cons, beq_iff_eq]
  split <;> simp

theorem trimRight_pad (w v : Nat) (hw : 1 ≤ w) (hv : v < 10 ^ w) :
    trimRight '0' (pad w v) = fracList w v := by
  induction w generalizing v with
  | zero => omega
  | succ w ih =>
    by_cases h1 : w = 0
    · subst h1
      have hv' : v < 10 := by simpa using hv
      have e1 : v % 10 = v := by omega
      have hsn := trimRight_snoc '0' (digitChar v) []
      simp only [List.nil_append] at hsn
      rw [pad_one v hv', hsn]
      by_cases hz : v = 0
      · subst hz
        rfl
      · have hne : ¬ digitChar v = '0' := fun h => hz ((digitChar_eq_zero v hv').1 h)
        have hm : ¬ v % 10 = 0 := by omega
        simp only [fracList, hne, hm, if_false]
        rw [pad_one v hv']
    · have hlt : v / 10 < 10 ^ w := by
        rw [Nat.div_lt_iff_lt_mul (by decide)]
        rw [pow_succ] at hv
        exact hv
      rw [pad_succ w v (by omega), trimRight_snoc]
      by_cases hz : v % 10 = 0
      · have he : digitChar (v % 10) = '0' := (digitChar_eq_zero _ (by omega)).2 hz
        simp only [fracList, he, hz, if_true]
        exact ih (v / 10) (by omega) hlt
      · have hne : ¬ digitChar (v % 10) = '0' :=
          fun h => hz ((digitChar_eq_zero _ (Nat.mod_lt _ (by decide))).1 h)
        simp only [fracList, hne, hz, if_false]
        rw [pad_succ w v (by omega)]

theorem isDigitChar_of_mem_decimal (u : Nat) : ∀ c ∈ decimal u, isDigitChar c = true := by
  induction u using Nat.strong_induction_on with
  | _ u ih =>
    by_cases h : u < 10
    · rw [decimal_lt u h]
      intro c hc
      simp only [List.mem_singleton] at hc
      subst hc
      exact isDigitChar_digitChar u h
    · rw [decimal_ge u (by omega)]
      intro c hc
      simp only [List.mem_append, List.mem_singleton] at hc
      rcases hc with hc | hc
      · exact ih (u / 10) (by omega) c hc
      · subst hc
        exact isDigitChar_digitChar _ (Nat.mod_lt _ (by decide))

theorem isDigitChar_of_mem_pad (w u : Nat) : ∀ c ∈ pad w u, isDigitChar c = true := by
  intro c hc
  unfold pad at hc
  simp only [List.mem_append, List.mem_replicate] at hc
  rcases hc with ⟨_, hc⟩ | hc
  · subst hc; rfl
  · exact isDigitChar_of_mem_decimal u c hc

theorem isDigitChar_of_mem_fracList (w v : Nat) : ∀ c ∈ fracList w v, isDigitChar c = true := by
  induction w generalizing v with
  | zero => intro c hc; simp [fracList] at hc
  | succ w ih =>
    intro c hc
    unfold fracList at hc
    split at hc
    · exact ih _ c hc
    · exact isDigitChar_of_mem_pad _ _ c hc

theorem pad_ne_nil (w u : Nat) : pad w u ≠ [] := by
  unfold pad
  have := decimal_length_pos u
  intro h
  simp only [List.append_eq_nil] at h
  rw [h.2] at this
  simp at this

theorem fracList_eq_nil (w v : Nat) (hv : v < 10 ^ w) : fracList w v = [] ↔ v = 0 := by
  induction w generalizing v with
  | zero => simp at hv; simp [fracList, hv]
  | succ w ih =>
    have hlt : v / 10 < 10 ^ w := by
      rw [Nat.div_lt_iff_lt_mul (by decide)]
      rw [pow_succ] at hv
      exact hv
    unfold fracList
    split
    · rw [ih _ hlt]; omega
    · constructor
      · intro h; exact absurd h (pad_ne_nil _ _)
      · intro h; omega

theorem fracList_length_le (w v : Nat) (hv : v < 10 ^ w) : (fracList w v).length ≤ w := by
  induction w generalizing v with
  | zero => simp [fracList]
  | succ w ih =>
    have hlt : v / 10 < 10 ^ w := by
      rw [Nat.div_lt_iff_lt_mul (by decide)]
      rw [pow_succ] at hv
      exact hv
    unfold fracList
    split
    · have := ih _ hlt; omega
    · rw [pad_length _ _ (by omega) hv]

theorem valOf_snoc (ds : Str) (c : Char) (x : Nat) :
    valOf (ds ++ [c]) x = valOf ds x * 10 + digitVal c := by
  simp [valOf, List.foldl_append]

theorem valOf_pad (w v : Nat) (hw : 1 ≤ w) (hv : v < 10 ^ w) : valOf (pad w v) 0 = v := by
  induction w generalizing v with
  | zero => omega
  | succ w ih =>
    by_cases h1 : w = 0
    · subst h1
      have hv' : v < 10 := by simpa using hv
      rw [pad_one v hv']
      simp [valOf, digitVal_digitChar v hv']
    · have hlt : v / 10 < 10 ^ w := by
        rw [Nat.div_lt_iff_lt_mul (by decide)]
        rw [pow_succ] at hv
        exact hv
      rw [pad_succ w v (by omega), valOf_snoc, ih _ (by omega) hlt,
        digitVal_digitChar _ (Nat.mod_lt _ (by decide))]
      omega

theorem valOf_fracList (w v : Nat) (hv : v < 10 ^ w) :
    valOf (fracList w v) 0 * 10 ^ (w - (fracList w v).length) = v := by
  induction w generalizing v with
  | zero => simp at hv; simp [fracList, valOf, hv]
  | succ w ih =>
    have hlt : v / 10 < 10 ^ w := by
      rw [Nat.div_lt_iff_lt_mul (by decide)]
      rw [pow_succ] at hv
      exact hv
    unfold fracList
    split
    · rename_i hz
      have hl := fracList_length_le w (v / 10) hlt
      have e : w + 1 - (fracList w (v / 10)).length = (w - (fracList w (v / 10)).length) + 1 := by
        omega
      rw [e, pow_succ, ← Nat.mul_assoc, ih _ hlt]
      omega
    · rw [pad_length _ _ (by omega) hv, valOf_pad _ _ (by omega) hv]
      simp

/-! ### Reading digits back -/

theorem valOf_ge (ds : Str) (x : Nat) : x ≤ valOf ds x := by
  induction ds generalizing x with
  | nil => simp [valOf]
  | cons c ds ih =>
    have := ih (x * 10 + digitVal c)
    simp only [valOf, List.foldl_cons] at this ⊢
    omega

theorem leadingInt_digits (ds z : Str) (x : Nat) (hd : ∀ c ∈ ds, isDigitChar c = true)
    (hz : ∀ c, z.head? = some c → isDigitChar c = false)
    (hb : valOf ds x ≤ 922337203685477580) :
    leadingInt (ds ++ z) x = .ok (valOf ds x, z) := by
  induction ds generalizing x with
  | nil =>
    cases z with
    | nil => simp [leadingInt, valOf]
    | cons c z =>
      have := hz c rfl
      simp [leadingInt, valOf, this]
  | cons c ds ih =>
    have hc : isDigitChar c = true := hd c (List.mem_cons_self _ _)
    have hge := valOf_ge ds (x * 10 + digitVal c)
    have hv : valOf (c :: ds) x = valOf ds (x * 10 + digitVal c) := by
      simp [valOf]
    rw [hv] at hb ⊢
    have h1 : ¬ x > 9223372036854775808 / 10 := by omega
    have h2 : ¬ x * 10 + digitVal c > 9223372036854775808 := by omega
    simp only [List.cons_append, leadingInt, hc, Bool.not_true, Bool.false_eq_true, if_false, h1,
      h2]
    exact ih _ (fun c' hc' => hd c' (List.mem_cons_of_mem _ hc')) hb

theorem atoi_digits (ds : Str) (hne : ds ≠ []) (hd : ∀ c ∈ ds, isDigitChar c = true)
    (hb : valOf ds 0 ≤ 922337203685477580) : atoi ds = .ok (valOf ds 0 : Int) := by
  unfold atoi
  cases ds with
  | nil => exact absurd rfl hne
  | cons c ds =>
    have hc : isDigitChar c = true := hd c (List.mem_cons_self _ _)
    have h1 : c ≠ '-' := by
      intro h; subst h; revert hc; decide
    have h2 : c ≠ '+' := by
      intro h; subst h; revert hc; decide
    have := leadingInt_digits (c :: ds) [] 0 hd (by simp) hb
    simp only [List.append_nil] at this
    simp [h1, h2, this]

theorem dropWhile_append_stop {α : Type} (p : α → Bool) (l1 l2 : List α) (x : α)
    (hx : p x = false) : (l1 ++ x :: l2).dropWhile p = l1.dropWhile p ++ x :: l2 := by
  induction l1 with
  | nil => simp [List.dropWhile, hx]
  | cons a l1 ih =>
    simp only [List.cons_append, List.dropWhile_cons]
    split
    · exact ih
    · rfl

theorem trimRight_sep (c x : Char) (b ds : Str) (hx : x ≠ c) :
    trimRight c (b ++ x :: ds) = b ++ x :: trimRight c ds := by
  unfold trimRight
  have : (b ++ x :: ds).reverse = ds.reverse ++ x :: b.reverse := by simp
  rw [this, dropWhile_append_stop _ _ _ _ (by simpa using hx)]
  simp

theorem pad_nine (ns : Nat) :
    pad 9 ns = pad 6 (ns / 1000) ++
      [digitChar (ns / 100 % 10), digitChar (ns / 10 % 10), digitChar (ns % 10)] := by
  rw [pad_succ 8 ns (by omega), pad_succ 7 (ns / 10) (by omega), pad_succ 6 (ns / 10 / 10) (by omega)]
  have e1 : ns / 10 / 10 / 10 = ns / 1000 := by omega
  have e2 : ns / 10 / 10 % 10 = ns / 100 % 10 := by omega
  rw [e1, e2]
  simp

theorem appendNano_eq (b : Str) (ns : Nat) (h : ns < 1000000000) :
    appendNano b ns = b ++ (if ns / 1000 = 0 then [] else '.' :: fracList 6 (ns / 1000)) := by
  unfold appendNano
  by_cases h0 : ns = 0
  · subst h0; simp
  · simp only [h0, if_false]
    have hm : ns / 1000 < 10 ^ 6 := by omega
    have hlen := pad_length 6 (ns / 1000) (by omega) hm
    rw [appendInt_natCast, pad_nine]
    have e : ((b ++ ['.'] ++ (pad 6 (ns / 1000) ++
        [digitChar (ns / 100 % 10), digitChar (ns / 10 % 10), digitChar (ns % 10)]))).take
          ((b ++ ['.'] ++ (pad 6 (ns / 1000) ++
        [digitChar (ns / 100 % 10), digitChar (ns / 10 % 10), digitChar (ns % 10)])).length - 9 + 6)
        = b ++ '.' :: pad 6 (ns / 1000) := by
      have e1 : (b ++ ['.'] ++ (pad 6 (ns / 1000) ++
          [digitChar (ns / 100 % 10), digitChar (ns / 10 % 10), digitChar (ns % 10)])) =
          (b ++ '.' :: pad 6 (ns / 1000)) ++
          [digitChar (ns / 100 % 10), digitChar (ns / 10 % 10), digitChar (ns % 10)] := by simp
      rw [e1]
      have e2 : ((b ++ '.' :: pad 6 (ns / 1000)) ++
          [digitChar (ns / 100 % 10), digitChar (ns / 10 % 10), digitChar (ns % 10)]).length - 9 + 6
          = (b ++ '.' :: pad 6 (ns / 1000)).length := by
        simp [hlen]
      rw [e2, List.take_left']
      rfl
    simp only [e]
    rw [trimRight_sep '0' '.' b _ (by decide), trimRight_pad 6 _ (by omega) hm]
    by_cases hz : ns / 1000 = 0
    · have : fracList 6 (ns / 1000) = [] := (fracList_eq_nil 6 _ hm).2 hz
      rw [this, if_pos hz]
      simp
    · have hne : fracList 6 (ns / 1000) ≠ [] := fun h => hz ((fracList_eq_nil 6 _ hm).1 h)
      have hlast : (b ++ '.' :: fracList 6 (ns / 1000)).getLast? ≠ some '.' := by
        have e3 : b ++ '.' :: fracList 6 (ns / 1000) = (b ++ ['.']) ++ fracList 6 (ns / 1000) := by
          simp
        rw [e3, List.getLast?_append_of_ne_nil _ hne, List.getLast?_eq_getLast _ hne]
        have hd := isDigitChar_of_mem_fracList 6 _ _ (List.getLast_mem hne)
        intro h
        injection h with h
        rw [h] at hd
        revert hd
        decide
      rw [if_neg hlast, if_neg hz]

theorem takeWhile_append_stop {α : Type} (p : α → Bool) (l z : List α)
    (hl : ∀ c ∈ l, p c = true) (hz : ∀ c, z.head? = some c → p c = false) :
    (l ++ z).takeWhile p = l := by
  induction l with
  | nil =>
    cases z with
    | nil => rfl
    | cons c z => simp [List.takeWhile, hz c rfl]
  | cons a l ih =>
    simp only [List.cons_append, List.takeWhile_cons, hl a (List.mem_cons_self _ _), if_true]
    rw [ih (fun c hc => hl c (List.mem_cons_of_mem _ hc))]

theorem valOf_le_of_digits (ds : Str) (hd : ∀ c ∈ ds, isDigitChar c = true) (x : Nat) :
    valOf ds x < (x + 1) * 10 ^ ds.length := by
  induction ds generalizing x with
  | nil => simp [valOf]
  | cons c ds ih =>
    have hc : isDigitChar c = true := hd c (List.mem_cons_self _ _)
    have hv : digitVal c ≤ 9 := by
      unfold isDigitChar at hc
      unfold digitVal
      simp only [Bool.and_eq_true, decide_eq_true_eq] at hc
      omega
    have := ih (fun c' hc' => hd c' (List.mem_cons_of_mem _ hc')) (x * 10 + digitVal c)
    simp only [valOf, List.foldl_cons, List.length_cons, pow_succ] at this ⊢
    calc List.foldl (fun a c => a * 10 + digitVal c) (x * 10 + digitVal c) ds
        < (x * 10 + digitVal c + 1) * 10 ^ ds.length := this
      _ ≤ ((x + 1) * 10) * 10 ^ ds.length := Nat.mul_le_mul_right _ (by omega)
      _ = (x + 1) * (10 ^ ds.length * 10) := by ring

theorem parseFrac_frac (m : Nat) (hm : m < 1000000) (z : Str)
    (hz : ∀ c, z.head? = some c → isDigitChar c = false ∧ commaOrPeriod c = false) :
    parseFrac ((if m = 0 then [] else '.' :: fracList 6 m) ++ z) = .ok (m * 1000, z) := by
  have hm' : m < 10 ^ 6 := by omega
  by_cases h0 : m = 0
  · subst h0
    simp only [if_true, List.nil_append, parseFrac]
    have : (Option.map commaOrPeriod z.head?).getD false = false := by
      cases z with
      | nil => rfl
      | cons c z => simp [(hz c rfl).2]
    simp [this]
  · simp only [h0, if_false]
    have hne : fracList 6 m ≠ [] := fun h => h0 ((fracList_eq_nil 6 _ hm').1 h)
    have hd := isDigitChar_of_mem_fracList 6 m
    have hlen := fracList_length_le 6 m hm'
    have hval := valOf_fracList 6 m hm'
    generalize fracList 6 m = fl at *
    obtain ⟨c, fl', rfl⟩ := List.exists_cons_of_ne_nil hne
    have hc : isDigitChar c = true := hd c (List.mem_cons_self _ _)
    have htw : ((c :: fl') ++ z).takeWhile isDigitChar = c :: fl' :=
      takeWhile_append_stop _ _ _ hd (fun c' hc' => (hz c' hc').1)
    have hbound : valOf (c :: fl') 0 ≤ 922337203685477580 := by
      have := valOf_le_of_digits (c :: fl') hd 0
      have h2 : 10 ^ (c :: fl').length ≤ 10 ^ 6 := Nat.pow_le_pow_right (by omega) hlen
      omega
    have hat := atoi_digits (c :: fl') (by simp) hd hbound
    simp only [List.length_cons] at hlen hval
    unfold parseFrac
    have hcond : ¬ (('.' :: (c :: fl') ++ z).length < 2 ∨
        (!(Option.map commaOrPeriod ('.' :: (c :: fl') ++ z).head?).getD false) = true ∨
        (!isDigit ('.' :: (c :: fl') ++ z) 1) = true) := by
      simp [isDigit, hc, commaOrPeriod]
    rw [if_neg hcond]
    have hdrop : ('.' :: (c :: fl') ++ z).drop 1 = (c :: fl') ++ z := rfl
    simp only [hdrop, htw, List.length_cons]
    unfold parseNanoseconds
    have hn1 : ¬ (1 + (fl'.length + 1) > 10) := by omega
    have hn2 : ¬ (1 + (fl'.length + 1) ≥ 10) := by omega
    have hhead : (!(Option.map commaOrPeriod ('.' :: (c :: fl') ++ z).head?).getD false) = false := by
      simp [commaOrPeriod]
    have htake : (('.' :: (c :: fl') ++ z).take (1 + (fl'.length + 1))).drop 1 = c :: fl' := by
      have : 1 + (fl'.length + 1) = (('.' :: c :: fl').length) := by simp; omega
      rw [this]
      have e : '.' :: (c :: fl') ++ z = ('.' :: c :: fl') ++ z := rfl
      rw [e, List.take_left']
      rfl
      rfl
    simp only [hhead, hn1, hn2, if_false, htake, hat, Bool.false_eq_true]
    have hnn : ¬ ((valOf (c :: fl') 0 : Int) < 0) := by omega
    simp only [hnn, if_false, Int.toNat_ofNat]
    have hdrop2 : ('.' :: (c :: fl') ++ z).drop (1 + (fl'.length + 1)) = z := by
      have : 1 + (fl'.length + 1) = (('.' :: c :: fl').length) := by simp; omega
      rw [this]
      have e : '.' :: (c :: fl') ++ z = ('.' :: c :: fl') ++ z := rfl
      rw [e, List.drop_left']
      rfl
    rw [hdrop2]
    have hpow : 10 ^ (10 - (1 + (fl'.length + 1))) = 10 ^ (6 - (fl'.length + 1)) * 1000 := by
      have : 10 - (1 + (fl'.length + 1)) = (6 - (fl'.length + 1)) + 3 := by omega
      rw [this, pow_add]
      norm_num
    rw [hpow, ← Nat.mul_assoc, hval]

/-! ### The parser on formatted text -/

theorem getnum_two (a b : Nat) (ha : a < 10) (hb : b < 10) (rest : Str) (fixed : Bool) :
    getnum (digitChar a :: digitChar b :: rest) fixed = .ok (a * 10 + b, rest) := by
  simp [getnum, isDigit, isDigitChar_digitChar a ha, isDigitChar_digitChar b hb,
    digitVal_digitChar a ha, digitVal_digitChar b hb]

theorem parseYear_four (a b c d : Nat) (ha : a < 10) (hb : b < 10) (hc : c < 10) (hd : d < 10)
    (rest : Str) :
    parseYear (digitChar a :: digitChar b :: digitChar c :: digitChar d :: rest) =
      .ok (((a * 1000 + b * 100 + c * 10 + d : Nat) : Int), rest) := by
  have hds : ∀ x ∈ [digitChar a, digitChar b, digitChar c, digitChar d], isDigitChar x = true := by
    intro x hx
    simp only [List.mem_cons, List.mem_singleton, List.not_mem_nil, or_false] at hx
    rcases hx with h | h | h | h <;> subst h
    · exact isDigitChar_digitChar a ha
    · exact isDigitChar_digitChar b hb
    · exact isDigitChar_digitChar c hc
    · exact isDigitChar_digitChar d hd
  have hv : valOf [digitChar a, digitChar b, digitChar c, digitChar d] 0 =
      a * 1000 + b * 100 + c * 10 + d := by
    simp only [valOf, List.foldl_cons, List.foldl_nil, digitVal_digitChar a ha,
      digitVal_digitChar b hb, digitVal_digitChar c hc, digitVal_digitChar d hd]
    omega
  have hat := atoi_digits [digitChar a, digitChar b, digitChar c, digitChar d] (by simp) hds
    (by rw [hv]; omega)
  rw [hv] at hat
  unfold parseYear
  simp [isDigit, isDigitChar_digitChar a ha, hat]

theorem skip_one (c : Char) (rest : Str) (hc : c ≠ ' ') : skip (c :: rest) [c] = .ok rest := by
  simp [skip, skipAux, hc]

theorem parseZone_five (neg : Bool) (zh zm : Nat) (hh : zh ≤ 24) (hm : zm < 60) :
    parseZone [if neg then '-' else '+', digitChar (zh / 10), digitChar (zh % 10),
      digitChar (zm / 10), digitChar (zm % 10)] =
      .ok (if neg then -(((zh * 60 + zm) * 60 : Nat) : Int) else (((zh * 60 + zm) * 60 : Nat) : Int),
        []) := by
  unfold parseZone
  have g1 := getnum_two (zh / 10) (zh % 10) (by omega) (by omega) [] true
  have g2 := getnum_two (zm / 10) (zm % 10) (by omega) (by omega) [] true
  have e1 : zh / 10 * 10 + zh % 10 = zh := by omega
  have e2 : zm / 10 * 10 + zm % 10 = zm := by omega
  rw [e1] at g1
  rw [e2] at g2
  have hr : ¬ (zh > 24 ∨ zm > 60) := by omega
  cases neg <;> simp [g1, g2, hr]

theorem parseFrac_zone (micro : Nat) (hm : micro < 1000000) (neg : Bool) (rest : Str) :
    parseFrac ((if micro = 0 then [] else '.' :: fracList 6 micro) ++
      ((if neg then '-' else '+') :: rest)) =
      .ok (micro * 1000, (if neg then '-' else '+') :: rest) := by
  apply parseFrac_frac micro hm
  intro c hc
  simp only [List.head?_cons, Option.some.injEq] at hc
  subst hc
  cases neg <;> decide

theorem Parse_stampText (y mo d h mi s micro zh zm : Nat) (neg : Bool) (hy : y < 10000)
    (hmo : 1 ≤ mo ∧ mo ≤ 12) (hd : 1 ≤ d ∧ d ≤ daysIn mo y) (hh : h < 24) (hmi : mi < 60)
    (hs : s < 60) (hmic : micro < 1000000) (hzh : zh ≤ 24) (hzm : zm < 60) :
    Parse (stampText y mo d h mi s micro neg zh zm) =
      .ok { unix := (dateUnix y mo d h mi s ((micro * 1000 : Nat) : Int)).1 -
              (if neg then -(((zh * 60 + zm) * 60 : Nat) : Int)
                else (((zh * 60 + zm) * 60 : Nat) : Int)),
            nsec := (dateUnix y mo d h mi s ((micro * 1000 : Nat) : Int)).2.toNat,
            offset := (if neg then -(((zh * 60 + zm) * 60 : Nat) : Int)
                else (((zh * 60 + zm) * 60 : Nat) : Int)) } := by
  have hd100 : d < 100 := by
    have : daysIn mo y ≤ 31 := by
      unfold daysIn
      obtain ⟨h1, h2⟩ := hmo
      interval_cases mo <;> simp only [daysBefore] <;> split <;> simp
    omega
  have ey : y / 1000 * 1000 + y / 100 % 10 * 100 + y / 10 % 10 * 10 + y % 10 = y := by omega
  have py := parseYear_four (y / 1000) (y / 100 % 10) (y / 10 % 10) (y % 10) (by omega)
    (by omega) (by omega) (by omega)
  rw [ey] at py
  have gm : ∀ rest, parseMonth (digitChar (mo / 10) :: digitChar (mo % 10) :: rest) =
      .ok (mo, rest) := by
    intro rest
    have g := getnum_two (mo / 10) (mo % 10) (by omega) (by omega) rest true
    have e : mo / 10 * 10 + mo % 10 = mo := by omega
    rw [e] at g
    have : ¬ (mo ≤ 0 ∨ 12 < mo) := by omega
    simp only [parseMonth, g, this, if_false]
  have gd : ∀ rest, getnum (digitChar (d / 10) :: digitChar (d % 10) :: rest) true =
      .ok (d, rest) := by
    intro rest
    have g := getnum_two (d / 10) (d % 10) (by omega) (by omega) rest true
    have e : d / 10 * 10 + d % 10 = d := by omega
    rw [e] at g
    exact g
  have gh : ∀ rest, parseHour (digitChar (h / 10) :: digitChar (h % 10) :: rest) =
      .ok (h, rest) := by
    intro rest
    have g := getnum_two (h / 10) (h % 10) (by omega) (by omega) rest false
    have e : h / 10 * 10 + h % 10 = h := by omega
    rw [e] at g
    have : ¬ (24 ≤ h) := by omega
    simp [parseHour, g, this]
  have g60 : ∀ n, n < 60 → ∀ rest, parseSixty (digitChar (n / 10) :: digitChar (n % 10) :: rest) =
      .ok (n, rest) := by
    intro n hn rest
    have g := getnum_two (n / 10) (n % 10) (by omega) (by omega) rest true
    have e : n / 10 * 10 + n % 10 = n := by omega
    rw [e] at g
    have : ¬ (60 ≤ n) := by omega
    simp [parseSixty, g, this]
  have pf := parseFrac_zone micro hmic neg [digitChar (zh / 10), digitChar (zh % 10),
      digitChar (zm / 10), digitChar (zm % 10)]
  have pz := parseZone_five neg zh zm hzh hzm
  have hday : ¬ (d < 1 ∨ d > daysIn mo y) := by omega
  unfold Parse stampText
  simp only [List.cons_append, List.nil_append, py, bind, Except.bind, skip_one, gm, gd, gh,
    g60 mi hmi, g60 s hs, ne_eq, pf, pz, hday, if_false, not_true_eq_false, Char.reduceEq,
    not_false_eq_true, List.singleton_append]

/-! ### Formatting -/

theorem goDiv_sixty (x : Int) :
    goDiv x 60 = if x < 0 then -((x.natAbs / 60 : Nat) : Int) else ((x.natAbs / 60 : Nat) : Int) := by
  unfold goDiv
  rcases Int.natAbs_eq x with h | h
  · have hx : ¬ x < 0 := by omega
    rw [if_neg hx]
    conv_lhs => rw [h]
    exact (Int.ofNat_tdiv _ _).symm
  · by_cases hx : x < 0
    · rw [if_pos hx]
      conv_lhs => rw [h]
      rw [Int.neg_tdiv]
      congr 1
    · have h0 : x = 0 := by omega
      subst h0
      simp

theorem goDiv_natCast (n : Nat) : goDiv (n : Int) 60 = ((n / 60 : Nat) : Int) :=
  (Int.ofNat_tdiv n 60).symm

theorem tmod_natCast (n : Nat) : Int.tmod (n : Int) 60 = ((n % 60 : Nat) : Int) :=
  (Int.ofNat_tmod n 60).symm

theorem Time.abs_eq (t : Time) (hlo : -62167219200 ≤ t.unix + t.offset)
    (hhi : t.unix + t.offset < 253402300800) :
    (t.abs : Int) = t.unix + t.offset + unixToAbsolute ∧ absYear0 ≤ t.abs ∧ t.abs < absYear10000 := by
  unfold Time.abs toUint64 unixToAbsolute absYear0 absYear10000
  rw [Int.emod_eq_of_lt (by omega) (by omega)]
  omega

theorem Format_eq_stampText (t : Time) (hn : t.nsec < 1000000000)
    (hlo : -62167219200 ≤ t.unix + t.offset) (hhi : t.unix + t.offset < 253402300800)
    (hoff : t.offset.natAbs < 360000) :
    t.Format = stampText (absDate t.abs).1.toNat (absDate t.abs).2.1 (absDate t.abs).2.2
      (absClock t.abs).1 (absClock t.abs).2.1 (absClock t.abs).2.2 (t.nsec / 1000)
      (decide (goDiv t.offset 60 < 0)) (t.offset.natAbs / 60 / 60) (t.offset.natAbs / 60 % 60) := by
  obtain ⟨_, h0, h1⟩ := Time.abs_eq t hlo hhi
  obtain ⟨y0, y1, m0, m1, d0, d1, _⟩ := absDate_spec t.abs h0 h1
  obtain ⟨c1, c2, c3, _⟩ := absClock_spec t.abs
  have hd31 : daysIn (absDate t.abs).2.1 (absDate t.abs).1 ≤ 31 := by
    unfold daysIn
    generalize (absDate t.abs).2.1 = mo at *
    interval_cases mo <;> simp only [daysBefore] <;> split <;> simp
  unfold Time.Format
  rcases hD : absDate t.abs with ⟨year, month, day⟩
  rcases hC : absClock t.abs with ⟨hour, min, sec⟩
  rw [hD] at y0 y1 m0 m1 d0 d1 hd31
  rw [hC] at c1 c2 c3
  simp only [] at y0 y1 m0 m1 d0 d1 c1 c2 c3 hd31 ⊢
  obtain ⟨yn, rfl⟩ := Int.eq_ofNat_of_zero_le y0
  have hz : (if goDiv t.offset 60 < 0 then -goDiv t.offset 60 else goDiv t.offset 60) =
      ((t.offset.natAbs / 60 : Nat) : Int) := by
    rw [goDiv_sixty]
    split <;> split <;> omega
  simp only [hD, hC]
  rw [hz, goDiv_natCast, tmod_natCast]
  rw [appendInt_four [] yn (by omega), appendInt_two _ month (by omega),
    appendInt_two _ day (by omega), appendInt_two _ hour (by omega),
    appendInt_two _ min (by omega), appendInt_two _ sec (by omega), appendNano_eq _ _ hn]
  rw [appendInt_two _ _ (by omega)]
  rw [appendInt_two _ _ (by omega)]
  unfold stampText
  simp only [Int.toNat_ofNat]
  by_cases hneg : goDiv t.offset 60 < 0 <;> simp [hneg]

theorem Parse_Format (t : Time) (hn : t.nsec < 1000000000)
    (hlo : -62167219200 ≤ t.unix + t.offset) (hhi : t.unix + t.offset < 253402300800)
    (hoff : t.offset.natAbs < 90000) :
    Parse t.Format = .ok { unix := t.unix + t.offset - goDiv t.offset 60 * 60,
                           nsec := t.nsec / 1000 * 1000,
                           offset := goDiv t.offset 60 * 60 } := by
  obtain ⟨habs, h0, h1⟩ := Time.abs_eq t hlo hhi
  obtain ⟨y0, y1, m0, m1, d0, d1, _⟩ := absDate_spec t.abs h0 h1
  obtain ⟨c1, c2, c3, _⟩ := absClock_spec t.abs
  have hcast : (((absDate t.abs).1.toNat : Nat) : Int) = (absDate t.abs).1 := Int.toNat_of_nonneg y0
  rw [Format_eq_stampText t hn hlo hhi (by omega)]
  rw [Parse_stampText _ _ _ _ _ _ _ _ _ _ (by omega) ⟨m0, m1⟩ ⟨d0, by rw [hcast]; exact d1⟩ c1 c2
    c3 (by omega) (by omega) (by omega)]
  rw [hcast, dateUnix_abs t.abs (t.nsec / 1000 * 1000) h0 h1 (by omega)]
  have hoffv : (if decide (goDiv t.offset 60 < 0) = true
      then -(((t.offset.natAbs / 60 / 60 * 60 + t.offset.natAbs / 60 % 60) * 60 : Nat) : Int)
      else (((t.offset.natAbs / 60 / 60 * 60 + t.offset.natAbs / 60 % 60) * 60 : Nat) : Int)) =
      goDiv t.offset 60 * 60 := by
    rw [goDiv_sixty]
    simp only [decide_eq_true_eq]
    split <;> split <;> omega
  rw [hoffv]
  simp only [Int.toNat_ofNat, habs]
  rw [add_sub_cancel_right]

/-! ### `strconv` -/

theorem valOf_decimal (u : Nat) : valOf (decimal u) 0 = u := by
  induction u using Nat.strong_induction_on with
  | _ u ih =>
    by_cases h : u < 10
    · rw [decimal_lt u h]
      simp [valOf, digitVal_digitChar u h]
    · rw [decimal_ge u (by omega), valOf_snoc, ih (u / 10) (by omega),
        digitVal_digitChar _ (Nat.mod_lt _ (by decide))]
      omega

theorem decimal_ne_nil (u : Nat) : decimal u ≠ [] := by
  have := decimal_length_pos u
  intro h
  rw [h] at this
  simp at this

theorem decimal_head (u : Nat) (h : u ≠ 0) : (decimal u).head? ≠ some '0' := by
  induction u using Nat.strong_induction_on with
  | _ u ih =>
    by_cases h10 : u < 10
    · rw [decimal_lt u h10]
      simp only [List.head?_cons, ne_eq, Option.some.injEq]
      intro hc
      exact h ((digitChar_eq_zero u h10).1 hc)
    · rw [decimal_ge u (by omega)]
      have hne := decimal_ne_nil (u / 10)
      obtain ⟨c, l, hl⟩ := List.exists_cons_of_ne_nil hne
      have := ih (u / 10) (by omega) (by omega)
      rw [hl] at this ⊢
      simpa using this

theorem parseUintLoop_digits (ds : Str) (x : Nat) (hd : ∀ c ∈ ds, isDigitChar c = true)
    (hb : valOf ds x ≤ 9223372036854775808) :
    parseUintLoop ds x = some (valOf ds x, false) := by
  induction ds generalizing x with
  | nil => simp [parseUintLoop, valOf]
  | cons c ds ih =>
    have hc : isDigitChar c = true := hd c (List.mem_cons_self _ _)
    have hge := valOf_ge ds (x * 10 + digitVal c)
    have hv : valOf (c :: ds) x = valOf ds (x * 10 + digitVal c) := by simp [valOf]
    rw [hv] at hb ⊢
    have h1 : ¬ x ≥ 18446744073709551615 / 10 + 1 := by omega
    have h2 : ¬ x * 10 + digitVal c > 18446744073709551615 := by omega
    simp only [parseUintLoop, hc, if_true, h1, if_false, h2]
    exact ih _ (fun c' hc' => hd c' (List.mem_cons_of_mem _ hc')) hb

theorem ParseUint_decimal (u : Nat) (h : u ≤ 9223372036854775808) :
    ParseUint (decimal u) = some (u, false) := by
  unfold ParseUint
  rw [if_neg (decimal_ne_nil u)]
  have := parseUintLoop_digits (decimal u) 0 (isDigitChar_of_mem_decimal u)
    (by rw [valOf_decimal]; exact h)
  rw [valOf_decimal] at this
  exact this

theorem ParseInt_FormatInt (n : Int) (h0 : -9223372036854775808 ≤ n)
    (h1 : n ≤ 9223372036854775807) : ParseInt (FormatInt n) = (n, none) := by
  unfold FormatInt
  by_cases hn : n < 0
  · rw [if_pos hn]
    have hu := ParseUint_decimal n.natAbs (by omega)
    have c1 : ¬ ((¬ True) ∧ n.natAbs ≥ 9223372036854775808) := by simp
    have c2 : ¬ (True ∧ n.natAbs > 9223372036854775808) := by omega
    simp only [ParseInt, or_true, if_true, hu, not_true_eq_false, false_and, if_false,
      true_and, c2]
    congr 1
    omega
  · rw [if_neg hn]
    have hne := decimal_ne_nil n.natAbs
    obtain ⟨c, l, hl⟩ := List.exists_cons_of_ne_nil hne
    have hc : isDigitChar c = true := by
      have := isDigitChar_of_mem_decimal n.natAbs c (by rw [hl]; exact List.mem_cons_self _ _)
      exact this
    have hm : c ≠ '-' := by
      intro h; subst h; revert hc; decide
    have hp : c ≠ '+' := by
      intro h; subst h; revert hc; decide
    have hu := ParseUint_decimal n.natAbs (by omega)
    rw [hl] at hu ⊢
    have c1 : ¬ n.natAbs ≥ 9223372036854775808 := by omega
    simp only [ParseInt, hm, hp, or_self, if_false, hu, not_false_eq_true, true_and, c1,
      false_and]
    congr 1
    omega

theorem Unquote_plain (s : Str) (h : ∀ c ∈ s, c ≠ '"' ∧ c ≠ '\\' ∧ c ≠ '\n') :
    Unquote ('"' :: (s ++ ['"'])) = .ok s := by
  have htw : (s ++ ['"']).takeWhile (fun c => c != '"') = s :=
    takeWhile_append_stop _ s ['"'] (fun c hc => by simpa using (h c hc).1)
      (fun c hc => by
        simp only [List.head?_cons, Option.some.injEq] at hc
        subst hc; rfl)
  have hdw : (s ++ ['"']).dropWhile (fun c => c != '"') = ['"'] := by
    have := List.takeWhile_append_dropWhile (fun c => c != '"') (s ++ ['"'])
    rw [htw] at this
    exact List.append_cancel_left this
  have hb1 : s.contains '\\' = false := by
    rw [List.contains_eq_any_beq, List.any_eq_false]
    intro c hc
    simpa using fun e => (h c hc).2.1 e.symm
  have hb2 : s.contains '\n' = false := by
    rw [List.contains_eq_any_beq, List.any_eq_false]
    intro c hc
    simpa using fun e => (h c hc).2.2 e.symm
  cases s with
  | nil => rfl
  | cons a s =>
    have hcont : ((a :: s) ++ ['"']).contains '"' = true := by simp
    simp only [Unquote]
    simp only [List.cons_append] at hcont htw hdw ⊢
    simp only [hcont, htw, hdw, hb1, hb2]
    simp

/-! ### The characters of a formatted timestamp -/

theorem stampChar_of_digit (c : Char) (h : isDigitChar c = true) : stampChar c = true := by
  simp [stampChar, h]

theorem appendInt_mem (b : Str) (x : Int) (w : Nat) (hb : ∀ c ∈ b, stampChar c = true) :
    ∀ c ∈ appendInt b x w, stampChar c = true := by
  intro c hc
  unfold appendInt at hc
  simp only [List.mem_append, List.mem_replicate] at hc
  rcases hc with (hc | ⟨_, hc⟩) | hc
  · split at hc
    · simp only [List.mem_append, List.mem_singleton] at hc
      rcases hc with hc | hc
      · exact hb c hc
      · subst hc; rfl
    · exact hb c hc
  · subst hc; rfl
  · exact stampChar_of_digit c (isDigitChar_of_mem_decimal _ c hc)

theorem snoc_mem (b : Str) (x : Char) (hb : ∀ c ∈ b, stampChar c = true)
    (hx : stampChar x = true) : ∀ c ∈ b ++ [x], stampChar c = true := by
  intro c hc
  simp only [List.mem_append, List.mem_singleton] at hc
  rcases hc with hc | hc
  · exact hb c hc
  · subst hc; exact hx

theorem appendNano_mem (b : Str) (ns : Nat) (hb : ∀ c ∈ b, stampChar c = true) :
    ∀ c ∈ appendNano b ns, stampChar c = true := by
  intro c hc
  unfold appendNano at hc
  split at hc
  · exact hb c hc
  · have h1 := appendInt_mem (b ++ ['.']) (ns : Int) 9 (snoc_mem b '.' hb rfl)
    have h2 : ∀ c ∈ trimRight '0' ((appendInt (b ++ ['.']) (ns : Int) 9).take
        ((appendInt (b ++ ['.']) (ns : Int) 9).length - 9 + 6)), stampChar c = true := by
      intro c hc
      unfold trimRight at hc
      rw [List.mem_reverse] at hc
      have := (List.dropWhile_sublist _).subset hc
      rw [List.mem_reverse] at this
      exact h1 c (List.mem_of_mem_take this)
    simp only [] at hc
    split at hc
    · exact h2 c (List.mem_of_mem_dropLast hc)
    · exact h2 c hc

theorem Format_mem (t : Time) : ∀ c ∈ t.Format, stampChar c = true := by
  unfold Time.Format
  simp only []
  apply appendInt_mem
  apply appendInt_mem
  have hn : ∀ c ∈ appendNano (appendInt (appendInt (appendInt (appendInt (appendInt
      (appendInt [] (absDate t.abs).1 4 ++ ['-']) ((absDate t.abs).2.1 : Int) 2 ++ ['-'])
      ((absDate t.abs).2.2 : Int) 2 ++ ['T']) ((absClock t.abs).1 : Int) 2 ++ [':'])
      ((absClock t.abs).2.1 : Int) 2 ++ [':']) ((absClock t.abs).2.2 : Int) 2) t.nsec,
      stampChar c = true := by
    apply appendNano_mem
    apply appendInt_mem
    apply snoc_mem
    swap
    · rfl
    apply appendInt_mem
    apply snoc_mem
    swap
    · rfl
    apply appendInt_mem
    apply snoc_mem
    swap
    · rfl
    apply appendInt_mem
    apply snoc_mem
    swap
    · rfl
    apply appendInt_mem
    apply snoc_mem
    swap
    · rfl
    apply appendInt_mem
    intro c hc
    simp at hc
  split
  · exact snoc_mem _ _ hn rfl
  · exact snoc_mem _ _ hn rfl

theorem stampChar_plain (c : Char) (h : stampChar c = true) :
    c ≠ '"' ∧ c ≠ '\\' ∧ c ≠ '\n' ∧ 32 ≤ c.toNat ∧ escapeChar c = [c] := by
  unfold stampChar at h
  simp only [Bool.or_eq_true, beq_iff_eq] at h
  rcases h with ((((h | h) | h) | h) | h) | h
  · unfold isDigitChar at h
    simp only [Bool.and_eq_true, decide_eq_true_eq] at h
    have e1 : c ≠ '"' := by intro e; subst e; revert h; decide
    have e2 : c ≠ '\\' := by intro e; subst e; revert h; decide
    have e3 : c ≠ '\n' := by intro e; subst e; revert h; decide
    have e4 : c ≠ '\r' := by intro e; subst e; revert h; decide
    have e5 : c ≠ '\t' := by intro e; subst e; revert h; decide
    have e6 : c ≠ '<' := by intro e; subst e; revert h; decide
    have e7 : c ≠ '>' := by intro e; subst e; revert h; decide
    have e8 : c ≠ '&' := by intro e; subst e; revert h; decide
    refine ⟨e1, e2, e3, by omega, ?_⟩
    have n1 : ¬ c.toNat < 32 := by omega
    have n2 : ¬ c.toNat = 0x2028 := by omega
    have n3 : ¬ c.toNat = 0x2029 := by omega
    simp [escapeChar, e1, e2, e3, e4, e5, e6, e7, e8, n1, n2, n3]
  all_goals (subst h; decide)

/-! ### The timestamp codec -/

theorem Unquote_Format (t : Time) : Unquote ('"' :: (t.Format ++ ['"'])) = .ok t.Format :=
  Unquote_plain _ (fun c hc =>
    let h := stampChar_plain c (Format_mem t c hc)
    ⟨h.1, h.2.1, h.2.2.1⟩)

theorem Time.year_of_encodable (t : Time) (h : t.encodable) : 0 ≤ t.Year ∧ t.Year ≤ 9999 := by
  obtain ⟨_, h0, h1⟩ := Time.abs_eq t h.2.1 h.2.2.1
  obtain ⟨y0, y1, _⟩ := absDate_spec t.abs h0 h1
  exact ⟨y0, y1⟩

theorem reread_encodable (t : Time) (h : t.encodable) : t.reread.encodable := by
  obtain ⟨h1, h2, h3, h4⟩ := h
  unfold Time.reread Time.encodable
  simp only [sub_add_cancel]
  refine ⟨by omega, h2, h3, ?_⟩
  rw [goDiv_sixty]
  split <;> omega

theorem Format_reread (t : Time) (h : t.encodable) : t.reread.Format = t.Format := by
  have h' := reread_encodable t h
  obtain ⟨h1, h2, h3, h4⟩ := h
  rw [Format_eq_stampText t h1 h2 h3 (by omega),
    Format_eq_stampText t.reread h'.1 h'.2.1 h'.2.2.1 (by have := h'.2.2.2; omega)]
  have eabs : t.reread.abs = t.abs := by
    unfold Time.abs Time.reread
    simp only [sub_add_cancel]
  have ens : t.reread.nsec / 1000 = t.nsec / 1000 := by
    unfold Time.reread
    simp only []
    omega
  have eoff : t.reread.offset.natAbs / 60 = t.offset.natAbs / 60 := by
    unfold Time.reread
    simp only []
    rw [goDiv_sixty]
    split <;> omega
  have esign : decide (goDiv t.reread.offset 60 < 0) = decide (goDiv t.offset 60 < 0) := by
    unfold Time.reread
    simp only []
    rw [goDiv_sixty (goDiv t.offset 60 * 60), goDiv_sixty t.offset]
    congr 1
    apply propext
    split <;> split <;> omega
  rw [eabs, ens, eoff, esign]

theorem suriTime_roundtrip (t t0 : Time) (h : t.encodable) :
    suriTime.UnmarshalJSON t0 (suriTime.MarshalJSON t).1 = (t.reread, none) := by
  obtain ⟨h1, h2, h3, h4⟩ := h
  unfold suriTime.UnmarshalJSON suriTime.MarshalJSON
  simp only [List.singleton_append, List.cons_append, List.nil_append]
  rw [Unquote_Format]
  simp only [Parse_Format t h1 h2 h3 h4]
  rfl

/-! ### The encoder -/

theorem jsonOfRaw_Format (t : Time) :
    jsonOfRaw (suriTime.MarshalJSON t).1 = .ok (.str t.Format) := by
  unfold suriTime.MarshalJSON jsonOfRaw
  simp only [List.singleton_append, List.cons_append, List.nil_append]
  have h1 : (t.Format ++ ['"']).getLast? = some '"' := by simp
  have h2 : (t.Format ++ ['"']).dropLast = t.Format := by simp
  have h3 : t.Format.all (fun c => c != '"' && c != '\\' && decide (32 ≤ c.toNat)) = true := by
    rw [List.all_eq_true]
    intro c hc
    obtain ⟨a, b, _, d, _⟩ := stampChar_plain c (Format_mem t c hc)
    simp [a, b, d]
  simp only [h1, h2, h3, and_self, if_true]

mutual
theorem marshalVal_ok : ∀ (t : GoType) (v : GoVal), t.regular = true → t.has v = true →
    ∃ j, marshalVal t v = .ok j
  | .int, .int n, _, _ => ⟨_, rfl⟩
  | .string, .str s, _, _ => ⟨_, rfl⟩
  | .bool, .bool b, _, _ => ⟨_, rfl⟩
  | .strings, .strs none, _, _ => ⟨_, rfl⟩
  | .strings, .strs (some xs), _, _ => ⟨_, rfl⟩
  | .suriTimePtr, .time none, _, _ => ⟨_, rfl⟩
  | .suriTimePtr, .time (some t), _, _ => ⟨.str t.Format, by
      simp only [marshalVal]
      have := jsonOfRaw_Format t
      unfold suriTime.MarshalJSON at this ⊢
      exact this⟩
  | .struct fs, .struct vs, hr, hh => by
      obtain ⟨ms, hms⟩ := marshalFields_ok fs vs ((typeFields fs).map (fun f => f.index)) [] 0
        (by simpa [GoType.regular] using hr) (by simpa [GoType.has] using hh)
      exact ⟨.obj ms, by simp only [marshalVal, hms]⟩
  | .ptr fs, .nilPtr, _, _ => ⟨_, rfl⟩
  | .ptr fs, .ptr (.struct vs), hr, hh => by
      obtain ⟨ms, hms⟩ := marshalFields_ok fs vs ((typeFields fs).map (fun f => f.index)) [] 0
        (by simpa [GoType.regular] using hr) (by simpa [GoType.has] using hh)
      exact ⟨.obj ms, by simp only [marshalVal, hms]⟩
  | .number, _, hr, _ => by simp [GoType.regular] at hr
  | .int, .str _, _, hh | .int, .bool _, _, hh | .int, .strs _, _, hh | .int, .num _, _, hh
  | .int, .time _, _, hh | .int, .struct _, _, hh | .int, .nilPtr, _, hh | .int, .ptr _, _, hh => by
      simp [GoType.has] at hh
  | .string, .int _, _, hh | .string, .bool _, _, hh | .string, .strs _, _, hh
  | .string, .num _, _, hh | .string, .time _, _, hh | .string, .struct _, _, hh
  | .string, .nilPtr, _, hh | .string, .ptr _, _, hh => by
      simp [GoType.has] at hh
  | .bool, .int _, _, hh | .bool, .str _, _, hh | .bool, .strs _, _, hh
  | .bool, .num _, _, hh | .bool, .time _, _, hh | .bool, .struct _, _, hh
  | .bool, .nilPtr, _, hh | .bool, .ptr _, _, hh => by
      simp [GoType.has] at hh
  | .strings, .int _, _, hh | .strings, .str _, _, hh | .strings, .bool _, _, hh
  | .strings, .num _, _, hh | .strings, .time _, _, hh | .strings, .struct _, _, hh
  | .strings, .nilPtr, _, hh | .strings, .ptr _, _, hh => by
      simp [GoType.has] at hh
  | .suriTimePtr, .int _, _, hh | .suriTimePtr, .str _, _, hh | .suriTimePtr, .bool _, _, hh
  | .suriTimePtr, .num _, _, hh | .suriTimePtr, .strs _, _, hh | .suriTimePtr, .struct _, _, hh
  | .suriTimePtr, .nilPtr, _, hh | .suriTimePtr, .ptr _, _, hh => by
      simp [GoType.has] at hh
  | .struct _, .int _, _, hh | .struct _, .str _, _, hh | .struct _, .bool _, _, hh
  | .struct _, .num _, _, hh | .struct _, .strs _, _, hh | .struct _, .time _, _, hh
  | .struct _, .nilPtr, _, hh | .struct _, .ptr _, _, hh => by
      simp [GoType.has] at hh
  | .ptr _, .int _, _, hh | .ptr _, .str _, _, hh | .ptr _, .bool _, _, hh
  | .ptr _, .num _, _, hh | .ptr _, .strs _, _, hh | .ptr _, .time _, _, hh
  | .ptr _, .ptr (.int _), _, hh | .ptr _, .ptr (.str _), _, hh | .ptr _, .ptr (.bool _), _, hh
  | .ptr _, .ptr (.num _), _, hh | .ptr _, .ptr (.strs _), _, hh | .ptr _, .ptr (.time _), _, hh
  | .ptr _, .ptr .nilPtr, _, hh | .ptr _, .ptr (.ptr _), _, hh => by
      simp [GoType.has] at hh
theorem marshalFields_ok (fs : List (Str × FieldKind × GoType)) : ∀ (vs : List GoVal)
    (A : List (List Nat)) (pfx : List Nat) (i : Nat), regularFields fs = true →
    hasFields fs vs = true → ∃ ms, marshalFields A pfx i fs vs = .ok ms := by
  match fs with
  | [] =>
    intro vs A pfx i _ _
    exact ⟨[], by rw [marshalFields]⟩
  | (name, kind, t) :: fs =>
    intro vs A pfx i hr hh
    cases vs with
    | nil => simp [hasFields] at hh
    | cons v vs =>
      simp only [regularFields, Bool.and_eq_true] at hr
      simp only [hasFields, Bool.and_eq_true] at hh
      obtain ⟨rest, hrest⟩ := marshalFields_ok fs vs A pfx (i + 1) hr.2 hh.2
      obtain ⟨j, hj⟩ := marshalVal_ok t v hr.1.1.2 hh.1
      cases kind with
      | embedded => simp at hr
      | omitempty =>
        simp only [marshalFields, hrest, hj]
        split <;> exact ⟨_, rfl⟩
      | plain =>
        simp only [marshalFields, hrest, hj]
        split <;> exact ⟨_, rfl⟩
end

/-! ### Members written by the encoder -/

theorem marshalFields_inv (A : List (List Nat)) (pfx : List Nat) (i : Nat) (name : Str)
    (kind : FieldKind) (t : GoType) (fs : List (Str × FieldKind × GoType)) (v : GoVal)
    (vs : List GoVal) (ms : List (Str × JSON)) (hk : kind ≠ .embedded)
    (h : marshalFields A pfx i ((name, kind, t) :: fs) (v :: vs) = .ok ms) :
    ∃ rest, marshalFields A pfx (i + 1) fs vs = .ok rest ∧
      ((present A pfx i kind v ∧ ∃ j, marshalVal t v = .ok j ∧ ms = (name, j) :: rest) ∨
       (¬ present A pfx i kind v ∧ ms = rest)) := by
  rw [marshalFields] at h
  cases hrest : marshalFields A pfx (i + 1) fs vs with
  | error e => rw [hrest] at h; simp at h
  | ok rest =>
    rw [hrest] at h
    refine ⟨rest, rfl, ?_⟩
    cases kind with
    | embedded => exact absurd rfl hk
    | omitempty =>
      simp only [] at h
      by_cases hp : A.contains (pfx ++ [i]) = true ∧ ¬ isEmptyValue v = true
      · rw [if_pos hp] at h
        cases hj : marshalVal t v with
        | error e => rw [hj] at h; simp at h
        | ok j =>
          rw [hj] at h
          simp only [Except.ok.injEq] at h
          exact Or.inl ⟨⟨hp.1, Or.inr (by simpa using hp.2)⟩, j, rfl, h.symm⟩
      · rw [if_neg hp] at h
        simp only [Except.ok.injEq] at h
        refine Or.inr ⟨?_, h.symm⟩
        intro hq
        apply hp
        refine ⟨hq.1, ?_⟩
        rcases hq.2 with h1 | h1
        · cases h1
        · simp [h1]
    | plain =>
      simp only [] at h
      by_cases hp : A.contains (pfx ++ [i]) = true
      · rw [if_pos hp] at h
        cases hj : marshalVal t v with
        | error e => rw [hj] at h; simp at h
        | ok j =>
          rw [hj] at h
          simp only [Except.ok.injEq] at h
          exact Or.inl ⟨⟨hp, Or.inl rfl⟩, j, rfl, h.symm⟩
      · rw [if_neg hp] at h
        simp only [Except.ok.injEq] at h
        exact Or.inr ⟨fun hq => hp hq.1, h.symm⟩

theorem marshalFields_keys (A : List (List Nat)) (pfx : List Nat)
    (fs : List (Str × FieldKind × GoType)) :
    ∀ (i : Nat) (vs : List GoVal) (ms : List (Str × JSON)),
    (∀ f ∈ fs, f.2.1 ≠ .embedded) → marshalFields A pfx i fs vs = .ok ms →
    ∀ m ∈ ms, ∃ f ∈ fs, f.1 = m.1 := by
  induction fs with
  | nil =>
    intro i vs ms _ h m hm
    rw [marshalFields] at h
    simp only [Except.ok.injEq] at h
    subst h
    simp at hm
  | cons f fs ih =>
    obtain ⟨name, kind, t⟩ := f
    intro i vs ms hflat h m hm
    cases vs with
    | nil => rw [marshalFields] at h; simp at h
    | cons v vs =>
      obtain ⟨rest, hrest, hcase⟩ := marshalFields_inv A pfx i name kind t fs v vs ms
        (hflat _ (List.mem_cons_self _ _)) h
      have ih' := ih (i + 1) vs rest (fun f hf => hflat f (List.mem_cons_of_mem _ hf)) hrest
      rcases hcase with ⟨_, j, _, hms⟩ | ⟨_, hms⟩
      · subst hms
        simp only [List.mem_cons] at hm
        rcases hm with hm | hm
        · subst hm
          exact ⟨_, List.mem_cons_self _ _, rfl⟩
        · obtain ⟨f, hf, e⟩ := ih' m hm
          exact ⟨f, List.mem_cons_of_mem _ hf, e⟩
      · subst hms
        obtain ⟨f, hf, e⟩ := ih' m hm
        exact ⟨f, List.mem_cons_of_mem _ hf, e⟩

theorem marshalFields_filter_congr (k0 : Str) (A B : List (List Nat)) (pfx pfx' : List Nat)
    (fs : List (Str × FieldKind × GoType)) :
    ∀ (i : Nat) (vs : List GoVal) (ms ms' : List (Str × JSON)),
    (∀ f ∈ fs, f.2.1 ≠ .embedded) →
    marshalFields A pfx i fs vs = .ok ms → marshalFields B pfx' i fs vs = .ok ms' →
    (∀ j f, fs.get? j = some f → f.1 ≠ k0 →
      A.contains (pfx ++ [i + j]) = B.contains (pfx' ++ [i + j])) →
    ms.filter (fun m => m.1 != k0) = ms'.filter (fun m => m.1 != k0) := by
  induction fs with
  | nil =>
    intro i vs ms ms' _ hA hB _
    rw [marshalFields] at hA hB
    simp only [Except.ok.injEq] at hA hB
    subst hA hB
    rfl
  | cons f fs ih =>
    obtain ⟨name, kind, t⟩ := f
    intro i vs ms ms' hflat hA hB hAB
    cases vs with
    | nil => rw [marshalFields] at hA; simp at hA
    | cons v vs =>
      have hk := hflat _ (List.mem_cons_self _ _)
      obtain ⟨rA, hrA, hcA⟩ := marshalFields_inv A pfx i name kind t fs v vs ms hk hA
      obtain ⟨rB, hrB, hcB⟩ := marshalFields_inv B pfx' i name kind t fs v vs ms' hk hB
      have ih' := ih (i + 1) vs rA rB (fun f hf => hflat f (List.mem_cons_of_mem _ hf)) hrA hrB
        (fun j f hj hne => by
          have := hAB (j + 1) f (by simpa using hj) hne
          simpa [Nat.add_assoc, Nat.add_comm 1 j] using this)
      by_cases hname : name = k0
      · have hdrop : ∀ (j : JSON) (r : List (Str × JSON)),
            ((name, j) :: r).filter (fun m => m.1 != k0) = r.filter (fun m => m.1 != k0) := by
          intro j r
          simp [hname]
        rcases hcA with ⟨_, jA, _, hmsA⟩ | ⟨_, hmsA⟩ <;>
        rcases hcB with ⟨_, jB, _, hmsB⟩ | ⟨_, hmsB⟩ <;>
        subst hmsA hmsB <;> (try simp only [hdrop]) <;> exact ih'
      · have h0 := hAB 0 (name, kind, t) rfl hname
        simp only [Nat.add_zero] at h0
        have hpres : present A pfx i kind v ↔ present B pfx' i kind v := by
          unfold present
          rw [h0]
        rcases hcA with ⟨pA, jA, hjA, hmsA⟩ | ⟨pA, hmsA⟩ <;>
        rcases hcB with ⟨pB, jB, hjB, hmsB⟩ | ⟨pB, hmsB⟩
        · subst hmsA hmsB
          rw [hjA] at hjB
          simp only [Except.ok.injEq] at hjB
          subst hjB
          simp [hname, ih']
        · exact absurd (hpres.1 pA) pB
        · exact absurd (hpres.2 pB) pA
        · subst hmsA hmsB
          exact ih'

theorem regularFields_cons (name : Str) (kind : FieldKind) (t : GoType)
    (fs : List (Str × FieldKind × GoType)) :
    regularFields ((name, kind, t) :: fs) = true ↔
      kind ≠ .embedded ∧ t.regular = true ∧ (∀ f ∈ fs, f.1 ≠ name) ∧
        regularFields fs = true := by
  rw [regularFields]
  simp only [Bool.and_eq_true, bne_iff_ne, ne_eq, List.all_eq_true, and_assoc]

theorem regularFields_flat (fs : List (Str × FieldKind × GoType))
    (h : regularFields fs = true) : ∀ f ∈ fs, f.2.1 ≠ .embedded := by
  induction fs with
  | nil => intro f hf; simp at hf
  | cons x fs ih =>
    obtain ⟨name, kind, t⟩ := x
    rw [regularFields_cons] at h
    intro f hf
    rcases List.mem_cons.1 hf with e | hf
    · subst e; exact h.1
    · exact ih h.2.2.2 f hf

theorem regularFields_typ (fs : List (Str × FieldKind × GoType))
    (h : regularFields fs = true) : ∀ f ∈ fs, f.2.2.regular = true := by
  induction fs with
  | nil => intro f hf; simp at hf
  | cons x fs ih =>
    obtain ⟨name, kind, t⟩ := x
    rw [regularFields_cons] at h
    intro f hf
    rcases List.mem_cons.1 hf with e | hf
    · subst e; exact h.2.1
    · exact ih h.2.2.2 f hf

theorem regularFields_unique (fs : List (Str × FieldKind × GoType))
    (h : regularFields fs = true) : ∀ x ∈ fs, ∀ y ∈ fs, x.1 = y.1 → x = y := by
  induction fs with
  | nil => intro x hx; simp at hx
  | cons z fs ih =>
    obtain ⟨name, kind, t⟩ := z
    rw [regularFields_cons] at h
    intro x hx y hy e
    rcases List.mem_cons.1 hx with ex | hx <;> rcases List.mem_cons.1 hy with ey | hy
    · rw [ex, ey]
    · subst ex; exact absurd e.symm (h.2.2.1 y hy)
    · subst ey; exact absurd e (h.2.2.1 x hx)
    · exact ih h.2.2.2 x hx y hy e

theorem marshalFields_filter_name (A : List (List Nat)) (pfx : List Nat)
    (fs : List (Str × FieldKind × GoType)) :
    ∀ (i : Nat) (vs : List GoVal) (ms : List (Str × JSON)),
    regularFields fs = true → marshalFields A pfx i fs vs = .ok ms →
    ∀ (n : Nat) (name : Str) (kind : FieldKind) (t : GoType) (v : GoVal),
    fs.get? n = some (name, kind, t) → vs.get? n = some v →
      (present A pfx (i + n) kind v →
        ∃ j, marshalVal t v = .ok j ∧ ms.filter (fun m => m.1 == name) = [(name, j)]) ∧
      (¬ present A pfx (i + n) kind v → ms.filter (fun m => m.1 == name) = []) := by
  induction fs with
  | nil => intro i vs ms _ _ n name kind t v hf; simp at hf
  | cons x fs ih =>
    obtain ⟨name0, kind0, t0⟩ := x
    intro i vs ms hreg h n name kind t v hf hv
    cases vs with
    | nil => simp at hv
    | cons v0 vs =>
      have hr := (regularFields_cons name0 kind0 t0 fs).1 hreg
      obtain ⟨rest, hrest, hcase⟩ := marshalFields_inv A pfx i name0 kind0 t0 fs v0 vs ms hr.1 h
      cases n with
      | zero =>
        simp only [List.get?_cons_zero, Option.some.injEq, Prod.mk.injEq] at hf hv
        obtain ⟨e1, e2, e3⟩ := hf
        subst e1 e2 e3 hv
        have hnone : rest.filter (fun m => m.1 == name0) = [] := by
          rw [List.filter_eq_nil_iff]
          intro m hm
          obtain ⟨f, hfm, e⟩ := marshalFields_keys A pfx fs (i + 1) vs rest
            (regularFields_flat fs hr.2.2.2) hrest m hm
          have := hr.2.2.1 f hfm
          rw [e] at this
          simpa using this
        rw [Nat.add_zero]
        rcases hcase with ⟨p, j, hj, hms⟩ | ⟨p, hms⟩
        · subst hms
          refine ⟨fun _ => ⟨j, hj, ?_⟩, fun q => absurd p q⟩
          simp [List.filter_cons, hnone]
        · subst hms
          exact ⟨fun q => absurd q p, fun _ => hnone⟩
      | succ n =>
        simp only [List.get?_cons_succ] at hf hv
        have hne : name0 ≠ name := by
          have := hr.2.2.1 _ (List.get?_mem hf)
          exact fun e => this e.symm
        have ih' := ih (i + 1) vs rest hr.2.2.2 hrest n name kind t v hf hv
        have hi : i + (n + 1) = i + 1 + n := by omega
        rw [hi]
        have hdrop : ∀ (j : JSON),
            ((name0, j) :: rest).filter (fun m => m.1 == name) =
              rest.filter (fun m => m.1 == name) := by
          intro j
          simp [List.filter_cons, hne]
        rcases hcase with ⟨_, j, _, hms⟩ | ⟨_, hms⟩
        · subst hms
          simp only [hdrop]
          exact ih'
        · subst hms
          exact ih'

theorem marshalFields_mem (A : List (List Nat)) (pfx : List Nat)
    (fs : List (Str × FieldKind × GoType)) :
    ∀ (i : Nat) (vs : List GoVal) (ms : List (Str × JSON)),
    (∀ f ∈ fs, f.2.1 ≠ .embedded) → marshalFields A pfx i fs vs = .ok ms →
    ∀ m ∈ ms, ∃ n x v, fs.get? n = some x ∧ vs.get? n = some v ∧ x.1 = m.1 ∧
      marshalVal x.2.2 v = .ok m.2 := by
  induction fs with
  | nil =>
    intro i vs ms _ h m hm
    rw [marshalFields] at h
    simp only [Except.ok.injEq] at h
    subst h
    simp at hm
  | cons f fs ih =>
    obtain ⟨name, kind, t⟩ := f
    intro i vs ms hflat h m hm
    cases vs with
    | nil => rw [marshalFields] at h; simp at h
    | cons v vs =>
      obtain ⟨rest, hrest, hcase⟩ := marshalFields_inv A pfx i name kind t fs v vs ms
        (hflat _ (List.mem_cons_self _ _)) h
      have ih' := ih (i + 1) vs rest (fun f hf => hflat f (List.mem_cons_of_mem _ hf)) hrest
      have htail : m ∈ rest → ∃ n x w, ((name, kind, t) :: fs).get? n = some x ∧
          (v :: vs).get? n = some w ∧ x.1 = m.1 ∧ marshalVal x.2.2 w = .ok m.2 := by
        intro hm
        obtain ⟨n, x, w, h1, h2, h3, h4⟩ := ih' m hm
        exact ⟨n + 1, x, w, by simpa using h1, by simpa using h2, h3, h4⟩
      rcases hcase with ⟨_, j, hj, hms⟩ | ⟨_, hms⟩
      · subst hms
        rcases List.mem_cons.1 hm with e | hm
        · subst e
          exact ⟨0, (name, kind, t), v, rfl, rfl, rfl, hj⟩
        · exact htail hm
      · subst hms
        exact htail hm

theorem hasFields_get (fs : List (Str × FieldKind × GoType)) :
    ∀ (vs : List GoVal), hasFields fs vs = true →
    ∀ n x v, fs.get? n = some x → vs.get? n = some v → x.2.2.has v = true := by
  induction fs with
  | nil => intro vs _ n x v hf; simp at hf
  | cons f fs ih =>
    obtain ⟨name, kind, t⟩ := f
    intro vs h n x v hf hv
    cases vs with
    | nil => simp at hv
    | cons v0 vs =>
      rw [hasFields, Bool.and_eq_true] at h
      cases n with
      | zero =>
        simp only [List.get?_cons_zero, Option.some.injEq] at hf hv
        subst hf hv
        exact h.1
      | succ n =>
        simp only [List.get?_cons_succ] at hf hv
        exact ih vs h.2 n x v hf hv

theorem hasFields_length (fs : List (Str × FieldKind × GoType)) :
    ∀ (vs : List GoVal), hasFields fs vs = true → vs.length = fs.length := by
  induction fs with
  | nil =>
    intro vs h
    cases vs with
    | nil => rfl
    | cons v vs => simp [hasFields] at h
  | cons f fs ih =>
    obtain ⟨name, kind, t⟩ := f
    intro vs h
    cases vs with
    | nil => simp [hasFields] at h
    | cons v0 vs =>
      rw [hasFields, Bool.and_eq_true] at h
      simp [ih vs h.2]

theorem timesOKList_get : ∀ (vs : List GoVal), timesOKList vs = true →
    ∀ n v, vs.get? n = some v → v.timesOK = true := by
  intro vs
  induction vs with
  | nil => intro _ n v hv; simp at hv
  | cons v0 vs ih =>
    intro h n v hv
    rw [timesOKList, Bool.and_eq_true] at h
    cases n with
    | zero =>
      simp only [List.get?_cons_zero, Option.some.injEq] at hv
      subst hv
      exact h.1
    | succ n =>
      simp only [List.get?_cons_succ] at hv
      exact ih h.2 n v hv

/-! ### The encodings of an event record -/

set_option maxRecDepth 100000 in
theorem EveEvent_regular : regularFields EveEvent = true := by decide

set_option maxRecDepth 100000 in
theorem typeFields_outStruct_index :
    (typeFields outStruct).map (fun f => f.index) =
      [0] :: ((List.range 30).filter (fun n => n != 2)).map (fun n => [1, n]) := by
  decide

set_option maxRecDepth 100000 in
theorem typeFields_EveEvent_index :
    (typeFields EveEvent).map (fun f => f.index) = (List.range 30).map (fun n => [n]) := by
  decide

theorem has_struct (fs : List (Str × FieldKind × GoType)) (e : GoVal)
    (h : (GoType.struct fs).has e = true) : ∃ vs, e = .struct vs ∧ hasFields fs vs = true := by
  cases e with
  | struct vs => exact ⟨vs, rfl, by simpa [GoType.has] using h⟩
  | _ => simp [GoType.has] at h

theorem outEvent_marshal (vs : List GoVal) (h : hasFields EveEvent vs = true) :
    ∃ ms, marshalFields ((typeFields outStruct).map (fun f => f.index)) [1] 0 EveEvent vs
        = .ok ms ∧
      EveOutEvent.MarshalJSON (.struct vs) =
        .ok (.obj (("flow_id".toList, .str (FormatInt (FlowID (.struct vs)))) :: ms)) := by
  obtain ⟨ms, hms⟩ := marshalFields_ok EveEvent vs
    ((typeFields outStruct).map (fun f => f.index)) [1] 0 EveEvent_regular h
  refine ⟨ms, hms, ?_⟩
  have hA : ((typeFields outStruct).map (fun f => f.index)).contains [0] = true := by
    rw [typeFields_outStruct_index]; rfl
  unfold EveOutEvent.MarshalJSON
  rw [marshalVal]
  simp only [outStruct]
  rw [marshalFields, marshalFields, marshalFields]
  simp only [List.nil_append]
  rw [marshalEmbedded]
  simp only [outStruct] at hms hA
  simp only [hms, List.append_nil, hA, if_true, marshalVal]

theorem event_marshal (vs : List GoVal) (h : hasFields EveEvent vs = true) :
    ∃ ms, marshalFields ((typeFields EveEvent).map (fun f => f.index)) [] 0 EveEvent vs
        = .ok ms ∧ EveEvent.Marshal (.struct vs) = .ok (.obj ms) := by
  obtain ⟨ms, hms⟩ := marshalFields_ok EveEvent vs
    ((typeFields EveEvent).map (fun f => f.index)) [] 0 EveEvent_regular h
  refine ⟨ms, hms, ?_⟩
  unfold EveEvent.Marshal
  rw [marshalVal, hms]

theorem EveEvent_flow_field : EveEvent.get? 2 = some ("flow_id".toList, .omitempty, .int) := rfl

theorem has_int (v : GoVal) (h : GoType.int.has v = true) :
    ∃ n : Int, v = .int n ∧ -9223372036854775808 ≤ n ∧ n ≤ 9223372036854775807 := by
  cases v with
  | int n => exact ⟨n, rfl, by simpa [GoType.has] using h⟩
  | _ => simp [GoType.has] at h

/-- The `FlowID` field of a well-typed event record. -/
theorem flow_field (vs : List GoVal) (h : hasFields EveEvent vs = true) :
    vs.get? 2 = some (.int (FlowID (.struct vs))) ∧
      -9223372036854775808 ≤ FlowID (.struct vs) ∧ FlowID (.struct vs) ≤ 9223372036854775807 := by
  have hl := hasFields_length EveEvent vs h
  have h2 : 2 < vs.length := by rw [hl]; decide
  obtain ⟨v, hv⟩ : ∃ v, vs.get? 2 = some v := ⟨vs.get ⟨2, h2⟩, List.get?_eq_get h2⟩
  obtain ⟨n, e, hn⟩ := has_int v (hasFields_get EveEvent vs h 2 _ v EveEvent_flow_field hv)
  subst e
  have : FlowID (.struct vs) = n := by simp only [FlowID, hv]
  rw [this]
  exact ⟨hv, hn⟩

/-- The wrapper writes no `flow_id` member for the embedded record. -/
theorem outEvent_inner_flow (vs : List GoVal) (ms : List (Str × JSON))
    (h : hasFields EveEvent vs = true)
    (hms : marshalFields ((typeFields outStruct).map (fun f => f.index)) [1] 0 EveEvent vs
      = .ok ms) :
    ms.filter (fun m => m.1 == "flow_id".toList) = [] := by
  have hf := flow_field vs h
  refine (marshalFields_filter_name _ [1] EveEvent 0 vs ms EveEvent_regular hms 2 _ _ _ _
    EveEvent_flow_field hf.1).2 ?_
  intro hp
  have hc := hp.1
  rw [typeFields_outStruct_index] at hc
  revert hc
  decide

/-- The `flow_id` member of the canonical encoding. -/
theorem event_flow (vs : List GoVal) (ms : List (Str × JSON))
    (h : hasFields EveEvent vs = true)
    (hms : marshalFields ((typeFields EveEvent).map (fun f => f.index)) [] 0 EveEvent vs
      = .ok ms) :
    ms.filter (fun m => m.1 == "flow_id".toList) =
      if FlowID (.struct vs) = 0 then []
      else [("flow_id".toList, .num (FormatInt (FlowID (.struct vs))))] := by
  have hf := flow_field vs h
  have hm := marshalFields_filter_name _ [] EveEvent 0 vs ms EveEvent_regular hms 2 _ _ _ _
    EveEvent_flow_field hf.1
  have hc : ((typeFields EveEvent).map (fun f => f.index)).contains ([] ++ [0 + 2]) = true := by
    rw [typeFields_EveEvent_index]; decide
  by_cases h0 : FlowID (.struct vs) = 0
  · rw [if_pos h0]
    apply hm.2
    intro hp
    rcases hp.2 with hk | hk
    · cases hk
    · simp [isEmptyValue, h0] at hk
  · rw [if_neg h0]
    obtain ⟨j, hj, hfl⟩ := hm.1 ⟨hc, Or.inr (by simp [isEmptyValue, h0])⟩
    rw [marshalVal] at hj
    simp only [Except.ok.injEq] at hj
    rw [hfl, ← hj]

/-- The members other than `flow_id` are those of the canonical encoding. -/
theorem outEvent_others (vs : List GoVal) (ms ms' : List (Str × JSON))
    (hms : marshalFields ((typeFields outStruct).map (fun f => f.index)) [1] 0 EveEvent vs
      = .ok ms)
    (hms' : marshalFields ((typeFields EveEvent).map (fun f => f.index)) [] 0 EveEvent vs
      = .ok ms') :
    ms.filter (fun m => m.1 != "flow_id".toList) =
      ms'.filter (fun m => m.1 != "flow_id".toList) := by
  refine marshalFields_filter_congr _ _ _ [1] [] EveEvent 0 vs ms ms'
    (regularFields_flat EveEvent EveEvent_regular) hms hms' ?_
  intro j f hj hne
  have hlt : j < 30 := by
    have := (List.get?_eq_some.1 hj).1
    simpa [EveEvent] using this
  have hj2 : j ≠ 2 := by
    intro e
    subst e
    rw [EveEvent_flow_field] at hj
    simp only [Option.some.injEq] at hj
    exact hne (by rw [← hj])
  rw [typeFields_outStruct_index, typeFields_EveEvent_index]
  have key : ∀ j < 30, j ≠ 2 →
      (([0] :: ((List.range 30).filter (fun n => n != 2)).map (fun n => [1, n])).contains
          ([1] ++ [0 + j])) =
        (((List.range 30).map (fun n => [n])).contains ([] ++ [0 + j])) := by
    decide
  exact key j hlt hj2

/-! ### The decoder: members of an object -/

mutual
/-- Induction over JSON values. -/
theorem JSON_ind (P : JSON → Prop) (h0 : P .null) (hb : ∀ b, P (.bool b))
    (hn : ∀ l, P (.num l)) (hs : ∀ s, P (.str s))
    (ha : ∀ xs, (∀ x ∈ xs, P x) → P (.arr xs))
    (ho : ∀ ms : List (Str × JSON), (∀ m ∈ ms, P m.2) → P (.obj ms)) : ∀ j, P j
  | .null => h0
  | .bool b => hb b
  | .num l => hn l
  | .str s => hs s
  | .arr xs => ha xs (JSON_ind_list P h0 hb hn hs ha ho xs)
  | .obj ms => ho ms (JSON_ind_members P h0 hb hn hs ha ho ms)
/-- Induction over JSON values: the elements of an array. -/
theorem JSON_ind_list (P : JSON → Prop) (h0 : P .null) (hb : ∀ b, P (.bool b))
    (hn : ∀ l, P (.num l)) (hs : ∀ s, P (.str s))
    (ha : ∀ xs, (∀ x ∈ xs, P x) → P (.arr xs))
    (ho : ∀ ms : List (Str × JSON), (∀ m ∈ ms, P m.2) → P (.obj ms)) :
    ∀ xs : List JSON, ∀ x ∈ xs, P x
  | [], _, h => by simp at h
  | y :: ys, x, h => by
    rcases List.mem_cons.1 h with e | h
    · rw [e]; exact JSON_ind P h0 hb hn hs ha ho y
    · exact JSON_ind_list P h0 hb hn hs ha ho ys x h
/-- Induction over JSON values: the members of an object. -/
theorem JSON_ind_members (P : JSON → Prop) (h0 : P .null) (hb : ∀ b, P (.bool b))
    (hn : ∀ l, P (.num l)) (hs : ∀ s, P (.str s))
    (ha : ∀ xs, (∀ x ∈ xs, P x) → P (.arr xs))
    (ho : ∀ ms : List (Str × JSON), (∀ m ∈ ms, P m.2) → P (.obj ms)) :
    ∀ ms : List (Str × JSON), ∀ m ∈ ms, P m.2
  | [], _, h => by simp at h
  | (k, y) :: ys, m, h => by
    rcases List.mem_cons.1 h with e | h
    · rw [e]; exact JSON_ind P h0 hb hn hs ha ho y
    · exact JSON_ind_members P h0 hb hn hs ha ho ys m h
end

theorem decodeMembers_nil (fields : List FieldInfo) (vs : List GoVal) :
    decodeMembers fields [] vs = (vs, none, none) := by
  rw [decodeMembers]

theorem decodeMembers_skip (fields : List FieldInfo) (k : Str) (j : JSON)
    (ms : List (Str × JSON)) (vs : List GoVal) (h : findField fields k = none) :
    decodeMembers fields ((k, j) :: ms) vs = decodeMembers fields ms vs := by
  rw [decodeMembers]
  simp only [h]

theorem decodeMembers_stop (fields : List FieldInfo) (k : Str) (j : JSON)
    (ms : List (Str × JSON)) (vs : List GoVal) (f : FieldInfo) (err : Error)
    (h : findField fields k = some f)
    (hf : (decodeValue f.typ j ((getAt f.index vs).getD f.typ.zero)).fatal = some err) :
    decodeMembers fields ((k, j) :: ms) vs =
      (setAt f.index (decodeValue f.typ j ((getAt f.index vs).getD f.typ.zero)).val vs,
        (decodeValue f.typ j ((getAt f.index vs).getD f.typ.zero)).saved, some err) := by
  rw [decodeMembers]
  simp only [h]
  rcases ho : decodeValue f.typ j ((getAt f.index vs).getD f.typ.zero) with ⟨val, saved, fatal⟩
  rw [ho] at hf
  simp only at hf
  subst hf
  rfl

theorem decodeMembers_step (fields : List FieldInfo) (k : Str) (j : JSON)
    (ms : List (Str × JSON)) (vs : List GoVal) (f : FieldInfo)
    (h : findField fields k = some f)
    (hf : (decodeValue f.typ j ((getAt f.index vs).getD f.typ.zero)).fatal = none) :
    decodeMembers fields ((k, j) :: ms) vs =
      ((decodeMembers fields ms
          (setAt f.index (decodeValue f.typ j ((getAt f.index vs).getD f.typ.zero)).val vs)).1,
        ((decodeValue f.typ j ((getAt f.index vs).getD f.typ.zero)).saved <|>
          (decodeMembers fields ms
            (setAt f.index (decodeValue f.typ j ((getAt f.index vs).getD f.typ.zero)).val
              vs)).2.1),
        (decodeMembers fields ms
          (setAt f.index (decodeValue f.typ j ((getAt f.index vs).getD f.typ.zero)).val
            vs)).2.2) := by
  rw [decodeMembers]
  simp only [h]
  rcases ho : decodeValue f.typ j ((getAt f.index vs).getD f.typ.zero) with ⟨val, saved, fatal⟩
  rw [ho] at hf
  simp only at hf
  subst hf
  rfl

theorem orElse_assoc (a b c : Option Error) : (a <|> (b <|> c)) = ((a <|> b) <|> c) := by
  cases a <;> cases b <;> rfl

theorem decodeMembers_append_fatal (fields : List FieldInfo) (b : List (Str × JSON)) :
    ∀ (a : List (Str × JSON)) (vs : List GoVal) (err : Error),
    (decodeMembers fields a vs).2.2 = some err →
    decodeMembers fields (a ++ b) vs = decodeMembers fields a vs := by
  intro a
  induction a with
  | nil => intro vs err h; rw [decodeMembers_nil] at h; simp at h
  | cons m a ih =>
    obtain ⟨k, j⟩ := m
    intro vs err h
    rw [List.cons_append]
    cases hf : findField fields k with
    | none =>
      rw [decodeMembers_skip fields k j a vs hf] at h ⊢
      rw [decodeMembers_skip fields k j (a ++ b) vs hf]
      exact ih vs err h
    | some f =>
      cases hfat : (decodeValue f.typ j ((getAt f.index vs).getD f.typ.zero)).fatal with
      | some e =>
        rw [decodeMembers_stop _ _ _ _ _ f e hf hfat, decodeMembers_stop _ _ _ _ _ f e hf hfat]
      | none =>
        rw [decodeMembers_step fields k j a vs f hf hfat] at h ⊢
        rw [decodeMembers_step fields k j (a ++ b) vs f hf hfat]
        simp only at h
        rw [ih _ err h]

theorem decodeMembers_append_ok (fields : List FieldInfo) (b : List (Str × JSON)) :
    ∀ (a : List (Str × JSON)) (vs : List GoVal),
    (decodeMembers fields a vs).2.2 = none →
    decodeMembers fields (a ++ b) vs =
      ((decodeMembers fields b (decodeMembers fields a vs).1).1,
        ((decodeMembers fields a vs).2.1 <|>
          (decodeMembers fields b (decodeMembers fields a vs).1).2.1),
        (decodeMembers fields b (decodeMembers fields a vs).1).2.2) := by
  intro a
  induction a with
  | nil =>
    intro vs _
    rw [decodeMembers_nil]
    rfl
  | cons m a ih =>
    obtain ⟨k, j⟩ := m
    intro vs h
    rw [List.cons_append]
    cases hf : findField fields k with
    | none =>
      rw [decodeMembers_skip fields k j a vs hf] at h ⊢
      rw [decodeMembers_skip fields k j (a ++ b) vs hf]
      exact ih vs h
    | some f =>
      cases hfat : (decodeValue f.typ j ((getAt f.index vs).getD f.typ.zero)).fatal with
      | some e =>
        rw [decodeMembers_stop _ _ _ _ _ f e hf hfat] at h
        simp at h
      | none =>
        rw [decodeMembers_step fields k j a vs f hf hfat] at h ⊢
        rw [decodeMembers_step fields k j (a ++ b) vs f hf hfat]
        simp only at h
        rw [ih _ h]
        simp only [orElse_assoc]

theorem decodeMembers_errors (fields : List FieldInfo) :
    ∀ (ms : List (Str × JSON)),
    (∀ m ∈ ms, ∀ t v v', (decodeValue t m.2 v).saved = (decodeValue t m.2 v').saved ∧
      (decodeValue t m.2 v).fatal = (decodeValue t m.2 v').fatal) →
    ∀ vs vs', (decodeMembers fields ms vs).2 = (decodeMembers fields ms vs').2 := by
  intro ms
  induction ms with
  | nil => intro _ vs vs'; rw [decodeMembers_nil, decodeMembers_nil]
  | cons m ms ih =>
    obtain ⟨k, j⟩ := m
    intro hind vs vs'
    have ih' := ih (fun m hm => hind m (List.mem_cons_of_mem _ hm))
    cases hf : findField fields k with
    | none =>
      rw [decodeMembers_skip _ _ _ _ _ hf, decodeMembers_skip _ _ _ _ _ hf]
      exact ih' vs vs'
    | some f =>
      have hi := hind (k, j) (List.mem_cons_self _ _) f.typ
        ((getAt f.index vs).getD f.typ.zero) ((getAt f.index vs').getD f.typ.zero)
      simp only at hi
      cases hfat : (decodeValue f.typ j ((getAt f.index vs).getD f.typ.zero)).fatal with
      | some e =>
        have hfat' := hfat
        rw [hi.2] at hfat'
        rw [decodeMembers_stop _ _ _ _ _ f e hf hfat, decodeMembers_stop _ _ _ _ _ f e hf hfat']
        simp only [hi.1]
      | none =>
        have hfat' := hfat
        rw [hi.2] at hfat'
        rw [decodeMembers_step _ _ _ _ _ f hf hfat, decodeMembers_step _ _ _ _ _ f hf hfat']
        have := ih'
          (setAt f.index (decodeValue f.typ j ((getAt f.index vs).getD f.typ.zero)).val vs)
          (setAt f.index (decodeValue f.typ j ((getAt f.index vs').getD f.typ.zero)).val vs')
        simp only [hi.1]
        rw [Prod.ext_iff] at this
        rw [this.1, this.2]

theorem decodeMembers_clean (fields : List FieldInfo) :
    ∀ (ms : List (Str × JSON)),
    (∀ m ∈ ms, ∀ f, findField fields m.1 = some f → ∀ cur,
      (decodeValue f.typ m.2 cur).saved = none ∧ (decodeValue f.typ m.2 cur).fatal = none) →
    ∀ vs, (decodeMembers fields ms vs).2 = (none, none) := by
  intro ms
  induction ms with
  | nil => intro _ vs; rw [decodeMembers_nil]
  | cons m ms ih =>
    obtain ⟨k, j⟩ := m
    intro hc vs
    have ih' := ih (fun m hm => hc m (List.mem_cons_of_mem _ hm))
    cases hf : findField fields k with
    | none =>
      rw [decodeMembers_skip _ _ _ _ _ hf]
      exact ih' vs
    | some f =>
      have hi := hc (k, j) (List.mem_cons_self _ _) f hf ((getAt f.index vs).getD f.typ.zero)
      simp only at hi
      rw [decodeMembers_step _ _ _ _ _ f hf hi.2]
      have := ih'
        (setAt f.index (decodeValue f.typ j ((getAt f.index vs).getD f.typ.zero)).val vs)
      rw [Prod.ext_iff] at this
      simp only at this
      rw [this.1, this.2, hi.1]
      rfl

theorem decodeMembers_inv (fields : List FieldInfo) (Inv : List GoVal → Prop) :
    ∀ (ms : List (Str × JSON)),
    (∀ m ∈ ms, ∀ f, findField fields m.1 = some f → ∀ vs, Inv vs →
      Inv (setAt f.index (decodeValue f.typ m.2 ((getAt f.index vs).getD f.typ.zero)).val vs)) →
    ∀ vs, Inv vs → Inv (decodeMembers fields ms vs).1 := by
  intro ms
  induction ms with
  | nil => intro _ vs h; rw [decodeMembers_nil]; exact h
  | cons m ms ih =>
    obtain ⟨k, j⟩ := m
    intro hstep vs h
    have ih' := ih (fun m hm => hstep m (List.mem_cons_of_mem _ hm))
    cases hf : findField fields k with
    | none =>
      rw [decodeMembers_skip _ _ _ _ _ hf]
      exact ih' vs h
    | some f =>
      have hi := hstep (k, j) (List.mem_cons_self _ _) f hf vs h
      simp only at hi
      cases hfat : (decodeValue f.typ j ((getAt f.index vs).getD f.typ.zero)).fatal with
      | some e =>
        rw [decodeMembers_stop _ _ _ _ _ f e hf hfat]
        exact hi
      | none =>
        rw [decodeMembers_step _ _ _ _ _ f hf hfat]
        exact ih' _ hi

/-! ### The decoder: errors -/

theorem suriTime_errors (c c' : Time) (b : Str) :
    (suriTime.UnmarshalJSON c b).2 = (suriTime.UnmarshalJSON c' b).2 := by
  unfold suriTime.UnmarshalJSON
  cases Unquote b with
  | error e => rfl
  | ok d => cases Parse d <;> rfl

theorem decodeSuriTime_saved (j : JSON) (v : GoVal) : (decodeSuriTime j v).saved = none := by
  unfold decodeSuriTime
  rfl

theorem decodeSuriTime_fatal (j : JSON) (v : GoVal) :
    (decodeSuriTime j v).fatal = (suriTime.UnmarshalJSON zeroTime j.text).2 := by
  unfold decodeSuriTime
  exact suriTime_errors _ _ _

theorem typeMismatch_saved (t : GoType) (v : GoVal) :
    (typeMismatch t v).saved = some .unmarshalType := by
  unfold typeMismatch
  split <;> rfl

theorem typeMismatch_fatal (t : GoType) (v : GoVal) : (typeMismatch t v).fatal = none := by
  unfold typeMismatch
  split <;> rfl

theorem decodeElems_errors : ∀ (xs : List JSON),
    (∀ x ∈ xs, ∀ t v v', (decodeValue t x v).saved = (decodeValue t x v').saved ∧
      (decodeValue t x v).fatal = (decodeValue t x v').fatal) →
    ∀ old old', (decodeElems xs old).2 = (decodeElems xs old').2 := by
  intro xs
  induction xs with
  | nil => intro _ old old'; rw [decodeElems, decodeElems]
  | cons x xs ih =>
    intro hind old old'
    have ih' := ih (fun x hx => hind x (List.mem_cons_of_mem _ hx)) old.tail old'.tail
    have hi := hind x (List.mem_cons_self _ _) .string (.str (old.headD [])) (.str (old'.headD []))
    rw [decodeElems, decodeElems]
    rcases h1 : decodeValue .string x (.str (old.headD [])) with ⟨n1, s1, f1⟩
    rcases h2 : decodeValue .string x (.str (old'.headD [])) with ⟨n2, s2, f2⟩
    rw [h1, h2] at hi
    simp only at hi
    simp only [hi.1, ih']

/-- The errors of the decoder do not depend on the value decoded into. -/
theorem decodeValue_errors : ∀ (j : JSON) (t : GoType) (v v' : GoVal),
    (decodeValue t j v).saved = (decodeValue t j v').saved ∧
      (decodeValue t j v).fatal = (decodeValue t j v').fatal := by
  intro j
  induction j using JSON_ind with
  | h0 =>
    intro t v v'
    cases t <;> simp [decodeValue]
  | hb b =>
    intro t v v'
    cases t <;> simp [decodeValue, typeMismatch_saved, typeMismatch_fatal,
      decodeSuriTime_saved, decodeSuriTime_fatal]
  | hn l =>
    intro t v v'
    cases t <;> simp [decodeValue, typeMismatch_saved, typeMismatch_fatal,
      decodeSuriTime_saved, decodeSuriTime_fatal]
    rcases ParseInt l with ⟨n, _ | e⟩ <;> simp
  | hs s =>
    intro t v v'
    cases t <;> simp [decodeValue, typeMismatch_saved, typeMismatch_fatal,
      decodeSuriTime_saved, decodeSuriTime_fatal]
    split <;> simp
  | ha xs ih =>
    intro t v v'
    cases t <;> simp [decodeValue, typeMismatch_saved, typeMismatch_fatal,
      decodeSuriTime_saved, decodeSuriTime_fatal]
    exact decodeElems_errors xs ih _ _
  | ho ms ih =>
    intro t v v'
    cases t <;> simp [decodeValue, typeMismatch_saved, typeMismatch_fatal,
      decodeSuriTime_saved, decodeSuriTime_fatal]
    · rename_i fs
      have := decodeMembers_errors (typeFields fs) ms ih
      exact ⟨congrArg Prod.fst (this _ _), congrArg Prod.snd (this _ _)⟩
    · rename_i fs
      have := decodeMembers_errors (typeFields fs) ms ih
      exact ⟨congrArg Prod.fst (this _ _), congrArg Prod.snd (this _ _)⟩

/-! ### The fields of a regular struct -/

theorem allFields_flat (pfx : List Nat) (fs : List (Str × FieldKind × GoType)) :
    ∀ i, (∀ f ∈ fs, f.2.1 ≠ .embedded) → allFields pfx i fs = flatInfos pfx i fs := by
  induction fs with
  | nil => intro i _; simp only [allFields, flatInfos]
  | cons x fs ih =>
    obtain ⟨name, kind, t⟩ := x
    intro i h
    have hk := h _ (List.mem_cons_self _ _)
    have ih' := ih (i + 1) (fun f hf => h f (List.mem_cons_of_mem _ hf))
    cases kind with
    | embedded => exact absurd rfl hk
    | omitempty => simp only [allFields, flatInfos, ih']; rfl
    | plain => simp only [allFields, flatInfos, ih']; rfl

theorem mem_flatInfos (pfx : List Nat) (fs : List (Str × FieldKind × GoType)) :
    ∀ i f, f ∈ flatInfos pfx i fs →
    ∃ n kind, fs.get? n = some (f.name, kind, f.typ) ∧ f.index = pfx ++ [i + n] := by
  induction fs with
  | nil => intro i f hf; simp [flatInfos] at hf
  | cons x fs ih =>
    obtain ⟨name, kind, t⟩ := x
    intro i f hf
    rw [flatInfos] at hf
    rcases List.mem_cons.1 hf with e | hf
    · subst e
      exact ⟨0, kind, rfl, rfl⟩
    · obtain ⟨n, kind', h1, h2⟩ := ih (i + 1) f hf
      refine ⟨n + 1, kind', by simpa using h1, ?_⟩
      rw [h2]
      congr 2
      omega

theorem flatInfos_mem (pfx : List Nat) (fs : List (Str × FieldKind × GoType)) :
    ∀ i n name kind t, fs.get? n = some (name, kind, t) →
    ∃ f ∈ flatInfos pfx i fs, f.name = name ∧ f.typ = t ∧ f.index = pfx ++ [i + n] := by
  induction fs with
  | nil => intro i n name kind t h; simp at h
  | cons x fs ih =>
    obtain ⟨name0, kind0, t0⟩ := x
    intro i n name kind t h
    rw [flatInfos]
    cases n with
    | zero =>
      simp only [List.get?_cons_zero, Option.some.injEq, Prod.mk.injEq] at h
      obtain ⟨e1, e2, e3⟩ := h
      subst e1 e2 e3
      exact ⟨_, List.mem_cons_self _ _, rfl, rfl, rfl⟩
    | succ n =>
      simp only [List.get?_cons_succ] at h
      obtain ⟨f, hf, h1, h2, h3⟩ := ih (i + 1) n name kind t h
      refine ⟨f, List.mem_cons_of_mem _ hf, h1, h2, ?_⟩
      rw [h3]
      congr 2
      omega

theorem regularFields_get_inj (fs : List (Str × FieldKind × GoType))
    (h : regularFields fs = true) : ∀ n m x y, fs.get? n = some x → fs.get? m = some y →
    x.1 = y.1 → n = m := by
  induction fs with
  | nil => intro n m x y hx; simp at hx
  | cons z fs ih =>
    obtain ⟨name, kind, t⟩ := z
    rw [regularFields_cons] at h
    intro n m x y hx hy e
    cases n with
    | zero =>
      cases m with
      | zero => rfl
      | succ m =>
        simp only [List.get?_cons_zero, Option.some.injEq, List.get?_cons_succ] at hx hy
        subst hx
        exact absurd e.symm (h.2.2.1 y (List.get?_mem hy))
    | succ n =>
      cases m with
      | zero =>
        simp only [List.get?_cons_zero, Option.some.injEq, List.get?_cons_succ] at hx hy
        subst hy
        exact absurd e (h.2.2.1 x (List.get?_mem hx))
      | succ m =>
        simp only [List.get?_cons_succ] at hx hy
        rw [ih h.2.2.2 n m x y hx hy e]

/-- A struct without embedded structs and with distinct field names: all
its fields take part in its JSON form. -/
theorem typeFields_regular (fs : List (Str × FieldKind × GoType))
    (h : regularFields fs = true) : typeFields fs = flatInfos [] 0 fs := by
  unfold typeFields
  rw [allFields_flat [] fs 0 (regularFields_flat fs h)]
  rw [List.filter_eq_self]
  intro f hf
  unfold dominant
  rw [List.all_eq_true]
  intro g hg
  by_cases e : g.name = f.name
  · obtain ⟨n, kn, hn, hin⟩ := mem_flatInfos [] fs 0 f hf
    obtain ⟨m, km, hm, him⟩ := mem_flatInfos [] fs 0 g hg
    have := regularFields_get_inj fs h m n _ _ hm hn e
    subst this
    simp [hin, him]
  · simp [e]

theorem findField_mem (fields : List FieldInfo) (k : Str) (f : FieldInfo)
    (h : findField fields k = some f) :
    f ∈ fields ∧ (f.name = k ∨ foldName f.name = foldName k) := by
  unfold findField at h
  cases h1 : fields.find? (fun f => f.name == k) with
  | some g =>
    rw [h1] at h
    simp only [Option.some.injEq] at h
    subst h
    have := List.find?_some h1
    exact ⟨List.mem_of_find?_eq_some h1, Or.inl (by simpa using this)⟩
  | none =>
    rw [h1] at h
    simp only at h
    have := List.find?_some h
    exact ⟨List.mem_of_find?_eq_some h, Or.inr (by simpa using this)⟩

theorem findField_exact (fields : List FieldInfo) (k : Str) (f : FieldInfo)
    (hex : ∃ g ∈ fields, g.name = k) (h : findField fields k = some f) :
    f ∈ fields ∧ f.name = k := by
  unfold findField at h
  cases h1 : fields.find? (fun f => f.name == k) with
  | some g =>
    rw [h1] at h
    simp only [Option.some.injEq] at h
    subst h
    have := List.find?_some h1
    exact ⟨List.mem_of_find?_eq_some h1, by simpa using this⟩
  | none =>
    obtain ⟨g, hg, e⟩ := hex
    have := List.find?_eq_none.1 h1 g hg
    simp [e] at this

/-- The field a member of the name of a field of a regular struct selects. -/
theorem findField_regular (fs : List (Str × FieldKind × GoType))
    (h : regularFields fs = true) (n : Nat) (name : Str) (kind : FieldKind) (t : GoType)
    (hn : fs.get? n = some (name, kind, t)) (f : FieldInfo)
    (hf : findField (typeFields fs) name = some f) : f.typ = t ∧ f.index = [n] := by
  rw [typeFields_regular fs h] at hf
  obtain ⟨g, hg, g1, g2, g3⟩ := flatInfos_mem [] fs 0 n name kind t hn
  obtain ⟨hm, hname⟩ := findField_exact _ name f ⟨g, hg, g1⟩ hf
  obtain ⟨m, km, hm1, hm2⟩ := mem_flatInfos [] fs 0 f hm
  have := regularFields_get_inj fs h m n _ _ hm1 hn hname
  subst this
  rw [hn] at hm1
  simp only [Option.some.injEq, Prod.mk.injEq] at hm1
  refine ⟨hm1.2.2.symm, ?_⟩
  rw [hm2]
  simp

/-- The field a member selects in a regular struct. -/
theorem findField_regular_some (fs : List (Str × FieldKind × GoType))
    (h : regularFields fs = true) (k : Str) (f : FieldInfo)
    (hf : findField (typeFields fs) k = some f) :
    ∃ n kind, fs.get? n = some (f.name, kind, f.typ) ∧ f.index = [n] := by
  rw [typeFields_regular fs h] at hf
  obtain ⟨n, kind, h1, h2⟩ := mem_flatInfos [] fs 0 f (findField_mem _ k f hf).1
  exact ⟨n, kind, h1, by rw [h2]; simp⟩

theorem fracList_last (w v : Nat) (hv : v < 10 ^ w) (h0 : v ≠ 0) :
    (fracList w v).getLast? ≠ some '0' := by
  induction w generalizing v with
  | zero => simp at hv; exact absurd hv h0
  | succ w ih =>
    rw [fracList]
    by_cases h : v % 10 = 0
    · rw [if_pos h]
      exact ih (v / 10) (by rw [pow_succ] at hv; omega) (by omega)
    · rw [if_neg h]
      by_cases hw : w = 0
      · subst hw
        rw [pad_one v (by simpa using hv)]
        simp only [List.getLast?_singleton, ne_eq, Option.some.injEq]
        intro e
        have := (digitChar_eq_zero v (by simpa using hv)).1 e
        omega
      · rw [pad_succ w v (by omega)]
        simp only [List.getLast?_append, List.getLast?_singleton, Option.or, ne_eq,
          Option.some.injEq]
        intro e
        exact h ((digitChar_eq_zero (v % 10) (by omega)).1 e)


theorem twoDigits (n : Nat) (rest : Str) (fixed : Bool) (hn : n < 100) :
    getnum (digitChar (n / 10) :: digitChar (n % 10) :: rest) fixed = .ok (n, rest) := by
  have g := getnum_two (n / 10) (n % 10) (by omega) (by omega) rest fixed
  have e : n / 10 * 10 + n % 10 = n := by omega
  rw [e] at g
  exact g

theorem parseZone_sign (neg : Bool) (zh zm : Nat) (hh : zh < 100) (hm : zm < 100) :
    parseZone [if neg then '-' else '+', digitChar (zh / 10), digitChar (zh % 10),
      digitChar (zm / 10), digitChar (zm % 10)] =
      if zh > 24 ∨ zm > 60 then .error .timeParse
      else .ok (if neg then -(((zh * 60 + zm) * 60 : Nat) : Int)
        else (((zh * 60 + zm) * 60 : Nat) : Int), []) := by
  unfold parseZone
  have g1 := twoDigits zh [] true hh
  have g2 := twoDigits zm [] true hm
  by_cases hr : zh > 24 ∨ zm > 60
  · cases neg <;> simp [g1, g2, hr]
  · cases neg <;> simp [g1, g2, hr]

/-- A text of the shape of the layout, with fields of full width, is parsed
exactly when its fields are in range. -/
theorem Parse_stampText_iff (y mo d h mi s micro zh zm : Nat) (neg : Bool) (hy : y < 10000)
    (hmo : mo < 100) (hd : d < 100) (hh : h < 100) (hmi : mi < 100) (hs : s < 100)
    (hmic : micro < 1000000) (hzh : zh < 100) (hzm : zm < 100) :
    (∃ t, Parse (stampText y mo d h mi s micro neg zh zm) = .ok t) ↔
      (1 ≤ mo ∧ mo ≤ 12 ∧ 1 ≤ d ∧ d ≤ daysIn mo y ∧ h < 24 ∧ mi < 60 ∧ s < 60 ∧
        zh ≤ 24 ∧ zm ≤ 60) := by
  have ey : y / 1000 * 1000 + y / 100 % 10 * 100 + y / 10 % 10 * 10 + y % 10 = y := by omega
  have py := parseYear_four (y / 1000) (y / 100 % 10) (y / 10 % 10) (y % 10) (by omega)
    (by omega) (by omega) (by omega)
  rw [ey] at py
  have gm : ∀ rest, parseMonth (digitChar (mo / 10) :: digitChar (mo % 10) :: rest) =
      if mo ≤ 0 ∨ 12 < mo then .error .timeParse else .ok (mo, rest) := by
    intro rest
    simp only [parseMonth, twoDigits mo rest true hmo]
  have gd : ∀ rest, getnum (digitChar (d / 10) :: digitChar (d % 10) :: rest) true =
      .ok (d, rest) := fun rest => twoDigits d rest true hd
  have gh : ∀ rest, parseHour (digitChar (h / 10) :: digitChar (h % 10) :: rest) =
      if 24 ≤ h then .error .timeParse else .ok (h, rest) := by
    intro rest
    simp only [parseHour, twoDigits h rest false hh]
  have g60 : ∀ n, n < 100 → ∀ rest,
      parseSixty (digitChar (n / 10) :: digitChar (n % 10) :: rest) =
        if 60 ≤ n then .error .timeParse else .ok (n, rest) := by
    intro n hn rest
    simp only [parseSixty, twoDigits n rest true hn]
  have pf := parseFrac_zone micro hmic neg [digitChar (zh / 10), digitChar (zh % 10),
      digitChar (zm / 10), digitChar (zm % 10)]
  have pz := parseZone_sign neg zh zm hzh hzm
  unfold Parse stampText
  simp only [List.cons_append, List.nil_append, py, bind, Except.bind, skip_one, gm, gd, gh,
    g60 mi hmi, g60 s hs, ne_eq, pf, pz, Char.reduceEq,
    not_false_eq_true, List.singleton_append]
  by_cases c1 : mo ≤ 0 ∨ 12 < mo
  · simp only [c1, if_true, List.cons_append, List.nil_append, bind, Except.bind, skip_one, gm, gd, gh,
    g60 mi hmi, g60 s hs, ne_eq, pf, pz, Char.reduceEq, not_false_eq_true,
    List.singleton_append, not_true_eq_false]
    constructor
    · rintro ⟨t, ht⟩; cases ht
    · intro hc; omega
  simp only [c1, if_false, List.cons_append, List.nil_append, bind, Except.bind, skip_one, gm, gd, gh,
    g60 mi hmi, g60 s hs, ne_eq, pf, pz, Char.reduceEq, not_false_eq_true,
    List.singleton_append, not_true_eq_false]
  by_cases c2 : 24 ≤ h
  · simp only [c2, if_true, List.cons_append, List.nil_append, bind, Except.bind, skip_one, gm, gd, gh,
    g60 mi hmi, g60 s hs, ne_eq, pf, pz, Char.reduceEq, not_false_eq_true,
    List.singleton_append, not_true_eq_false]
    constructor
    · rintro ⟨t, ht⟩; cases ht
    · intro hc; omega
  simp only [c2, if_false, List.cons_append, List.nil_append, bind, Except.bind, skip_one, gm, gd, gh,
    g60 mi hmi, g60 s hs, ne_eq, pf, pz, Char.reduceEq, not_false_eq_true,
    List.singleton_append, not_true_eq_false]
  by_cases c3 : 60 ≤ mi
  · simp only [c3, if_true, List.cons_append, List.nil_append, bind, Except.bind, skip_one, gm, gd, gh,
    g60 mi hmi, g60 s hs, ne_eq, pf, pz, Char.reduceEq, not_false_eq_true,
    List.singleton_append, not_true_eq_false]
    constructor
    · rintro ⟨t, ht⟩; cases ht
    · intro hc; omega
  simp only [c3, if_false, List.cons_append, List.nil_append, bind, Except.bind, skip_one, gm, gd, gh,
    g60 mi hmi, g60 s hs, ne_eq, pf, pz, Char.reduceEq, not_false_eq_true,
    List.singleton_append, not_true_eq_false]
  by_cases c4 : 60 ≤ s
  · simp only [c4, if_true, List.cons_append, List.nil_append, bind, Except.bind, skip_one, gm, gd, gh,
    g60 mi hmi, g60 s hs, ne_eq, pf, pz, Char.reduceEq, not_false_eq_true,
    List.singleton_append, not_true_eq_false]
    constructor
    · rintro ⟨t, ht⟩; cases ht
    · intro hc; omega
  simp only [c4, if_false, List.cons_append, List.nil_append, bind, Except.bind, skip_one, gm, gd, gh,
    g60 mi hmi, g60 s hs, ne_eq, pf, pz, Char.reduceEq, not_false_eq_true,
    List.singleton_append, not_true_eq_false]
  by_cases c5 : zh > 24 ∨ zm > 60
  · simp only [c5, if_true, List.cons_append, List.nil_append, bind, Except.bind, skip_one, gm, gd, gh,
    g60 mi hmi, g60 s hs, ne_eq, pf, pz, Char.reduceEq, not_false_eq_true,
    List.singleton_append, not_true_eq_false]
    constructor
    · rintro ⟨t, ht⟩; cases ht
    · intro hc; omega
  simp only [c5, if_false, List.cons_append, List.nil_append, bind, Except.bind, skip_one, gm, gd, gh,
    g60 mi hmi, g60 s hs, ne_eq, pf, pz, Char.reduceEq, not_false_eq_true,
    List.singleton_append, not_true_eq_false]
  by_cases c6 : d < 1 ∨ d > daysIn mo y
  · simp only [c6, if_true, List.cons_append, List.nil_append, bind, Except.bind, skip_one, gm, gd, gh,
    g60 mi hmi, g60 s hs, ne_eq, pf, pz, Char.reduceEq, not_false_eq_true,
    List.singleton_append, not_true_eq_false]
    constructor
    · rintro ⟨t, ht⟩; cases ht
    · intro hc; omega
  simp only [c6, if_false, List.cons_append, List.nil_append, bind, Except.bind, skip_one, gm, gd, gh,
    g60 mi hmi, g60 s hs, ne_eq, pf, pz, Char.reduceEq, not_false_eq_true,
    List.singleton_append, not_true_eq_false]
  constructor
  · intro _; omega
  · intro _; exact ⟨_, rfl⟩


theorem stampChar_digitChar (n : Nat) (h : n < 10) : stampChar (digitChar n) = true :=
  stampChar_of_digit _ (isDigitChar_digitChar n h)

theorem stampText_mem (y mo d h mi s micro zh zm : Nat) (neg : Bool) (hy : y < 10000)
    (hmo : mo < 100) (hd : d < 100) (hh : h < 100) (hmi : mi < 100) (hs : s < 100)
    (hzh : zh < 100) (hzm : zm < 100) :
    ∀ c ∈ stampText y mo d h mi s micro neg zh zm, stampChar c = true := by
  intro c hc
  unfold stampText at hc
  simp only [List.mem_append, List.mem_cons, List.mem_singleton, List.not_mem_nil,
    or_false] at hc
  have dg : ∀ n, n < 10 → c = digitChar n → stampChar c = true := by
    intro n hn e
    rw [e]
    exact stampChar_digitChar n hn
  rcases hc with (hc | hc | hc | hc | hc | hc | hc | hc | hc | hc | hc | hc | hc | hc | hc | hc |
    hc | hc | hc) | hc | hc | hc | hc | hc | hc
  · exact dg _ (by omega) hc
  · exact dg _ (by omega) hc
  · exact dg _ (by omega) hc
  · exact dg _ (by omega) hc
  · subst hc; rfl
  · exact dg _ (by omega) hc
  · exact dg _ (by omega) hc
  · subst hc; rfl
  · exact dg _ (by omega) hc
  · exact dg _ (by omega) hc
  · subst hc; rfl
  · exact dg _ (by omega) hc
  · exact dg _ (by omega) hc
  · subst hc; rfl
  · exact dg _ (by omega) hc
  · exact dg _ (by omega) hc
  · subst hc; rfl
  · exact dg _ (by omega) hc
  · exact dg _ (by omega) hc
  · split at hc
    · simp at hc
    · rcases List.mem_cons.1 hc with e | hc
      · subst e; rfl
      · exact stampChar_of_digit c (isDigitChar_of_mem_fracList 6 micro c hc)
  · subst hc; cases neg <;> rfl
  · exact dg _ (by omega) hc
  · exact dg _ (by omega) hc
  · exact dg _ (by omega) hc
  · exact dg _ (by omega) hc

theorem Unquote_unquoted (b : Str) (h1 : b.head? ≠ some '"') (h2 : b.head? ≠ some '\'')
    (h3 : b.head? ≠ some '`') : Unquote b = .error .quoteSyntax := by
  unfold Unquote
  match b with
  | [] => rfl
  | [_] => rfl
  | q :: c :: rest =>
    simp only [List.head?_cons, ne_eq, Option.some.injEq] at h1 h2 h3
    simp only [h1, h2, h3, or_self, if_false]
    split <;> rfl


theorem suriTime_Unmarshal_ok (t0 : Time) (b s : Str) (h : Unquote b = .ok s) :
    (suriTime.UnmarshalJSON t0 b).2 = none ↔ ∃ t, Parse s = .ok t := by
  unfold suriTime.UnmarshalJSON
  rw [h]
  cases hp : Parse s <;> simp [hp]

/-! ### The struct `UnmarshalJSON` decodes into -/

theorem allFields_inStruct :
    allFields [] 0 inStruct = flatInfos [0] 0 EveEvent ++
      [{ index := [1], name := "flow_id".toList, omitEmpty := false, typ := .number }] := by
  have h := allFields_flat [0] EveEvent 0 (regularFields_flat EveEvent EveEvent_regular)
  simp only [inStruct, allFields, embeddedFields, List.nil_append, h, List.append_nil]
  rfl

/-- The fields of the struct `UnmarshalJSON` decodes into: the `FlowID` of
type `json.Number`, and the fields of the event record other than its
`FlowID`, which the former hides. -/
theorem inStruct_fields (f : FieldInfo) (hf : f ∈ typeFields inStruct) :
    (f.index = [1] ∧ f.typ = .number ∧ f.name = "flow_id".toList) ∨
    (∃ n kind, n ≠ 2 ∧ EveEvent.get? n = some (f.name, kind, f.typ) ∧ f.index = [0, n]) := by
  unfold typeFields at hf
  rw [List.mem_filter, allFields_inStruct] at hf
  obtain ⟨hm, hdom⟩ := hf
  rcases List.mem_append.1 hm with hm | hm
  · obtain ⟨n, kind, h1, h2⟩ := mem_flatInfos [0] EveEvent 0 f hm
    refine Or.inr ⟨n, kind, ?_, h1, by rw [h2]; simp⟩
    intro e
    subst e
    rw [EveEvent_flow_field] at h1
    simp only [Option.some.injEq, Prod.mk.injEq] at h1
    unfold dominant at hdom
    rw [List.all_eq_true] at hdom
    have := hdom { index := [1], name := "flow_id".toList, omitEmpty := false, typ := .number }
      (by simp)
    rw [h2, ← h1.1] at this
    revert this
    decide
  · simp only [List.mem_singleton] at hm
    subst hm
    exact Or.inl ⟨rfl, rfl, rfl⟩

theorem inStruct_find_flow :
    ∃ f, findField (typeFields inStruct) "flow_id".toList = some f ∧ f.index = [1] ∧
      f.typ = .number :=
  ⟨{ index := [1], name := "flow_id".toList, omitEmpty := false, typ := .number }, rfl, rfl, rfl⟩

theorem inStruct_find_field (n : Nat) (name : Str) (kind : FieldKind) (t : GoType)
    (hn : EveEvent.get? n = some (name, kind, t)) (h2 : n ≠ 2) :
    ∃ f, findField (typeFields inStruct) name = some f ∧ f.index = [0, n] ∧ f.typ = t := by
  have hname : name ≠ "flow_id".toList := by
    intro e
    subst e
    exact h2 (regularFields_get_inj EveEvent EveEvent_regular n 2 _ _ hn EveEvent_flow_field rfl)
  obtain ⟨g, hg, g1, g2, g3⟩ := flatInfos_mem [0] EveEvent 0 n name kind t hn
  have hgT : g ∈ typeFields inStruct := by
    unfold typeFields
    rw [List.mem_filter, allFields_inStruct]
    refine ⟨List.mem_append_left _ hg, ?_⟩
    unfold dominant
    rw [List.all_eq_true]
    intro x hx
    rcases List.mem_append.1 hx with hx | hx
    · by_cases e : x.name = g.name
      · obtain ⟨m, km, hm, him⟩ := mem_flatInfos [0] EveEvent 0 x hx
        have := regularFields_get_inj EveEvent EveEvent_regular m n _ _ hm hn (by rw [e, g1])
        subst this
        simp [g3, him]
      · simp [e]
    · simp only [List.mem_singleton] at hx
      subst hx
      have : ("flow_id".toList != g.name) = true := by
        rw [g1]
        simpa using fun e => hname e.symm
      simp only [this, Bool.or_true, Bool.true_or]
  cases hfind : findField (typeFields inStruct) name with
  | none =>
    unfold findField at hfind
    cases h1 : (typeFields inStruct).find? (fun f => f.name == name) with
    | some x => rw [h1] at hfind; simp at hfind
    | none =>
      have := List.find?_eq_none.1 h1 g hgT
      simp [g1] at this
  | some f =>
    refine ⟨f, rfl, ?_⟩
    obtain ⟨hfT, hfn⟩ := findField_exact _ name f ⟨g, hgT, g1⟩ hfind
    rcases inStruct_fields f hfT with ⟨_, _, e⟩ | ⟨m, km, _, hm, him⟩
    · exact absurd (hfn ▸ e) hname
    · have := regularFields_get_inj EveEvent EveEvent_regular m n _ _ hm hn hfn
      subst this
      rw [hn] at hm
      simp only [Option.some.injEq, Prod.mk.injEq] at hm
      exact ⟨him, hm.2.2.symm⟩


theorem decodeValue_number (j : JSON) (fl : Str) :
    ∃ fl', (decodeValue .number j (.num fl)).val = .num fl' := by
  cases j with
  | null => exact ⟨fl, by simp [decodeValue]⟩
  | bool b => exact ⟨fl, by simp [decodeValue, typeMismatch]⟩
  | num l => exact ⟨l, by simp [decodeValue]⟩
  | str s =>
    by_cases h : isValidNumber s = true
    · exact ⟨s, by simp [decodeValue, h]⟩
    · exact ⟨fl, by simp [decodeValue, h]⟩
  | arr xs => exact ⟨fl, by simp [decodeValue, typeMismatch]⟩
  | obj ms => exact ⟨fl, by simp [decodeValue, typeMismatch]⟩

theorem findField_fold (fields : List FieldInfo) (k : Str) (f : FieldInfo)
    (h : findField fields k = some f) : foldName f.name = foldName k := by
  rcases (findField_mem fields k f h).2 with e | e
  · rw [e]
  · exact e

/-- One member decoded into the struct of `UnmarshalJSON`: it is stored in
the `FlowID` of type `json.Number` or in a field of the record. -/
theorem inStruct_step (k : Str) (j : JSON) (f : FieldInfo) (r : List GoVal) (fl : Str)
    (hf : findField (typeFields inStruct) k = some f) :
    (f.index = [1] ∧ f.typ = .number ∧ foldName k = foldName "flow_id".toList ∧
      setAt f.index (decodeValue f.typ j
          ((getAt f.index [.struct r, .num fl]).getD f.typ.zero)).val [.struct r, .num fl]
        = [.struct r, (decodeValue .number j (.num fl)).val]) ∨
    (∃ n kind, n ≠ 2 ∧ EveEvent.get? n = some (f.name, kind, f.typ) ∧ f.index = [0, n] ∧
      foldName k = foldName f.name ∧
      (getAt f.index [.struct r, .num fl]).getD f.typ.zero = (r.get? n).getD f.typ.zero ∧
      setAt f.index (decodeValue f.typ j
          ((getAt f.index [.struct r, .num fl]).getD f.typ.zero)).val [.struct r, .num fl]
        = [.struct (r.set n (decodeValue f.typ j ((r.get? n).getD f.typ.zero)).val),
            .num fl]) := by
  have hfold := findField_fold _ k f hf
  rcases inStruct_fields f (findField_mem _ k f hf).1 with ⟨h1, h2, h3⟩ | ⟨n, kind, h1, h2, h3⟩
  · refine Or.inl ⟨h1, h2, by rw [← hfold, h3], ?_⟩
    rw [h1, h2]
    simp [setAt, getAt]
  · refine Or.inr ⟨n, kind, h1, h2, h3, hfold.symm, ?_, ?_⟩
    · rw [h3]
      simp [getAt]
    · rw [h3]
      simp [setAt, getAt]


theorem UnmarshalJSON_ok (e e' : GoVal) (ms : List (Str × JSON)) (fl : Str)
    (h : decodeMembers (typeFields inStruct) ms [e, .num []] = ([e', .num fl], none, none)) :
    EveOutEvent.UnmarshalJSON e (.obj ms) = (setFlowID e' (ParseInt fl).1, none) := by
  unfold EveOutEvent.UnmarshalJSON Fever.Unmarshal
  simp only [decodeValue, h]
  rfl

theorem UnmarshalJSON_err (e : GoVal) (ms : List (Str × JSON)) (err : Error)
    (h : ((decodeMembers (typeFields inStruct) ms [e, .num []]).2.2 <|>
      (decodeMembers (typeFields inStruct) ms [e, .num []]).2.1) = some err) :
    EveOutEvent.UnmarshalJSON e (.obj ms) = (receiverOnFailure e (.obj ms), some err) := by
  unfold EveOutEvent.UnmarshalJSON Fever.Unmarshal
  simp only [decodeValue]
  rcases hd : decodeMembers (typeFields inStruct) ms [e, .num []] with ⟨vs, s, f⟩
  rw [hd] at h
  simp only at h
  simp only [h]

theorem UnmarshalJSON_noerr (e : GoVal) (ms : List (Str × JSON))
    (h : (EveOutEvent.UnmarshalJSON e (.obj ms)).2 = none) :
    (decodeMembers (typeFields inStruct) ms [e, .num []]).2 = (none, none) := by
  rcases hd : decodeMembers (typeFields inStruct) ms [e, .num []] with ⟨vs, s, f⟩
  cases f with
  | some err =>
    rw [UnmarshalJSON_err e ms err (by rw [hd]; rfl)] at h
    simp at h
  | none =>
    cases s with
    | some err =>
      rw [UnmarshalJSON_err e ms err (by rw [hd]; rfl)] at h
      simp at h
    | none => rfl

/-- Members none of which is named `flow_id`, up to case, are decoded into the
fields of the record and leave the `FlowID` of type `json.Number` alone. -/
theorem inStruct_inv (P : List GoVal → Prop) (fl : Str) (ms : List (Str × JSON))
    (hstep : ∀ m ∈ ms, ∀ f n kind, findField (typeFields inStruct) m.1 = some f →
      EveEvent.get? n = some (f.name, kind, f.typ) → n ≠ 2 → f.index = [0, n] →
      foldName m.1 = foldName f.name → ∀ r, P r →
      P (r.set n (decodeValue f.typ m.2 ((r.get? n).getD f.typ.zero)).val))
    (hno : ∀ m ∈ ms, foldName m.1 ≠ foldName "flow_id".toList) (r : List GoVal) (hr : P r) :
    ∃ r', (decodeMembers (typeFields inStruct) ms [.struct r, .num fl]).1
      = [.struct r', .num fl] ∧ P r' := by
  refine decodeMembers_inv (typeFields inStruct)
    (fun vs => ∃ r', vs = [.struct r', .num fl] ∧ P r') ms ?_ _ ⟨r, rfl, hr⟩
  rintro m hm f hf vs ⟨r', rfl, hr'⟩
  rcases inStruct_step m.1 m.2 f r' fl hf with ⟨_, _, h3, _⟩ | ⟨n, kind, h1, h2, h3, h4, h5, h6⟩
  · exact absurd h3 (hno m hm)
  · exact ⟨_, h6, hstep m hm f n kind hf h2 h1 h3 h4 r' hr'⟩

theorem set_FlowID (r : List GoVal) (n : Int) (h : 2 < r.length) :
    FlowID (setFlowID (.struct r) n) = n := by
  simp [FlowID, setFlowID, h]

theorem findField_none (fields : List FieldInfo) (k : Str)
    (h : ∀ f ∈ fields, foldName f.name ≠ foldName k) : findField fields k = none := by
  cases hf : findField fields k with
  | none => rfl
  | some f => exact absurd (findField_fold fields k f hf) (h f (findField_mem fields k f hf).1)

theorem decodeMembers_insert_skip (fields : List FieldInfo) (k : Str) (j : JSON)
    (b : List (Str × JSON)) (h : findField fields k = none) :
    ∀ (a : List (Str × JSON)) (vs : List GoVal),
    decodeMembers fields (a ++ (k, j) :: b) vs = decodeMembers fields (a ++ b) vs := by
  intro a
  induction a with
  | nil => intro vs; exact decodeMembers_skip fields k j b vs h
  | cons m a ih =>
    obtain ⟨k', j'⟩ := m
    intro vs
    rw [List.cons_append, List.cons_append]
    cases hf : findField fields k' with
    | none =>
      rw [decodeMembers_skip fields k' j' (a ++ (k, j) :: b) vs hf,
        decodeMembers_skip fields k' j' (a ++ b) vs hf]
      exact ih vs
    | some f =>
      cases hfat : (decodeValue f.typ j' ((getAt f.index vs).getD f.typ.zero)).fatal with
      | some e =>
        rw [decodeMembers_stop fields k' j' (a ++ (k, j) :: b) vs f e hf hfat,
          decodeMembers_stop fields k' j' (a ++ b) vs f e hf hfat]
      | none =>
        rw [decodeMembers_step fields k' j' (a ++ (k, j) :: b) vs f hf hfat,
          decodeMembers_step fields k' j' (a ++ b) vs f hf hfat, ih]

theorem typeFields_names (fs : List (Str × FieldKind × GoType)) (h : regularFields fs = true)
    (f : FieldInfo) (hf : f ∈ typeFields fs) : ∃ x ∈ fs, x.1 = f.name := by
  rw [typeFields_regular fs h] at hf
  obtain ⟨n, kind, h1, _⟩ := mem_flatInfos [] fs 0 f hf
  exact ⟨_, List.get?_mem h1, rfl⟩

theorem get?_set_other (l : List GoVal) (i j : Nat) (a : GoVal) (h : i ≠ j) :
    (l.set i a).get? j = l.get? j := by
  simp [List.get?_eq_getElem?, List.getElem?_set_ne h]

/-! ### The receiver when `UnmarshalJSON` fails -/

theorem shareStep_frame (index : List Nat) (j : JSON) (new : GoVal) (recv : List GoVal)
    (live : List Nat) :
    (shareStep index j new recv live).1.length = recv.length ∧
    (∀ n, n ∉ live → (shareStep index j new recv live).1.get? n = recv.get? n) ∧
    (∀ n, n ∈ (shareStep index j new recv live).2 → n ∈ live) := by
  unfold shareStep
  split
  · rename_i n
    by_cases hc : live.contains n = true
    · rw [if_pos hc]
      have hn : n ∈ live := by simpa using hc
      rcases hs : shareField j ((recv.get? n).getD new) new with ⟨r, b⟩
      cases b with
      | true =>
        simp only []
        refine ⟨by simp, fun m hm => ?_, fun m hm => hm⟩
        exact get?_set_other _ _ _ _ (fun e => hm (e ▸ hn))
      | false =>
        simp only []
        refine ⟨by simp, fun m hm => ?_, fun m hm => List.mem_of_mem_erase hm⟩
        exact get?_set_other _ _ _ _ (fun e => hm (e ▸ hn))
    · rw [if_neg hc]
      exact ⟨rfl, fun _ _ => rfl, fun _ h => h⟩
  · exact ⟨rfl, fun _ _ => rfl, fun _ h => h⟩

/-- While `json.Unmarshal` decodes into the copy, the fields of `*e` that
share nothing with the copy keep their values. -/
theorem receiverAfter_frame (fields : List FieldInfo) :
    ∀ (ms : List (Str × JSON)) (x recv : List GoVal) (live : List Nat),
    (receiverAfter fields ms x recv live).length = recv.length ∧
    ∀ n, n ∉ live → (receiverAfter fields ms x recv live).get? n = recv.get? n := by
  intro ms
  induction ms with
  | nil => intro x recv live; rw [receiverAfter]; exact ⟨rfl, fun _ _ => rfl⟩
  | cons m ms ih =>
    obtain ⟨k, j⟩ := m
    intro x recv live
    rw [receiverAfter]
    cases hf : findField fields k with
    | none => exact ih x recv live
    | some f =>
      simp only []
      have hs := shareStep_frame f.index j
        (decodeValue f.typ j ((getAt f.index x).getD f.typ.zero)).val recv live
      cases hfat : (decodeValue f.typ j ((getAt f.index x).getD f.typ.zero)).fatal with
      | some err =>
        simp only []
        exact ⟨hs.1, hs.2.1⟩
      | none =>
        simp only []
        have := ih (setAt f.index (decodeValue f.typ j ((getAt f.index x).getD f.typ.zero)).val x)
          (shareStep f.index j (decodeValue f.typ j ((getAt f.index x).getD f.typ.zero)).val
            recv live).1
          (shareStep f.index j (decodeValue f.typ j ((getAt f.index x).getD f.typ.zero)).val
            recv live).2
        refine ⟨this.1.trans hs.1, fun n hn => ?_⟩
        rw [this.2 n (fun h => hn (hs.2.2 n h)), hs.2.1 n hn]

theorem liveFields_not_mem (vs : List GoVal) (n : Nat) (v : GoVal) (h : vs.get? n = some v)
    (hv : v.shared = false) : n ∉ liveFields vs := by
  unfold liveFields
  rw [List.mem_filter]
  rintro ⟨_, hs⟩
  rw [h] at hs
  simp only [Option.getD_some] at hs
  rw [hv] at hs
  exact absurd hs (by simp)

theorem UnmarshalJSON_error (e : GoVal) (d : JSON) :
    (EveOutEvent.UnmarshalJSON e d).2
      = (Fever.Unmarshal (.struct inStruct) d (.struct [e, .num []])).2 := by
  unfold EveOutEvent.UnmarshalJSON
  split
  · rename_i h; rw [h]
  · rename_i h; rw [h]
  · rename_i h; rw [h]

theorem UnmarshalJSON_failed (e : GoVal) (d : JSON)
    (h : (EveOutEvent.UnmarshalJSON e d).2 ≠ none) :
    (EveOutEvent.UnmarshalJSON e d).1 = receiverOnFailure e d := by
  unfold EveOutEvent.UnmarshalJSON at h ⊢
  split
  · rfl
  · rename_i h'; rw [h'] at h; simp at h
  · rename_i h'; rw [h'] at h; simp at h


/-- When `UnmarshalJSON` fails, the fields of the receiver that are not
non-nil pointers or slices keep their values. -/
theorem UnmarshalJSON_failed_frame (vs : List GoVal) (d : JSON)
    (h : (EveOutEvent.UnmarshalJSON (.struct vs) d).2 ≠ none) :
    ∃ vs', (EveOutEvent.UnmarshalJSON (.struct vs) d).1 = .struct vs' ∧
      vs'.length = vs.length ∧
      ∀ n v, vs.get? n = some v → v.shared = false → vs'.get? n = some v := by
  rw [UnmarshalJSON_failed _ d h]
  cases d with
  | obj ms =>
    have hfr := receiverAfter_frame (typeFields inStruct) ms [.struct vs, .num []] vs
      (liveFields vs)
    refine ⟨_, rfl, hfr.1, fun n v hn hv => ?_⟩
    rw [hfr.2 n (liveFields_not_mem vs n v hn hv), hn]
  | _ => exact ⟨vs, rfl, rfl, fun n v hn _ => hn⟩

theorem UnmarshalJSON_failed_FlowID (e : GoVal) (d : JSON)
    (he : (GoType.struct EveEvent).has e = true)
    (h : (EveOutEvent.UnmarshalJSON e d).2 ≠ none) :
    FlowID (EveOutEvent.UnmarshalJSON e d).1 = FlowID e := by
  obtain ⟨vs, rfl, hvs⟩ := has_struct EveEvent e he
  obtain ⟨vs', h1, _, h3⟩ := UnmarshalJSON_failed_frame vs d h
  have hf := (flow_field vs hvs).1
  rw [h1]
  have := h3 2 _ hf rfl
  generalize FlowID (.struct vs) = F at hf this ⊢
  simp only [FlowID, this]

/-! ### The decoder: types -/

mutual
/-- Induction over the types. -/
theorem GoType_ind (P : GoType → Prop) (h1 : P .int) (h2 : P .string) (h3 : P .bool)
    (h4 : P .strings) (h5 : P .number) (h6 : P .suriTimePtr)
    (h7 : ∀ fs : List (Str × FieldKind × GoType), (∀ x ∈ fs, P x.2.2) → P (.struct fs))
    (h8 : ∀ fs : List (Str × FieldKind × GoType), (∀ x ∈ fs, P x.2.2) → P (.ptr fs)) :
    ∀ t, P t
  | .int => h1
  | .string => h2
  | .bool => h3
  | .strings => h4
  | .number => h5
  | .suriTimePtr => h6
  | .struct fs => h7 fs (GoType_ind_fields P h1 h2 h3 h4 h5 h6 h7 h8 fs)
  | .ptr fs => h8 fs (GoType_ind_fields P h1 h2 h3 h4 h5 h6 h7 h8 fs)
/-- Induction over the types: the fields of a struct. -/
theorem GoType_ind_fields (P : GoType → Prop) (h1 : P .int) (h2 : P .string) (h3 : P .bool)
    (h4 : P .strings) (h5 : P .number) (h6 : P .suriTimePtr)
    (h7 : ∀ fs : List (Str × FieldKind × GoType), (∀ x ∈ fs, P x.2.2) → P (.struct fs))
    (h8 : ∀ fs : List (Str × FieldKind × GoType), (∀ x ∈ fs, P x.2.2) → P (.ptr fs)) :
    ∀ fs : List (Str × FieldKind × GoType), ∀ x ∈ fs, P x.2.2
  | [], _, h => by simp at h
  | (name, kind, t) :: fs, x, h => by
    rcases List.mem_cons.1 h with e | h
    · rw [e]; exact GoType_ind P h1 h2 h3 h4 h5 h6 h7 h8 t
    · exact GoType_ind_fields P h1 h2 h3 h4 h5 h6 h7 h8 fs x h
end

theorem hasFields_zero (fs : List (Str × FieldKind × GoType))
    (h : ∀ x ∈ fs, x.2.2.has x.2.2.zero = true) : hasFields fs (zeroFields fs) = true := by
  induction fs with
  | nil => simp [zeroFields, hasFields]
  | cons x fs ih =>
    obtain ⟨name, kind, t⟩ := x
    rw [zeroFields, hasFields, Bool.and_eq_true]
    exact ⟨h _ (List.mem_cons_self _ _), ih (fun x hx => h x (List.mem_cons_of_mem _ hx))⟩

/-- The zero value of a type is a value of the type. -/
theorem zero_has : ∀ t : GoType, t.has t.zero = true := by
  intro t
  induction t using GoType_ind with
  | h1 => simp [GoType.zero, GoType.has]
  | h2 => simp [GoType.zero, GoType.has]
  | h3 => simp [GoType.zero, GoType.has]
  | h4 => simp [GoType.zero, GoType.has]
  | h5 => simp [GoType.zero, GoType.has]
  | h6 => simp [GoType.zero, GoType.has]
  | h7 fs ih =>
    rw [GoType.zero, GoType.has]
    exact hasFields_zero fs ih
  | h8 fs ih => simp [GoType.zero, GoType.has]

theorem ParseInt_range (s : Str) (n : Int) (h : ParseInt s = (n, none)) :
    -9223372036854775808 ≤ n ∧ n ≤ 9223372036854775807 := by
  cases s with
  | nil => simp [ParseInt] at h
  | cons c rest =>
    simp only [ParseInt] at h
    cases hu : ParseUint (if c = '+' ∨ c = '-' then rest else c :: rest) with
    | none => rw [hu] at h; simp at h
    | some p =>
      obtain ⟨un, b⟩ := p
      rw [hu] at h
      simp only at h
      by_cases hc : c = '-'
      · simp only [hc, not_true_eq_false, false_and, if_false, true_and, if_true] at h
        split at h
        · simp at h
        · simp only [Prod.mk.injEq, and_true] at h
          omega
      · simp only [hc, not_false_eq_true, true_and, false_and, if_false] at h
        split at h
        · simp at h
        · simp only [Prod.mk.injEq, and_true] at h
          omega

theorem hasFields_set (fs : List (Str × FieldKind × GoType)) :
    ∀ (vs : List GoVal) (n : Nat) (x : Str × FieldKind × GoType) (v : GoVal),
    hasFields fs vs = true → fs.get? n = some x → x.2.2.has v = true →
    hasFields fs (vs.set n v) = true := by
  induction fs with
  | nil => intro vs n x v _ hx; simp at hx
  | cons f fs ih =>
    obtain ⟨name, kind, t⟩ := f
    intro vs n x v h hx hv
    cases vs with
    | nil => simp [hasFields] at h
    | cons v0 vs =>
      rw [hasFields, Bool.and_eq_true] at h
      cases n with
      | zero =>
        simp only [List.get?_cons_zero, Option.some.injEq] at hx
        subst hx
        rw [List.set_cons_zero, hasFields, Bool.and_eq_true]
        exact ⟨hv, h.2⟩
      | succ n =>
        simp only [List.get?_cons_succ] at hx
        rw [List.set_cons_succ, hasFields, Bool.and_eq_true]
        exact ⟨h.1, ih vs n x v h.2 hx hv⟩

theorem decodeSuriTime_val (j : JSON) (v : GoVal) :
    ∃ t, (decodeSuriTime j v).val = .time (some t) := by
  unfold decodeSuriTime
  exact ⟨_, rfl⟩

theorem typeMismatch_has (t : GoType) (v : GoVal) (h : t.has v = true) :
    t.has (typeMismatch t v).val = true := by
  unfold typeMismatch
  split
  · rename_i fs
    have := zero_has (.struct fs)
    rw [GoType.zero] at this
    simpa [GoType.has] using this
  · exact h


theorem decodeMembers_has (fs : List (Str × FieldKind × GoType)) (hreg : regularFields fs = true)
    (ms : List (Str × JSON))
    (ih : ∀ m ∈ ms, ∀ (t : GoType) (cur : GoVal), t.regular = true → t.has cur = true →
      t.has (decodeValue t m.2 cur).val = true)
    (vs : List GoVal) (h : hasFields fs vs = true) :
    hasFields fs (decodeMembers (typeFields fs) ms vs).1 = true := by
  refine decodeMembers_inv (typeFields fs) (fun vs => hasFields fs vs = true) ms ?_ vs h
  intro m hm f hf vs hvs
  obtain ⟨n, kind, hn, hi⟩ := findField_regular_some fs hreg m.1 f hf
  have hcur : (getAt f.index vs).getD f.typ.zero = (vs.get? n).getD f.typ.zero := by
    rw [hi]; simp [getAt]
  have hset : ∀ new, setAt f.index new vs = vs.set n new := by
    intro new; rw [hi]; simp [setAt]
  rw [hcur, hset]
  refine hasFields_set fs vs n _ _ hvs hn ?_
  refine ih m hm f.typ _ (regularFields_typ fs hreg _ (List.get?_mem hn)) ?_
  cases hv : vs.get? n with
  | none => exact zero_has f.typ
  | some v => exact hasFields_get fs vs hvs n _ v hn hv

/-- The decoder stores values of the type it decodes into. -/
theorem decodeValue_has : ∀ (j : JSON) (t : GoType) (cur : GoVal), t.regular = true →
    t.has cur = true → t.has (decodeValue t j cur).val = true := by
  intro j
  induction j using JSON_ind with
  | h0 =>
    intro t cur hreg h
    cases t <;> simp [decodeValue, GoType.has] <;> exact h
  | hb b =>
    intro t cur hreg h
    cases t <;> simp only [decodeValue] <;>
      first
      | exact typeMismatch_has _ _ h
      | (obtain ⟨x, hx⟩ := decodeSuriTime_val (.bool b) cur; rw [hx]; rfl)
      | rfl
  | hn l =>
    intro t cur hreg h
    cases t <;> simp only [decodeValue] <;>
      first
      | exact typeMismatch_has _ _ h
      | (obtain ⟨x, hx⟩ := decodeSuriTime_val (.num l) cur; rw [hx]; rfl)
      | rfl
      | skip
    rcases hp : ParseInt l with ⟨n, _ | e⟩
    · have := ParseInt_range l n hp
      simp [GoType.has, this.1, this.2]
    · exact h
  | hs s =>
    intro t cur hreg h
    cases t <;> simp only [decodeValue] <;>
      first
      | exact typeMismatch_has _ _ h
      | (obtain ⟨x, hx⟩ := decodeSuriTime_val (.str s) cur; rw [hx]; rfl)
      | rfl
      | skip
    simp [GoType.regular] at hreg
  | ha xs ih =>
    intro t cur hreg h
    cases t <;> simp only [decodeValue] <;>
      first
      | exact typeMismatch_has _ _ h
      | (obtain ⟨x, hx⟩ := decodeSuriTime_val (.arr xs) cur; rw [hx]; rfl)
      | rfl
  | ho ms ih =>
    intro t cur hreg h
    cases t <;> simp only [decodeValue] <;>
      first
      | exact typeMismatch_has _ _ h
      | (obtain ⟨x, hx⟩ := decodeSuriTime_val (.obj ms) cur; rw [hx]; rfl)
      | skip
    · rename_i fs
      obtain ⟨vs, rfl, hvs⟩ := has_struct fs cur h
      simp only [GoType.has]
      exact decodeMembers_has fs (by simpa [GoType.regular] using hreg) ms ih vs hvs
    · rename_i fs
      have hreg' : regularFields fs = true := by simpa [GoType.regular] using hreg
      simp only [GoType.has]
      cases cur with
      | ptr v =>
        cases v with
        | struct vs =>
          exact decodeMembers_has fs hreg' ms ih vs (by simpa [GoType.has] using h)
        | _ => simp [GoType.has] at h
      | nilPtr =>
        have hz := zero_has (.struct fs)
        rw [GoType.zero, GoType.has] at hz
        exact decodeMembers_has fs hreg' ms ih _ hz
      | _ => simp [GoType.has] at h

theorem Unmarshal_val (t : GoType) (d : JSON) (x : GoVal) :
    (Fever.Unmarshal t d x).1 = (decodeValue t d x).val := by
  unfold Fever.Unmarshal
  rfl

/-- The record decoded into an event record is an event record. -/
theorem event_decode_has (J : JSON) (e0 : GoVal) (h : (GoType.struct EveEvent).has e0 = true) :
    (GoType.struct EveEvent).has (EveEvent.Unmarshal J e0).1 = true := by
  unfold EveEvent.Unmarshal
  rw [Unmarshal_val]
  exact decodeValue_has J _ e0 (by simpa [GoType.regular] using EveEvent_regular) h

theorem typeFields_contains (fs : List (Str × FieldKind × GoType))
    (h : regularFields fs = true) (n : Nat) (x : Str × FieldKind × GoType)
    (hn : fs.get? n = some x) :
    ((typeFields fs).map (fun f => f.index)).contains ([] ++ [n]) = true := by
  obtain ⟨name, kind, t⟩ := x
  obtain ⟨f, hf, _, _, h3⟩ := flatInfos_mem [] fs 0 n name kind t hn
  rw [typeFields_regular fs h, List.contains_iff_exists_mem_beq]
  refine ⟨f.index, List.mem_map.2 ⟨f, hf, rfl⟩, ?_⟩
  rw [h3]
  simp

theorem flatten_escape (s : Str) (h : ∀ c ∈ s, escapeChar c = [c]) :
    (s.map escapeChar).flatten = s := by
  induction s with
  | nil => rfl
  | cons c s ih =>
    rw [List.map_cons, List.flatten_cons, h c (List.mem_cons_self _ _),
      ih (fun c hc => h c (List.mem_cons_of_mem _ hc))]
    rfl

theorem text_Format (t : Time) : (JSON.str t.Format).text = (suriTime.MarshalJSON t).1 := by
  rw [JSON.text, flatten_escape _ (fun c hc => (stampChar_plain c (Format_mem t c hc)).2.2.2.2)]
  rfl

theorem decodeElems_strs : ∀ (xs old : List Str),
    decodeElems (xs.map JSON.str) old = (xs, none) := by
  intro xs
  induction xs with
  | nil => intro old; rw [List.map_nil, decodeElems]
  | cons x xs ih =>
    intro old
    rw [List.map_cons, decodeElems]
    simp only [decodeValue, ih, GoVal.strOf]
    rfl

theorem findField_regular_exists (fs : List (Str × FieldKind × GoType))
    (h : regularFields fs = true) (n : Nat) (name : Str) (kind : FieldKind) (t : GoType)
    (hn : fs.get? n = some (name, kind, t)) :
    ∃ f, findField (typeFields fs) name = some f ∧ f.typ = t ∧ f.index = [n] := by
  cases hf : findField (typeFields fs) name with
  | some f => exact ⟨f, rfl, findField_regular fs h n name kind t hn f hf⟩
  | none =>
    obtain ⟨g, hg, g1, _, _⟩ := flatInfos_mem [] fs 0 n name kind t hn
    unfold findField at hf
    cases h1 : (typeFields fs).find? (fun f => f.name == name) with
    | some x => rw [h1] at hf; simp at hf
    | none =>
      rw [typeFields_regular fs h] at h1
      have := List.find?_eq_none.1 h1 g hg
      simp [g1] at this

theorem get?_append_length {α : Type} (pre post : List α) (a : α) :
    (pre ++ a :: post).get? pre.length = some a := by
  induction pre with
  | nil => rfl
  | cons p pre ih => simpa using ih

theorem set_append_length {α : Type} (pre post : List α) (a b : α) :
    (pre ++ a :: post).set pre.length b = pre ++ b :: post := by
  simp [List.set_append]

theorem empty_zero (t : GoType) (v : GoVal) (h : t.has v = true) (he : isEmptyValue v = true)
    (hl : v.emptyList = false) : t.zero = v := by
  cases v with
  | int n =>
    cases t <;> simp [GoType.has] at h
    simp only [isEmptyValue, beq_iff_eq] at he
    rw [he]; rfl
  | str s =>
    cases t <;> simp [GoType.has] at h
    simp only [isEmptyValue, List.isEmpty_iff] at he
    rw [he]; rfl
  | bool b =>
    cases t <;> simp [GoType.has] at h
    simp only [isEmptyValue, Bool.not_eq_true'] at he
    rw [he]; rfl
  | strs xs =>
    cases t <;> simp [GoType.has] at h
    cases xs with
    | none => rfl
    | some ys =>
      simp only [isEmptyValue, List.isEmpty_iff] at he
      rw [he] at hl
      simp [GoVal.emptyList] at hl
  | num s =>
    cases t <;> simp [GoType.has] at h
    simp only [isEmptyValue, List.isEmpty_iff] at he
    rw [he]; rfl
  | time o =>
    cases t <;> simp [GoType.has] at h
    cases o with
    | none => rfl
    | some x => simp [isEmptyValue] at he
  | struct vs => simp [isEmptyValue] at he
  | nilPtr =>
    cases t <;> simp [GoType.has] at h
    rfl
  | ptr v => simp [isEmptyValue] at he


/-- The members written for the fields `fs` that follow the fields `done` of
a struct are decoded into those fields of a struct that is still zero in
them. -/
theorem roundtrip_fields (all : List (Str × FieldKind × GoType))
    (hreg : regularFields all = true) :
    ∀ (fs done : List (Str × FieldKind × GoType)) (pre vs : List GoVal)
      (ms : List (Str × JSON)),
    all = done ++ fs → pre.length = done.length →
    (∀ x ∈ fs, ∀ v j, x.2.2.has v = true → v.timesOK = true → marshalVal x.2.2 v = .ok j →
      decodeValue x.2.2 j x.2.2.zero = { val := x.2.2.norm v, saved := none, fatal := none }) →
    hasFields fs vs = true → timesOKList vs = true →
    marshalFields ((typeFields all).map (fun f => f.index)) [] done.length fs vs = .ok ms →
    decodeMembers (typeFields all) ms (pre ++ zeroFields fs)
      = (pre ++ normFields fs vs, none, none) := by
  intro fs
  induction fs with
  | nil =>
    intro done pre vs ms _ _ _ _ _ hm
    rw [marshalFields] at hm
    simp only [Except.ok.injEq] at hm
    subst hm
    cases vs <;> simp [decodeMembers_nil, zeroFields, normFields]
  | cons x fs ih =>
    obtain ⟨name, kind, t⟩ := x
    intro done pre vs ms hall hpre hih hhas htime hm
    cases vs with
    | nil => simp [hasFields] at hhas
    | cons v vs =>
      rw [hasFields, Bool.and_eq_true] at hhas
      rw [timesOKList, Bool.and_eq_true] at htime
      have hget : all.get? done.length = some (name, kind, t) := by
        rw [hall]
        exact get?_append_length done fs (name, kind, t)
      have hregx := (regularFields_flat all hreg) (name, kind, t) (List.get?_mem hget)
      have hc := typeFields_contains all hreg done.length _ hget
      obtain ⟨rest, hrest, hcase⟩ := marshalFields_inv _ [] done.length name kind t fs v vs ms
        hregx hm
      have hall' : all = (done ++ [(name, kind, t)]) ++ fs := by
        rw [hall, List.append_assoc]; rfl
      have hlen : (done ++ [(name, kind, t)]).length = done.length + 1 := by simp
      have ih' := fun (w : GoVal) => ih (done ++ [(name, kind, t)]) (pre ++ [w]) vs rest hall'
        (by simp [hpre]) (fun x hx => hih x (List.mem_cons_of_mem _ hx)) hhas.2 htime.2
        (by rw [hlen]; exact hrest)
      rw [zeroFields, normFields]
      rcases hcase with ⟨hp, j, hj, hms⟩ | ⟨hp, hms⟩
      · subst hms
        obtain ⟨f, hf, hft, hfi⟩ := findField_regular_exists all hreg done.length name kind t hget
        have hcur : (getAt f.index (pre ++ t.zero :: zeroFields fs)).getD f.typ.zero = t.zero := by
          rw [hfi, ← hpre]
          simp only [getAt, get?_append_length, Option.getD_some]
        have hdec := hih (name, kind, t) (List.mem_cons_self _ _) v j hhas.1 htime.1 hj
        simp only at hdec
        have hset : setAt f.index (t.norm v) (pre ++ t.zero :: zeroFields fs)
            = (pre ++ [t.norm v]) ++ zeroFields fs := by
          rw [hfi, ← hpre]
          simp only [setAt, set_append_length, List.append_assoc, List.singleton_append]
        rw [decodeMembers_step _ _ _ _ _ f hf (by rw [hcur, hft, hdec])]
        rw [hcur, hft, hdec]
        simp only [hset, ih' (t.norm v)]
        have hcond : (kind == FieldKind.omitempty && isEmptyValue v) = false := by
          rcases hp.2 with hk | hk
          · subst hk; rfl
          · simp [hk]
        rw [hcond]
        simp
      · subst hms
        have hk : kind = .omitempty ∧ isEmptyValue v = true := by
          have hnp : ¬ (kind = .plain ∨ isEmptyValue v = false) :=
            fun q => hp ⟨by simpa using hc, q⟩
          cases kind with
          | embedded => exact absurd rfl hregx
          | plain => exact absurd (Or.inl rfl) hnp
          | omitempty =>
            refine ⟨rfl, ?_⟩
            cases hv : isEmptyValue v with
            | true => rfl
            | false => exact absurd (Or.inr hv) hnp
        have hcond : (kind == FieldKind.omitempty && isEmptyValue v) = true := by
          rw [hk.1, hk.2]; rfl
        rw [hcond]
        have := ih' t.zero
        simp only [List.append_assoc, List.singleton_append] at this
        simp only [if_true]
        exact this


theorem struct_roundtrip (fs : List (Str × FieldKind × GoType)) (hreg : regularFields fs = true)
    (ih : ∀ x ∈ fs, x.2.2.regular = true → ∀ v j, x.2.2.has v = true → v.timesOK = true →
      marshalVal x.2.2 v = .ok j →
      decodeValue x.2.2 j x.2.2.zero = { val := x.2.2.norm v, saved := none, fatal := none })
    (vs : List GoVal) (ms : List (Str × JSON)) (hhas : hasFields fs vs = true)
    (ht : timesOKList vs = true)
    (hm : marshalFields ((typeFields fs).map (fun f => f.index)) [] 0 fs vs = .ok ms) :
    decodeMembers (typeFields fs) ms (zeroFields fs) = (normFields fs vs, none, none) :=
  roundtrip_fields fs hreg fs [] [] vs ms rfl rfl
    (fun x hx => ih x hx (regularFields_typ fs hreg x hx)) hhas ht hm

/-- Decoding the encoding of a value into the zero value: no error, and the
value read back is `norm`. -/
theorem decodeValue_roundtrip : ∀ (t : GoType), t.regular = true → ∀ (v : GoVal) (j : JSON),
    t.has v = true → v.timesOK = true → marshalVal t v = .ok j →
    decodeValue t j t.zero = { val := t.norm v, saved := none, fatal := none } := by
  intro t
  induction t using GoType_ind with
  | h1 =>
    intro _ v j h _ hm
    obtain ⟨n, rfl, hn⟩ := has_int v h
    rw [marshalVal] at hm
    simp only [Except.ok.injEq] at hm
    subst hm
    simp [decodeValue, ParseInt_FormatInt n hn.1 hn.2, GoType.norm]
  | h2 =>
    intro _ v j h _ hm
    cases v <;> simp [GoType.has] at h
    rw [marshalVal] at hm
    simp only [Except.ok.injEq] at hm
    subst hm
    simp [decodeValue, GoType.norm]
  | h3 =>
    intro _ v j h _ hm
    cases v <;> simp [GoType.has] at h
    rw [marshalVal] at hm
    simp only [Except.ok.injEq] at hm
    subst hm
    simp [decodeValue, GoType.norm]
  | h4 =>
    intro _ v j h _ hm
    cases v with
    | strs xs =>
      cases xs with
      | none =>
        rw [marshalVal] at hm
        simp only [Except.ok.injEq] at hm
        subst hm
        simp [decodeValue, GoType.norm]
      | some ys =>
        rw [marshalVal] at hm
        simp only [Except.ok.injEq] at hm
        subst hm
        simp [decodeValue, GoType.norm, decodeElems_strs]
    | _ => simp [GoType.has] at h
  | h5 => intro hr; simp [GoType.regular] at hr
  | h6 =>
    intro _ v j h ht hm
    cases v with
    | time o =>
      cases o with
      | none =>
        rw [marshalVal] at hm
        simp only [Except.ok.injEq] at hm
        subst hm
        simp [decodeValue, GoType.norm]
      | some x =>
        rw [marshalVal] at hm
        have hmm : suriTime.MarshalJSON x = ((suriTime.MarshalJSON x).1, none) := rfl
        rw [hmm] at hm
        simp only [jsonOfRaw_Format, Except.ok.injEq] at hm
        subst hm
        have henc : x.encodable := by simpa [GoVal.timesOK] using ht
        simp only [decodeValue, decodeSuriTime, GoType.zero, text_Format,
          suriTime_roundtrip x zeroTime henc, GoType.norm]
    | _ => simp [GoType.has] at h
  | h7 fs ih =>
    intro hr v j h ht hm
    have hreg : regularFields fs = true := by simpa [GoType.regular] using hr
    obtain ⟨vs, rfl, hvs⟩ := has_struct fs v h
    rw [marshalVal] at hm
    cases hms : marshalFields ((typeFields fs).map (fun f => f.index)) [] 0 fs vs with
    | error e => rw [hms] at hm; simp at hm
    | ok ms =>
      rw [hms] at hm
      simp only [Except.ok.injEq] at hm
      subst hm
      have := struct_roundtrip fs hreg ih vs ms hvs (by simpa [GoVal.timesOK] using ht) hms
      simp only [decodeValue, GoType.zero, this, GoType.norm]
  | h8 fs ih =>
    intro hr v j h ht hm
    have hreg : regularFields fs = true := by simpa [GoType.regular] using hr
    cases v with
    | nilPtr =>
      rw [marshalVal] at hm
      simp only [Except.ok.injEq] at hm
      subst hm
      simp [decodeValue, GoType.norm]
    | ptr w =>
      cases w with
      | struct vs =>
        have hvs : hasFields fs vs = true := by simpa [GoType.has] using h
        rw [marshalVal] at hm
        cases hms : marshalFields ((typeFields fs).map (fun f => f.index)) [] 0 fs vs with
        | error e => rw [hms] at hm; simp at hm
        | ok ms =>
          rw [hms] at hm
          simp only [Except.ok.injEq] at hm
          subst hm
          have := struct_roundtrip fs hreg ih vs ms hvs (by simpa [GoVal.timesOK] using ht) hms
          simp only [decodeValue, GoType.zero, this, GoType.norm]
      | _ => simp [GoType.has] at h
    | _ => simp [GoType.has] at h

/-! ### Decoding the encoding of an event record -/

theorem zeroEvent_has : (GoType.struct EveEvent).has zeroEvent = true := by decide

/-- The record decoded from the encoding of an event record whose timestamps
`Parse` reads back. -/
theorem event_recode (e : GoVal) (h : (GoType.struct EveEvent).has e = true)
    (ht : e.timesOK = true) :
    EveEvent.recode e = ((GoType.struct EveEvent).norm e, none) := by
  have hreg : (GoType.struct EveEvent).regular = true := by
    simpa [GoType.regular] using EveEvent_regular
  obtain ⟨j, hj⟩ := marshalVal_ok (.struct EveEvent) e hreg h
  have := decodeValue_roundtrip (.struct EveEvent) hreg e j h ht hj
  unfold EveEvent.recode EveEvent.Marshal EveEvent.Unmarshal Fever.Unmarshal zeroEvent
  simp only [hj, this]
  rfl

theorem normFields_stable (fs : List (Str × FieldKind × GoType))
    (ih : ∀ x ∈ fs, ∀ v, x.2.2.has v = true → x.2.2.stable v = true → x.2.2.norm v = v) :
    ∀ vs, hasFields fs vs = true → stableFields fs vs = true → normFields fs vs = vs := by
  induction fs with
  | nil =>
    intro vs h _
    cases vs with
    | nil => simp [normFields]
    | cons v vs => simp [hasFields] at h
  | cons x fs ihf =>
    obtain ⟨name, kind, t⟩ := x
    intro vs h hs
    cases vs with
    | nil => simp [hasFields] at h
    | cons v vs =>
      rw [hasFields, Bool.and_eq_true] at h
      rw [stableFields] at hs
      simp only [Bool.and_eq_true, Bool.not_eq_true', Bool.and_eq_false_iff] at hs
      rw [normFields, ihf (fun x hx => ih x (List.mem_cons_of_mem _ hx)) vs h.2 hs.2]
      congr 1
      by_cases hc : (kind == FieldKind.omitempty && isEmptyValue v) = true
      · rw [if_pos hc]
        simp only [Bool.and_eq_true] at hc
        rcases hs.1.1 with hk | hk
        · rw [hk] at hc; simp at hc
        · exact empty_zero t v h.1 hc.2 hk
      · rw [if_neg hc]
        exact ih _ (List.mem_cons_self _ _) v h.1 hs.1.2

/-- A stable value is read back unchanged. -/
theorem norm_stable : ∀ (t : GoType) (v : GoVal), t.has v = true → t.stable v = true →
    t.norm v = v := by
  intro t
  induction t using GoType_ind with
  | h1 => intro v _ _; cases v <;> rfl
  | h2 => intro v _ _; cases v <;> rfl
  | h3 => intro v _ _; cases v <;> rfl
  | h4 => intro v _ _; cases v <;> rfl
  | h5 => intro v _ _; cases v <;> rfl
  | h6 =>
    intro v h hs
    cases v with
    | time o =>
      cases o with
      | none => rfl
      | some x =>
        have : x.reread = x := by simpa [GoType.stable] using hs
        rw [GoType.norm, this]
    | _ => simp [GoType.has] at h
  | h7 fs ih =>
    intro v h hs
    obtain ⟨vs, rfl, hvs⟩ := has_struct fs v h
    rw [GoType.norm, normFields_stable fs ih vs hvs (by simpa [GoType.stable] using hs)]
  | h8 fs ih =>
    intro v h hs
    cases v with
    | nilPtr => rfl
    | ptr w =>
      cases w with
      | struct vs =>
        rw [GoType.norm, normFields_stable fs ih vs (by simpa [GoType.has] using h)
          (by simpa [GoType.stable] using hs)]
      | _ => simp [GoType.has] at h
    | _ => simp [GoType.has] at h

theorem normFields_get (fs : List (Str × FieldKind × GoType)) :
    ∀ (vs : List GoVal) (n : Nat) (name : Str) (kind : FieldKind) (t : GoType) (v : GoVal),
    fs.get? n = some (name, kind, t) → vs.get? n = some v →
    (normFields fs vs).get? n =
      some (if kind == .omitempty && isEmptyValue v then t.zero else t.norm v) := by
  induction fs with
  | nil => intro vs n name kind t v h; simp at h
  | cons x fs ih =>
    obtain ⟨name0, kind0, t0⟩ := x
    intro vs n name kind t v hf hv
    cases vs with
    | nil => simp at hv
    | cons v0 vs =>
      rw [normFields]
      cases n with
      | zero =>
        simp only [List.get?_cons_zero, Option.some.injEq, Prod.mk.injEq] at hf hv
        obtain ⟨_, e2, e3⟩ := hf
        subst e2 e3 hv
        rfl
      | succ n =>
        simp only [List.get?_cons_succ] at hf hv ⊢
        exact ih vs n name kind t v hf hv

/-- The `Flow.Start` read back from the encoding of an event record. -/
theorem flowStart_norm (vs : List GoVal) (h : hasFields EveEvent vs = true) :
    flowStart ((GoType.struct EveEvent).norm (.struct vs))
      = (flowStart (.struct vs)).map Time.reread := by
  have hl := hasFields_length EveEvent vs h
  have l25 : 25 < vs.length := by rw [hl]; decide
  have g25 : vs.get? 25 = some (vs.get ⟨25, l25⟩) := List.get?_eq_get l25
  have f25 : EveEvent.get? 25 = some ("flow".toList, .omitempty, .ptr flowEvent) := rfl
  have t25 := hasFields_get EveEvent vs h 25 _ _ f25 g25
  have n25 := normFields_get EveEvent vs 25 _ _ _ _ f25 g25
  generalize vs.get ⟨25, l25⟩ = v at *
  rw [GoType.norm]
  simp only [flowStart, n25, g25]
  cases v with
  | nilPtr => rfl
  | ptr w =>
    cases w with
    | struct fvs =>
      have hf : hasFields flowEvent fvs = true := by simpa [GoType.has] using t25
      have hlf := hasFields_length flowEvent fvs hf
      have l4 : 4 < fvs.length := by rw [hlf]; decide
      have g4 : fvs.get? 4 = some (fvs.get ⟨4, l4⟩) := List.get?_eq_get l4
      have f4 : flowEvent.get? 4 = some ("start".toList, .plain, .suriTimePtr) := rfl
      have t4 := hasFields_get flowEvent fvs hf 4 _ _ f4 g4
      have n4 := normFields_get flowEvent fvs 4 _ _ _ _ f4 g4
      generalize fvs.get ⟨4, l4⟩ = u at *
      have hne : isEmptyValue (GoVal.ptr (GoVal.struct fvs)) = false := rfl
      have hnorm : (GoType.ptr flowEvent).norm (GoVal.ptr (GoVal.struct fvs))
          = GoVal.ptr (GoVal.struct (normFields flowEvent fvs)) := by rw [GoType.norm]
      rw [hne, hnorm]
      simp only [Bool.and_false, Bool.false_eq_true, if_false, n4, g4]
      cases u with
      | time o =>
        cases o with
        | none => rfl
        | some x => rfl
      | _ => simp [GoType.has] at t4
    | _ => simp [GoType.has] at t25
  | _ => simp [GoType.has] at t25

theorem countersFields_cons (name : Str) (kind : FieldKind) (t : GoType)
    (fs : List (Str × FieldKind × GoType)) :
    countersFields ((name, kind, t) :: fs) = true ↔
      kind = .plain ∧ t.counters = true ∧ countersFields fs = true := by
  rw [countersFields]
  simp only [Bool.and_eq_true, beq_iff_eq, and_assoc]

theorem normFields_counters (fs : List (Str × FieldKind × GoType))
    (ih : ∀ x ∈ fs, x.2.2.counters = true → ∀ v, x.2.2.has v = true → x.2.2.norm v = v) :
    countersFields fs = true → ∀ vs, hasFields fs vs = true → normFields fs vs = vs := by
  induction fs with
  | nil =>
    intro _ vs h
    cases vs with
    | nil => simp [normFields]
    | cons v vs => simp [hasFields] at h
  | cons x fs ihf =>
    obtain ⟨name, kind, t⟩ := x
    intro hc vs h
    rw [countersFields_cons] at hc
    cases vs with
    | nil => simp [hasFields] at h
    | cons v vs =>
      rw [hasFields, Bool.and_eq_true] at h
      rw [normFields, ihf (fun x hx => ih x (List.mem_cons_of_mem _ hx)) hc.2.2 vs h.2, hc.1]
      congr 1
      exact ih _ (List.mem_cons_self _ _) hc.2.1 v h.1

/-- A value of a type of counters is read back unchanged. -/
theorem norm_counters : ∀ (t : GoType), t.counters = true → ∀ v, t.has v = true →
    t.norm v = v := by
  intro t
  induction t using GoType_ind with
  | h1 => intro _ v _; cases v <;> rfl
  | h2 => intro hc; simp [GoType.counters] at hc
  | h3 => intro hc; simp [GoType.counters] at hc
  | h4 => intro hc; simp [GoType.counters] at hc
  | h5 => intro hc; simp [GoType.counters] at hc
  | h6 => intro hc; simp [GoType.counters] at hc
  | h7 fs ih =>
    intro hc v h
    obtain ⟨vs, rfl, hvs⟩ := has_struct fs v h
    rw [GoType.norm, normFields_counters fs ih (by simpa [GoType.counters] using hc) vs hvs]
  | h8 fs ih => intro hc; simp [GoType.counters] at hc

/-- The members written for the counters `fs` that follow the fields `done`
of a struct are those of `fs`, one for one, in order. -/
theorem ordered_fields (all : List (Str × FieldKind × GoType))
    (hreg : regularFields all = true) :
    ∀ (fs done : List (Str × FieldKind × GoType)) (vs : List GoVal) (ms : List (Str × JSON)),
    all = done ++ fs → countersFields fs = true →
    (∀ x ∈ fs, x.2.2.counters = true → ∀ v j, x.2.2.has v = true →
      marshalVal x.2.2 v = .ok j → x.2.2.ordered j = true) →
    hasFields fs vs = true →
    marshalFields ((typeFields all).map (fun f => f.index)) [] done.length fs vs = .ok ms →
    orderedFields fs ms = true := by
  intro fs
  induction fs with
  | nil =>
    intro done vs ms _ _ _ _ hm
    rw [marshalFields] at hm
    simp only [Except.ok.injEq] at hm
    subst hm
    rfl
  | cons x fs ih =>
    obtain ⟨name, kind, t⟩ := x
    intro done vs ms hall hc hih hhas hm
    rw [countersFields_cons] at hc
    cases vs with
    | nil => simp [hasFields] at hhas
    | cons v vs =>
      rw [hasFields, Bool.and_eq_true] at hhas
      have hget : all.get? done.length = some (name, kind, t) := by
        rw [hall]
        exact get?_append_length done fs (name, kind, t)
      have hregx := (regularFields_flat all hreg) (name, kind, t) (List.get?_mem hget)
      have hcon := typeFields_contains all hreg done.length _ hget
      obtain ⟨rest, hrest, hcase⟩ := marshalFields_inv _ [] done.length name kind t fs v vs ms
        hregx hm
      have hall' : all = (done ++ [(name, kind, t)]) ++ fs := by
        rw [hall, List.append_assoc]; rfl
      have hlen : (done ++ [(name, kind, t)]).length = done.length + 1 := by simp
      have ih' := ih (done ++ [(name, kind, t)]) vs rest hall' hc.2.2
        (fun x hx => hih x (List.mem_cons_of_mem _ hx)) hhas.2 (by rw [hlen]; exact hrest)
      rcases hcase with ⟨_, j, hj, hms⟩ | ⟨hp, _⟩
      · subst hms
        rw [orderedFields]
        simp only [beq_self_eq_true, Bool.true_and, Bool.and_eq_true]
        exact ⟨hih _ (List.mem_cons_self _ _) hc.2.1 v j hhas.1 hj, ih'⟩
      · exact absurd ⟨by simpa using hcon, Or.inl hc.1⟩ hp

/-- The encoding of a value of a type of counters lists its fields in order. -/
theorem marshal_ordered : ∀ (t : GoType), t.regular = true → t.counters = true →
    ∀ v j, t.has v = true → marshalVal t v = .ok j → t.ordered j = true := by
  intro t
  induction t using GoType_ind with
  | h1 => intro _ _ v j _ _; rfl
  | h2 => intro _ hc; simp [GoType.counters] at hc
  | h3 => intro _ hc; simp [GoType.counters] at hc
  | h4 => intro _ hc; simp [GoType.counters] at hc
  | h5 => intro _ hc; simp [GoType.counters] at hc
  | h6 => intro _ hc; simp [GoType.counters] at hc
  | h7 fs ih =>
    intro hr hc v j h hm
    have hreg : regularFields fs = true := by simpa [GoType.regular] using hr
    obtain ⟨vs, rfl, hvs⟩ := has_struct fs v h
    rw [marshalVal] at hm
    cases hms : marshalFields ((typeFields fs).map (fun f => f.index)) [] 0 fs vs with
    | error e => rw [hms] at hm; simp at hm
    | ok ms =>
      rw [hms] at hm
      simp only [Except.ok.injEq] at hm
      subst hm
      rw [GoType.ordered]
      exact ordered_fields fs hreg fs [] vs ms rfl (by simpa [GoType.counters] using hc)
        (fun x hx hcx => ih x hx (regularFields_typ fs hreg x hx) hcx) hvs hms
  | h8 fs ih => intro _ hc; simp [GoType.counters] at hc

theorem digit_cases (c : Char) (h : isDigitChar c = true) :
    (c = '0' ∨ ('1' ≤ c ∧ c ≤ '9')) ∧ c ≠ '-' ∧ c ≠ '.' ∧ c ≠ 'e' ∧ c ≠ 'E' := by
  unfold isDigitChar at h
  simp only [Bool.and_eq_true, decide_eq_true_eq] at h
  have e : c = Char.ofNat c.toNat := (Char.ofNat_toNat c).symm
  generalize c.toNat = n at h e
  subst e
  obtain ⟨h1, h2⟩ := h
  interval_cases n <;> decide

theorem isValidNumber_digits (c : Char) (r : Str) (hc : isDigitChar c = true)
    (hr : ∀ x ∈ r, isDigitChar x = true) (h0 : c = '0' → r = []) :
    isValidNumber (c :: r) = true ∧ isValidNumber ('-' :: c :: r) = true := by
  obtain ⟨hd, hm, _, _, _⟩ := digit_cases c hc
  have hdw : r.dropWhile isDigitChar = [] := by
    rw [List.dropWhile_eq_nil_iff]
    exact hr
  have key : (if ¬ (c = '0' ∨ ('1' ≤ c ∧ c ≤ '9')) then false
      else
        let s := if c = '0' then r else r.dropWhile isDigitChar
        let s := if s.length ≥ 2 ∧ s.head? = some '.' ∧ isDigit s 1
          then (s.drop 2).dropWhile isDigitChar else s
        if s.length ≥ 2 ∧ (s.head? = some 'e' ∨ s.head? = some 'E') then
          let s := s.drop 1
          if s.head? = some '+' ∨ s.head? = some '-' then
            let s := s.drop 1
            if s = [] then false else decide ((s.dropWhile isDigitChar) = [])
          else decide ((s.dropWhile isDigitChar) = [])
        else decide (s = [])) = true := by
    have hs : (if c = '0' then r else r.dropWhile isDigitChar) = [] := by
      by_cases h : c = '0'
      · rw [if_pos h, h0 h]
      · rw [if_neg h, hdw]
    simp only [hd, not_true_eq_false, if_false, hs]
    simp
  constructor
  · unfold isValidNumber
    simp only [List.cons_ne_nil, if_false, List.head?_cons, Option.some.injEq, hm]
    exact key
  · unfold isValidNumber
    simp only [List.cons_ne_nil, if_false, List.head?_cons, if_true, List.drop_succ_cons,
      List.drop_zero]
    exact key

theorem isValidNumber_FormatInt (n : Int) : isValidNumber (FormatInt n) = true := by
  have hne := decimal_ne_nil n.natAbs
  have hd := isDigitChar_of_mem_decimal n.natAbs
  have hh := decimal_head n.natAbs
  cases hdec : decimal n.natAbs with
  | nil => exact absurd hdec hne
  | cons c r =>
    rw [hdec] at hd hh
    have h0 : c = '0' → r = [] := by
      intro e
      by_cases hz : n.natAbs = 0
      · rw [hz, decimal_lt 0 (by decide)] at hdec
        simp only [List.cons.injEq] at hdec
        exact hdec.2.symm
      · exact absurd (by rw [e]; rfl) (hh hz)
    have := isValidNumber_digits c r (hd c (List.mem_cons_self _ _))
      (fun x hx => hd x (List.mem_cons_of_mem _ hx)) h0
    unfold FormatInt
    split
    · rw [hdec]; exact this.2
    · rw [hdec]; exact this.1

theorem EveEvent_names_fold : ∀ x ∈ EveEvent, x.1 ≠ "flow_id".toList →
    foldName x.1 ≠ foldName "flow_id".toList := by
  decide

/-- Decoding, with any receiver, the bytes `MarshalJSON` returned for an
event record whose timestamps `Parse` reads back: no error, a record of the
same `FlowID`. -/
theorem outEvent_recode (vs r0 : List GoVal) (he : hasFields EveEvent vs = true)
    (he0 : hasFields EveEvent r0 = true) (ht : timesOKList vs = true) :
    ∃ r, hasFields EveEvent r = true ∧
      EveOutEvent.recode (.struct r0) (.struct vs)
        = (setFlowID (.struct r) (FlowID (.struct vs)), none) := by
  obtain ⟨ms, hms, hout⟩ := outEvent_marshal vs he
  obtain ⟨_, hlo, hhi⟩ := flow_field vs he
  obtain ⟨f, hf, hi, hft⟩ := inStruct_find_flow
  have hinner := outEvent_inner_flow vs ms he hms
  have hflat := regularFields_flat EveEvent EveEvent_regular
  -- the members of the embedded record
  have hmem : ∀ m ∈ ms, ∃ n x v, EveEvent.get? n = some x ∧ vs.get? n = some v ∧ x.1 = m.1 ∧
      marshalVal x.2.2 v = .ok m.2 ∧ n ≠ 2 := by
    intro m hm
    obtain ⟨n, x, v, h1, h2, h3, h4⟩ := marshalFields_mem _ [1] EveEvent 0 vs ms hflat hms m hm
    refine ⟨n, x, v, h1, h2, h3, h4, ?_⟩
    intro e
    subst e
    rw [EveEvent_flow_field] at h1
    simp only [Option.some.injEq] at h1
    subst h1
    have : m ∈ ms.filter (fun m => m.1 == "flow_id".toList) := by
      rw [List.mem_filter]
      exact ⟨hm, by simpa using h3.symm⟩
    rw [hinner] at this
    simp at this
  have hno : ∀ m ∈ ms, foldName m.1 ≠ foldName "flow_id".toList := by
    intro m hm
    obtain ⟨n, x, v, h1, _, h3, _, h5⟩ := hmem m hm
    rw [← h3]
    refine EveEvent_names_fold x (List.get?_mem h1) ?_
    intro e
    exact h5 (regularFields_get_inj EveEvent EveEvent_regular n 2 _ _ h1 EveEvent_flow_field e)
  have hclean : (decodeMembers (typeFields inStruct) ms
      [.struct r0, .num (FormatInt (FlowID (.struct vs)))]).2 = (none, none) := by
    apply decodeMembers_clean
    intro m hm g hg cur
    obtain ⟨n, x, v, h1, h2, h3, h4, h5⟩ := hmem m hm
    obtain ⟨name, kind, t⟩ := x
    simp only at h3 h4
    obtain ⟨g', hg', _, hgt⟩ := inStruct_find_field n name kind t h1 h5
    rw [← h3, hg'] at hg
    simp only [Option.some.injEq] at hg
    subst hg
    rw [hgt]
    have hrt := decodeValue_roundtrip t
      (regularFields_typ EveEvent EveEvent_regular _ (List.get?_mem h1)) v m.2
      (hasFields_get EveEvent vs he n _ v h1 h2) (timesOKList_get vs ht n v h2) h4
    have herr := decodeValue_errors m.2 t cur t.zero
    rw [hrt] at herr
    exact herr
  obtain ⟨r, hr, hrhas⟩ := inStruct_inv (fun r => hasFields EveEvent r = true)
    (FormatInt (FlowID (.struct vs))) ms
    (fun m _ g n kind _ hn _ _ _ r hr => by
      refine hasFields_set EveEvent r n _ _ hr hn ?_
      refine decodeValue_has m.2 g.typ _
        (regularFields_typ EveEvent EveEvent_regular _ (List.get?_mem hn)) ?_
      cases hv : r.get? n with
      | none => exact zero_has g.typ
      | some v => exact hasFields_get EveEvent r hr n _ v hn hv)
    hno r0 he0
  have hval : ∀ cur, decodeValue f.typ (.str (FormatInt (FlowID (.struct vs)))) cur
      = { val := .num (FormatInt (FlowID (.struct vs))) } := by
    intro cur
    rw [hft]
    simp [decodeValue, isValidNumber_FormatInt]
  have hst : setAt f.index (GoVal.num (FormatInt (FlowID (.struct vs))))
      [.struct r0, .num []] = [.struct r0, .num (FormatInt (FlowID (.struct vs)))] := by
    rw [hi]
    rfl
  have hall : decodeMembers (typeFields inStruct)
      (("flow_id".toList, .str (FormatInt (FlowID (.struct vs)))) :: ms)
      [.struct r0, .num []]
      = ([.struct r, .num (FormatInt (FlowID (.struct vs)))], none, none) := by
    rw [decodeMembers_step _ _ _ _ _ f hf (by rw [hval])]
    simp only [hval, hst, hr]
    rw [Prod.ext_iff] at hclean
    simp only at hclean
    rw [hclean.1, hclean.2]
    rfl
  refine ⟨r, hrhas, ?_⟩
  unfold EveOutEvent.recode
  rw [hout]
  simp only []
  rw [UnmarshalJSON_ok _ _ _ _ hall, ParseInt_FormatInt _ hlo hhi]


/-! ### The parser on texts of the shape of the layout -/

theorem stampText_shape (y mo d h mi s micro zh zm : Nat) (neg : Bool) :
    stampText y mo d h mi s micro neg zh zm =
      stampShape y mo d h mi s micro ['-'] ['-'] ['T'] [':'] [':']
        [if neg then '-' else '+', digitChar (zh / 10), digitChar (zh % 10),
          digitChar (zm / 10), digitChar (zm % 10)] := rfl

theorem skip_sep (w : Str) (hw : w.length ≤ 1) (n : Nat) (hn : n < 10) (rest : Str) (p : Char)
    (hp : p ≠ ' ') (hpd : isDigitChar p = false) :
    skip (w ++ digitChar n :: rest) [p] =
      if w = [p] then .ok (digitChar n :: rest) else .error .timeParse := by
  have hne : digitChar n ≠ p := by
    intro e
    have := isDigitChar_digitChar n hn
    rw [e, hpd] at this
    exact absurd this (by simp)
  match w, hw with
  | [], _ => simp [skip, skipAux, hp, hne]
  | [c], _ =>
    by_cases hc : c = p
    · subst hc
      simp [skip, skipAux, hp]
    · simp [skip, skipAux, hp, hc]
  | _ :: _ :: _, h => simp at h

theorem digitChar_digitVal (c : Char) (h : isDigitChar c = true) :
    digitVal c < 10 ∧ digitChar (digitVal c) = c := by
  unfold isDigitChar at h
  simp only [Bool.and_eq_true, decide_eq_true_eq] at h
  have e : c = Char.ofNat c.toNat := (Char.ofNat_toNat c).symm
  generalize c.toNat = n at h e
  subst e
  obtain ⟨h1, h2⟩ := h
  interval_cases n <;> decide

theorem parseZone_ok_iff (zone : Str) :
    (∃ off, parseZone zone = .ok (off, [])) ↔
      ∃ (neg : Bool) (zh zm : Nat), zh ≤ 24 ∧ zm ≤ 60 ∧
        zone = [if neg then '-' else '+', digitChar (zh / 10), digitChar (zh % 10),
          digitChar (zm / 10), digitChar (zm % 10)] := by
  constructor
  · rintro ⟨off, h⟩
    unfold parseZone at h
    rcases zone with _ | ⟨sg, _ | ⟨a, _ | ⟨b, _ | ⟨c, _ | ⟨d, rest⟩⟩⟩⟩⟩
    · simp at h
    · simp at h
    · simp at h
    · simp at h
    · simp at h
    · rw [if_neg (by simp)] at h
      by_cases ha : isDigitChar a = true
      · by_cases hb : isDigitChar b = true
        · by_cases hc : isDigitChar c = true
          · by_cases hd : isDigitChar d = true
            · obtain ⟨la, ea⟩ := digitChar_digitVal a ha
              obtain ⟨lb, eb⟩ := digitChar_digitVal b hb
              obtain ⟨lc, ec⟩ := digitChar_digitVal c hc
              obtain ⟨ld, ed⟩ := digitChar_digitVal d hd
              simp [getnum, isDigit, ha, hb, hc, hd] at h
              by_cases hr : 24 < digitVal a * 10 + digitVal b ∨ 60 < digitVal c * 10 + digitVal d
              · simp [hr] at h
              · simp only [hr, if_false] at h
                have e1 : (digitVal a * 10 + digitVal b) / 10 = digitVal a := by omega
                have e2 : (digitVal a * 10 + digitVal b) % 10 = digitVal b := by omega
                have e3 : (digitVal c * 10 + digitVal d) / 10 = digitVal c := by omega
                have e4 : (digitVal c * 10 + digitVal d) % 10 = digitVal d := by omega
                by_cases hp : sg = '+'
                · subst hp
                  simp at h
                  refine ⟨false, digitVal a * 10 + digitVal b, digitVal c * 10 + digitVal d,
                    by omega, by omega, ?_⟩
                  rw [e1, e2, e3, e4, ea, eb, ec, ed, h.2]
                  rfl
                · by_cases hm : sg = '-'
                  · subst hm
                    simp at h
                    refine ⟨true, digitVal a * 10 + digitVal b, digitVal c * 10 + digitVal d,
                      by omega, by omega, ?_⟩
                    rw [e1, e2, e3, e4, ea, eb, ec, ed, h.2]
                    rfl
                  · simp [hp, hm] at h
            · simp [getnum, isDigit, ha, hb, hc, hd] at h
          · simp [getnum, isDigit, ha, hb, hc] at h
        · simp [getnum, isDigit, ha, hb] at h
      · simp [getnum, isDigit, ha] at h
  · rintro ⟨neg, zh, zm, h1, h2, rfl⟩
    rw [parseZone_sign neg zh zm (by omega) (by omega)]
    have hr : ¬ (zh > 24 ∨ zm > 60) := by omega
    simp only [hr, if_false]
    exact ⟨_, rfl⟩

theorem daysIn_explicit (mo y : Nat) (h1 : 1 ≤ mo) (h2 : mo ≤ 12) :
    daysIn mo (y : Int) =
      if mo = 2 then (if y % 4 = 0 ∧ (y % 100 ≠ 0 ∨ y % 400 = 0) then 29 else 28)
      else if mo = 4 ∨ mo = 6 ∨ mo = 9 ∨ mo = 11 then 30 else 31 := by
  have hl : isLeap (y : Int) = true ↔ (y % 4 = 0 ∧ (y % 100 ≠ 0 ∨ y % 400 = 0)) := by
    unfold isLeap
    simp only [Bool.and_eq_true, Bool.or_eq_true, decide_eq_true_eq]
    omega
  unfold daysIn
  interval_cases mo <;> simp [daysBefore, hl]


/-- A text of the shape of the layout, with fields of full width, any texts of
at most one character at the places of the separators and any text at the
place of the offset, is parsed exactly when the separators and the offset
are those of the layout and the fields are in range. -/
theorem Parse_stampShape_iff (y mo d h mi s micro : Nat) (w1 w2 w3 w4 w5 zone : Str)
    (hy : y < 10000) (hmo : mo < 100) (hd : d < 100) (hh : h < 100) (hmi : mi < 100)
    (hs : s < 100) (hmic : micro < 1000000)
    (l1 : w1.length ≤ 1) (l2 : w2.length ≤ 1) (l3 : w3.length ≤ 1) (l4 : w4.length ≤ 1)
    (l5 : w5.length ≤ 1)
    (hz : ∀ c, zone.head? = some c → isDigitChar c = false ∧ commaOrPeriod c = false) :
    (∃ t, Parse (stampShape y mo d h mi s micro w1 w2 w3 w4 w5 zone) = .ok t) ↔
      (w1 = ['-'] ∧ w2 = ['-'] ∧ w3 = ['T'] ∧ w4 = [':'] ∧ w5 = [':'] ∧
        (∃ (neg : Bool) (zh zm : Nat), zh ≤ 24 ∧ zm ≤ 60 ∧
          zone = [if neg then '-' else '+', digitChar (zh / 10), digitChar (zh % 10),
            digitChar (zm / 10), digitChar (zm % 10)]) ∧
        1 ≤ mo ∧ mo ≤ 12 ∧ 1 ≤ d ∧ d ≤ daysIn mo y ∧ h < 24 ∧ mi < 60 ∧ s < 60) := by
  have ey : y / 1000 * 1000 + y / 100 % 10 * 100 + y / 10 % 10 * 10 + y % 10 = y := by omega
  have py := parseYear_four (y / 1000) (y / 100 % 10) (y / 10 % 10) (y % 10) (by omega)
    (by omega) (by omega) (by omega)
  rw [ey] at py
  have sk1 : ∀ rest, skip (w1 ++ digitChar (mo / 10) :: rest) ['-'] =
      if w1 = ['-'] then .ok (digitChar (mo / 10) :: rest) else .error .timeParse :=
    fun rest => skip_sep w1 l1 _ (by omega) rest '-' (by decide) (by decide)
  have sk2 : ∀ rest, skip (w2 ++ digitChar (d / 10) :: rest) ['-'] =
      if w2 = ['-'] then .ok (digitChar (d / 10) :: rest) else .error .timeParse :=
    fun rest => skip_sep w2 l2 _ (by omega) rest '-' (by decide) (by decide)
  have sk3 : ∀ rest, skip (w3 ++ digitChar (h / 10) :: rest) ['T'] =
      if w3 = ['T'] then .ok (digitChar (h / 10) :: rest) else .error .timeParse :=
    fun rest => skip_sep w3 l3 _ (by omega) rest 'T' (by decide) (by decide)
  have sk4 : ∀ rest, skip (w4 ++ digitChar (mi / 10) :: rest) [':'] =
      if w4 = [':'] then .ok (digitChar (mi / 10) :: rest) else .error .timeParse :=
    fun rest => skip_sep w4 l4 _ (by omega) rest ':' (by decide) (by decide)
  have sk5 : ∀ rest, skip (w5 ++ digitChar (s / 10) :: rest) [':'] =
      if w5 = [':'] then .ok (digitChar (s / 10) :: rest) else .error .timeParse :=
    fun rest => skip_sep w5 l5 _ (by omega) rest ':' (by decide) (by decide)
  have gm : ∀ rest, parseMonth (digitChar (mo / 10) :: digitChar (mo % 10) :: rest) =
      if mo ≤ 0 ∨ 12 < mo then .error .timeParse else .ok (mo, rest) := by
    intro rest
    simp only [parseMonth, twoDigits mo rest true hmo]
  have gd : ∀ rest, getnum (digitChar (d / 10) :: digitChar (d % 10) :: rest) true =
      .ok (d, rest) := fun rest => twoDigits d rest true hd
  have gh : ∀ rest, parseHour (digitChar (h / 10) :: digitChar (h % 10) :: rest) =
      if 24 ≤ h then .error .timeParse else .ok (h, rest) := by
    intro rest
    simp only [parseHour, twoDigits h rest false hh]
  have g60 : ∀ n, n < 100 → ∀ rest,
      parseSixty (digitChar (n / 10) :: digitChar (n % 10) :: rest) =
        if 60 ≤ n then .error .timeParse else .ok (n, rest) := by
    intro n hn rest
    simp only [parseSixty, twoDigits n rest true hn]
  have pf := parseFrac_frac micro hmic zone hz
  unfold Parse stampShape
  simp only [List.cons_append, List.nil_append, py, bind, Except.bind, sk1, sk2, sk3, sk4, sk5, gm, gd, gh, g60 mi hmi, g60 s hs, ne_eq, pf, Char.reduceEq, not_false_eq_true, List.singleton_append, not_true_eq_false]
  by_cases a1 : w1 = ['-']
  swap
  · simp only [if_neg a1, List.cons_append, List.nil_append, py, bind, Except.bind, sk1, sk2, sk3, sk4, sk5, gm, gd, gh, g60 mi hmi, g60 s hs, ne_eq, pf, Char.reduceEq, not_false_eq_true, List.singleton_append, not_true_eq_false]
    constructor
    · rintro ⟨t, ht⟩; cases ht
    · intro hc; exfalso; exact a1 hc.1
  simp only [if_pos a1, List.cons_append, List.nil_append, py, bind, Except.bind, sk1, sk2, sk3, sk4, sk5, gm, gd, gh, g60 mi hmi, g60 s hs, ne_eq, pf, Char.reduceEq, not_false_eq_true, List.singleton_append, not_true_eq_false]
  by_cases c1 : mo ≤ 0 ∨ 12 < mo
  · simp only [if_pos c1, List.cons_append, List.nil_append, py, bind, Except.bind, sk1, sk2, sk3, sk4, sk5, gm, gd, gh, g60 mi hmi, g60 s hs, ne_eq, pf, Char.reduceEq, not_false_eq_true, List.singleton_append, not_true_eq_false]
    constructor
    · rintro ⟨t, ht⟩; cases ht
    · intro hc; exfalso; omega
  simp only [if_neg c1, List.cons_append, List.nil_append, py, bind, Except.bind, sk1, sk2, sk3, sk4, sk5, gm, gd, gh, g60 mi hmi, g60 s hs, ne_eq, pf, Char.reduceEq, not_false_eq_true, List.singleton_append, not_true_eq_false]
  by_cases a2 : w2 = ['-']
  swap
  · simp only [if_neg a2, List.cons_append, List.nil_append, py, bind, Except.bind, sk1, sk2, sk3, sk4, sk5, gm, gd, gh, g60 mi hmi, g60 s hs, ne_eq, pf, Char.reduceEq, not_false_eq_true, List.singleton_append, not_true_eq_false]
    constructor
    · rintro ⟨t, ht⟩; cases ht
    · intro hc; exfalso; exact a2 hc.2.1
  simp only [if_pos a2, List.cons_append, List.nil_append, py, bind, Except.bind, sk1, sk2, sk3, sk4, sk5, gm, gd, gh, g60 mi hmi, g60 s hs, ne_eq, pf, Char.reduceEq, not_false_eq_true, List.singleton_append, not_true_eq_false]
  by_cases a3 : w3 = ['T']
  swap
  · simp only [if_neg a3, List.cons_append, List.nil_append, py, bind, Except.bind, sk1, sk2, sk3, sk4, sk5, gm, gd, gh, g60 mi hmi, g60 s hs, ne_eq, pf, Char.reduceEq, not_false_eq_true, List.singleton_append, not_true_eq_false]
    constructor
    · rintro ⟨t, ht⟩; cases ht
    · intro hc; exfalso; exact a3 hc.2.2.1
  simp only [if_pos a3, List.cons_append, List.nil_append, py, bind, Except.bind, sk1, sk2, sk3, sk4, sk5, gm, gd, gh, g60 mi hmi, g60 s hs, ne_eq, pf, Char.reduceEq, not_false_eq_true, List.singleton_append, not_true_eq_false]
  by_cases c2 : 24 ≤ h
  · simp only [if_pos c2, List.cons_append, List.nil_append, py, bind, Except.bind, sk1, sk2, sk3, sk4, sk5, gm, gd, gh, g60 mi hmi, g60 s hs, ne_eq, pf, Char.reduceEq, not_false_eq_true, List.singleton_append, not_true_eq_false]
    constructor
    · rintro ⟨t, ht⟩; cases ht
    · intro hc; exfalso; omega
  simp only [if_neg c2, List.cons_append, List.nil_append, py, bind, Except.bind, sk1, sk2, sk3, sk4, sk5, gm, gd, gh, g60 mi hmi, g60 s hs, ne_eq, pf, Char.reduceEq, not_false_eq_true, List.singleton_append, not_true_eq_false]
  by_cases a4 : w4 = [':']
  swap
  · simp only [if_neg a4, List.cons_append, List.nil_append, py, bind, Except.bind, sk1, sk2, sk3, sk4, sk5, gm, gd, gh, g60 mi hmi, g60 s hs, ne_eq, pf, Char.reduceEq, not_false_eq_true, List.singleton_append, not_true_eq_false]
    constructor
    · rintro ⟨t, ht⟩; cases ht
    · intro hc; exfalso; exact a4 hc.2.2.2.1
  simp only [if_pos a4, List.cons_append, List.nil_append, py, bind, Except.bind, sk1, sk2, sk3, sk4, sk5, gm, gd, gh, g60 mi hmi, g60 s hs, ne_eq, pf, Char.reduceEq, not_false_eq_true, List.singleton_append, not_true_eq_false]
  by_cases c3 : 60 ≤ mi
  · simp only [if_pos c3, List.cons_append, List.nil_append, py, bind, Except.bind, sk1, sk2, sk3, sk4, sk5, gm, gd, gh, g60 mi hmi, g60 s hs, ne_eq, pf, Char.reduceEq, not_false_eq_true, List.singleton_append, not_true_eq_false]
    constructor
    · rintro ⟨t, ht⟩; cases ht
    · intro hc; exfalso; omega
  simp only [if_neg c3, List.cons_append, List.nil_append, py, bind, Except.bind, sk1, sk2, sk3, sk4, sk5, gm, gd, gh, g60 mi hmi, g60 s hs, ne_eq, pf, Char.reduceEq, not_false_eq_true, List.singleton_append, not_true_eq_false]
  by_cases a5 : w5 = [':']
  swap
  · simp only [if_neg a5, List.cons_append, List.nil_append, py, bind, Except.bind, sk1, sk2, sk3, sk4, sk5, gm, gd, gh, g60 mi hmi, g60 s hs, ne_eq, pf, Char.reduceEq, not_false_eq_true, List.singleton_append, not_true_eq_false]
    constructor
    · rintro ⟨t, ht⟩; cases ht
    · intro hc; exfalso; exact a5 hc.2.2.2.2.1
  simp only [if_pos a5, List.cons_append, List.nil_append, py, bind, Except.bind, sk1, sk2, sk3, sk4, sk5, gm, gd, gh, g60 mi hmi, g60 s hs, ne_eq, pf, Char.reduceEq, not_false_eq_true, List.singleton_append, not_true_eq_false]
  by_cases c4 : 60 ≤ s
  · simp only [if_pos c4, List.cons_append, List.nil_append, py, bind, Except.bind, sk1, sk2, sk3, sk4, sk5, gm, gd, gh, g60 mi hmi, g60 s hs, ne_eq, pf, Char.reduceEq, not_false_eq_true, List.singleton_append, not_true_eq_false]
    constructor
    · rintro ⟨t, ht⟩; cases ht
    · intro hc; exfalso; omega
  simp only [if_neg c4, List.cons_append, List.nil_append, py, bind, Except.bind, sk1, sk2, sk3, sk4, sk5, gm, gd, gh, g60 mi hmi, g60 s hs, ne_eq, pf, Char.reduceEq, not_false_eq_true, List.singleton_append, not_true_eq_false]
  cases hzp : parseZone zone with
  | error err =>
    simp only []
    constructor
    · rintro ⟨t, ht⟩; cases ht
    · intro hc
      obtain ⟨off, ho⟩ := (parseZone_ok_iff zone).2 hc.2.2.2.2.2.1
      rw [hzp] at ho
      cases ho
  | ok v =>
    obtain ⟨off, rest⟩ := v
    simp only []
    by_cases hr : rest = []
    · subst hr
      have hzf := (parseZone_ok_iff zone).1 ⟨off, hzp⟩
      by_cases c6 : d < 1 ∨ d > daysIn mo y
      · simp only [not_true_eq_false, if_false, if_pos c6]
        constructor
        · rintro ⟨t, ht⟩; cases ht
        · intro hc; exfalso; omega
      · simp only [not_true_eq_false, if_false, if_neg c6]
        constructor
        · intro _
          exact ⟨a1, a2, a3, a4, a5, hzf, by omega, by omega, by omega, by omega, by omega,
            by omega, by omega⟩
        · intro _; exact ⟨_, rfl⟩
    · simp only [hr, not_false_eq_true, if_true]
      constructor
      · rintro ⟨t, ht⟩; cases ht
      · intro hc
        obtain ⟨off1, ho⟩ := (parseZone_ok_iff zone).2 hc.2.2.2.2.2.1
        rw [hzp] at ho
        simp only [Except.ok.injEq, Prod.mk.injEq] at ho
        exact absurd ho.2 hr

theorem stampShape_plain (y mo d h mi s micro : Nat) (w1 w2 w3 w4 w5 zone : Str)
    (hy : y < 10000) (hmo : mo < 100) (hd : d < 100) (hh : h < 100) (hmi : mi < 100)
    (hs : s < 100)
    (hp : ∀ c ∈ w1 ++ w2 ++ w3 ++ w4 ++ w5 ++ zone, c ≠ '"' ∧ c ≠ '\\' ∧ c ≠ '\n') :
    ∀ c ∈ stampShape y mo d h mi s micro w1 w2 w3 w4 w5 zone,
      c ≠ '"' ∧ c ≠ '\\' ∧ c ≠ '\n' := by
  intro c hc
  have dg : ∀ n, n < 10 → c = digitChar n → c ≠ '"' ∧ c ≠ '\\' ∧ c ≠ '\n' := by
    intro n hn e
    have p := stampChar_plain c (by rw [e]; exact stampChar_digitChar n hn)
    exact ⟨p.1, p.2.1, p.2.2.1⟩
  have hw : ∀ x, (x ∈ w1 ∨ x ∈ w2 ∨ x ∈ w3 ∨ x ∈ w4 ∨ x ∈ w5 ∨ x ∈ zone) →
      x ≠ '"' ∧ x ≠ '\\' ∧ x ≠ '\n' := by
    intro x hx
    apply hp x
    simp only [List.mem_append]
    tauto
  unfold stampShape at hc
  simp only [List.mem_append, List.mem_cons] at hc
  rcases hc with hc | hc | hc | hc | hc | hc | hc | hc | hc | hc | hc | hc | hc | hc | hc | hc |
    hc | hc | hc | hc | hc
  · exact dg _ (by omega) hc
  · exact dg _ (by omega) hc
  · exact dg _ (by omega) hc
  · exact dg _ (by omega) hc
  · exact hw c (by tauto)
  · exact dg _ (by omega) hc
  · exact dg _ (by omega) hc
  · exact hw c (by tauto)
  · exact dg _ (by omega) hc
  · exact dg _ (by omega) hc
  · exact hw c (by tauto)
  · exact dg _ (by omega) hc
  · exact dg _ (by omega) hc
  · exact hw c (by tauto)
  · exact dg _ (by omega) hc
  · exact dg _ (by omega) hc
  · exact hw c (by tauto)
  · exact dg _ (by omega) hc
  · exact dg _ (by omega) hc
  · split at hc
    · simp at hc
    · rcases List.mem_cons.1 hc with e | hc
      · subst e; decide
      · have p := stampChar_plain c
          (stampChar_of_digit c (isDigitChar_of_mem_fracList 6 micro c hc))
        exact ⟨p.1, p.2.1, p.2.2.1⟩
  · exact hw c (by tauto)

theorem Format_form (t : Time) (h : t.encodable) :
    ∃ y mo d h mi s zh zm : Nat, y ≤ 9999 ∧ 1 ≤ mo ∧ mo ≤ 12 ∧ 1 ≤ d ∧ d ≤ 31 ∧ h < 24 ∧
      mi < 60 ∧ s < 60 ∧ zh ≤ 24 ∧ zm < 60 ∧
      t.Format = stampText y mo d h mi s (t.nsec / 1000) (decide (goDiv t.offset 60 < 0)) zh zm := by
  obtain ⟨hn, hlo, hhi, hoff⟩ := h
  obtain ⟨_, h0, h1⟩ := Time.abs_eq t hlo hhi
  obtain ⟨y0, y1, m0, m1, d0, d1, _⟩ := absDate_spec t.abs h0 h1
  obtain ⟨c1, c2, c3, _⟩ := absClock_spec t.abs
  have hd31 : daysIn (absDate t.abs).2.1 (absDate t.abs).1 ≤ 31 := by
    unfold daysIn
    generalize (absDate t.abs).2.1 = mo at *
    interval_cases mo <;> simp only [daysBefore] <;> split <;> simp
  exact ⟨(absDate t.abs).1.toNat, (absDate t.abs).2.1, (absDate t.abs).2.2,
    (absClock t.abs).1, (absClock t.abs).2.1, (absClock t.abs).2.2,
    t.offset.natAbs / 60 / 60, t.offset.natAbs / 60 % 60, by omega, m0, m1, d0, by omega,
    c1, c2, c3, by omega, by omega, Format_eq_stampText t hn hlo hhi (by omega)⟩

/-! ### Decoding an object with distinct member names -/

theorem zeroFields_get (fs : List (Str × FieldKind × GoType)) :
    ∀ n name kind t, fs.get? n = some (name, kind, t) →
      (zeroFields fs).get? n = some t.zero := by
  induction fs with
  | nil => intro n name kind t h; simp at h
  | cons x fs ih =>
    obtain ⟨name0, kind0, t0⟩ := x
    intro n name kind t h
    cases n with
    | zero =>
      simp only [List.get?_cons_zero, Option.some.injEq, Prod.mk.injEq] at h
      rw [zeroFields, ← h.2.2]
      rfl
    | succ n =>
      rw [zeroFields]
      exact ih n name kind t h

theorem appendInt_ne_nil (b : Str) (x : Int) (w : Nat) : appendInt b x w ≠ [] := by
  unfold appendInt
  simp [decimal_ne_nil]

theorem Format_ne_nil (t : Time) : t.Format ≠ [] := by
  unfold Time.Format
  exact appendInt_ne_nil _ _ _

theorem FormatInt_zero (n : Int) (h0 : -9223372036854775808 ≤ n) (h1 : n ≤ 9223372036854775807) :
    FormatInt n = ['0'] ↔ n = 0 := by
  constructor
  · intro e
    have h := ParseInt_FormatInt n h0 h1
    rw [e] at h
    have h2 : ParseInt ['0'] = (0, none) := by decide
    rw [h2] at h
    simp only [Prod.mk.injEq, and_true] at h
    exact h.symm
  · intro e
    subst e
    decide

theorem marshal_isZero (t : GoType) (v : GoVal) (j : JSON) (hreg : t.regular = true)
    (hhas : t.has v = true) (hm : marshalVal t v = .ok j) : j.isZero = isEmptyValue v := by
  cases t with
  | int =>
    cases v with
    | int n =>
      simp only [marshalVal, Except.ok.injEq] at hm
      subst hm
      simp only [GoType.has, Bool.and_eq_true, decide_eq_true_eq] at hhas
      have := FormatInt_zero n hhas.1 hhas.2
      simp only [JSON.isZero, isEmptyValue]
      by_cases h0 : n = 0
      · rw [this.2 h0, h0]
        rfl
      · have h1 : FormatInt n ≠ ['0'] := fun e => h0 (this.1 e)
        simp [h0, h1]
    | _ => simp [marshalVal] at hm
  | string =>
    cases v with
    | str s =>
      simp only [marshalVal, Except.ok.injEq] at hm
      subst hm
      rfl
    | _ => simp [marshalVal] at hm
  | bool =>
    cases v with
    | bool b =>
      simp only [marshalVal, Except.ok.injEq] at hm
      subst hm
      rfl
    | _ => simp [marshalVal] at hm
  | strings =>
    cases v with
    | strs xs =>
      cases xs with
      | none =>
        simp only [marshalVal, Except.ok.injEq] at hm
        subst hm
        rfl
      | some xs =>
        simp only [marshalVal, Except.ok.injEq] at hm
        subst hm
        cases xs <;> rfl
    | _ => simp [marshalVal] at hm
  | number => simp [GoType.regular] at hreg
  | suriTimePtr =>
    cases v with
    | time ts =>
      cases ts with
      | none =>
        simp only [marshalVal, Except.ok.injEq] at hm
        subst hm
        rfl
      | some t =>
        rw [marshalVal] at hm
        have hmj : suriTime.MarshalJSON t = ((suriTime.MarshalJSON t).1, none) := rfl
        rw [hmj] at hm
        simp only [jsonOfRaw_Format, Except.ok.injEq] at hm
        subst hm
        have := Format_ne_nil t
        simp only [JSON.isZero, isEmptyValue]
        cases hf : t.Format with
        | nil => exact absurd hf this
        | cons c r => rfl
    | _ => simp [marshalVal] at hm
  | struct fs =>
    cases v with
    | struct vs =>
      simp only [marshalVal] at hm
      cases hr : marshalFields ((typeFields fs).map (fun f => f.index)) [] 0 fs vs with
      | error e => rw [hr] at hm; simp at hm
      | ok ms =>
        rw [hr] at hm
        simp only [Except.ok.injEq] at hm
        subst hm
        rfl
    | _ => simp [marshalVal] at hm
  | ptr fs =>
    cases v with
    | nilPtr =>
      simp only [marshalVal, Except.ok.injEq] at hm
      subst hm
      rfl
    | ptr w =>
      cases w with
      | struct vs =>
        simp only [marshalVal] at hm
        cases hr : marshalFields ((typeFields fs).map (fun f => f.index)) [] 0 fs vs with
        | error e => rw [hr] at hm; simp at hm
        | ok ms =>
          rw [hr] at hm
          simp only [Except.ok.injEq] at hm
          subst hm
          rfl
      | _ => simp [marshalVal] at hm
    | _ => simp [marshalVal] at hm

theorem get?_set_self (l : List GoVal) (i : Nat) (a v : GoVal) (h : l.get? i = some v) :
    (l.set i a).get? i = some a := by
  induction l generalizing i with
  | nil => simp at h
  | cons x l ih =>
    cases i with
    | zero => rfl
    | succ i => exact ih i h

/-- The members of an object with distinct names, each the name of a field,
are decoded into those fields of a struct that holds zero values there, and
the other fields are left as they are. -/
theorem decodeMembers_distinct (fs : List (Str × FieldKind × GoType))
    (hreg : regularFields fs = true) :
    ∀ (ms : List (Str × JSON)) (st : List GoVal),
    (ms.map (fun m => m.1)).Nodup →
    (∀ m ∈ ms, ∃ n kind t, fs.get? n = some (m.1, kind, t) ∧ st.get? n = some t.zero ∧
      (decodeValue t m.2 t.zero).saved = none ∧ (decodeValue t m.2 t.zero).fatal = none) →
    ∃ st', decodeMembers (typeFields fs) ms st = (st', none, none) ∧
      (∀ m ∈ ms, ∀ n kind t, fs.get? n = some (m.1, kind, t) →
        st'.get? n = some (decodeValue t m.2 t.zero).val) ∧
      (∀ n x, fs.get? n = some x → x.1 ∉ ms.map (fun m => m.1) →
        st'.get? n = st.get? n) := by
  intro ms
  induction ms with
  | nil =>
    intro st _ _
    exact ⟨st, decodeMembers_nil _ _, fun m hm => by simp at hm, fun _ _ _ _ => rfl⟩
  | cons m ms ih =>
    intro st hnd hval
    obtain ⟨k, j⟩ := m
    obtain ⟨n, kind, t, hn, hst, hs, hf⟩ := hval (k, j) (List.mem_cons_self _ _)
    obtain ⟨f, hfind, hft, hfi⟩ := findField_regular_exists fs hreg n k kind t hn
    have hcur : (getAt f.index st).getD f.typ.zero = t.zero := by
      rw [hfi, hft]
      show (st.get? n).getD t.zero = t.zero
      rw [hst]
      rfl
    simp only [List.map_cons, List.nodup_cons] at hnd
    have hstep := decodeMembers_step (typeFields fs) k j ms st f hfind
      (by rw [hcur, hft]; exact hf)
    rw [hcur, hft, hfi] at hstep
    have hset : setAt [n] (decodeValue t j t.zero).val st
        = st.set n (decodeValue t j t.zero).val := rfl
    rw [hset] at hstep
    have hother : ∀ n' x, fs.get? n' = some x → x.1 ≠ k → n ≠ n' := by
      intro n' x hn' hx e
      subst e
      rw [hn] at hn'
      simp only [Option.some.injEq] at hn'
      rw [← hn'] at hx
      exact hx rfl
    obtain ⟨st', hdec, hmem, hframe⟩ := ih (st.set n (decodeValue t j t.zero).val) hnd.2 (by
      intro m hm
      obtain ⟨n', kind', t', hn', hst', hs', hf'⟩ := hval m (List.mem_cons_of_mem _ hm)
      refine ⟨n', kind', t', hn', ?_, hs', hf'⟩
      have hne : n ≠ n' := hother n' _ hn' (fun e => hnd.1 (List.mem_map.2 ⟨m, hm, e⟩))
      rw [get?_set_other _ _ _ _ hne]
      exact hst')
    refine ⟨st', ?_, ?_, ?_⟩
    · rw [hstep, hdec, hs]
      rfl
    · intro m hm n' kind' t' hn'
      rcases List.mem_cons.1 hm with e | hm
      · subst e
        have e2 := regularFields_get_inj fs hreg n n' _ _ hn hn' rfl
        subst e2
        rw [hn] at hn'
        simp only [Option.some.injEq, Prod.mk.injEq, true_and] at hn'
        obtain ⟨_, rfl⟩ := hn'
        rw [hframe n _ hn hnd.1]
        exact get?_set_self st n _ _ hst
      · exact hmem m hm n' kind' t' hn'
    · intro n' x hn' hx
      simp only [List.map_cons, List.mem_cons, not_or] at hx
      rw [hframe n' x hn' hx.2]
      exact get?_set_other _ _ _ _ (hother n' x hn' hx.1)

theorem EveEvent_kinds : ∀ x ∈ EveEvent,
    (x.2.1 = .plain ↔ (x.1 = "timestamp".toList ∨ x.1 = "event_type".toList)) ∧
    x.2.1 ≠ .embedded ∧ (x.2.1 = .plain ∨ isEmptyValue x.2.2.zero = true) := by
  decide

/-! ### Claims about the timestamp codec -/

/-- C1, counterexample: the valid timestamp `2017-03-06T06:54:10.839660+0000`
is decoded without error, and the decoded value is encoded as
`2017-03-06T06:54:10.83966+0000`, without the trailing zero. -/
theorem suriTime_trailing_zero_lost :
    suriTime.UnmarshalJSON zeroTime ('"' :: ("2017-03-06T06:54:10.839660+0000".toList ++ ['"']))
      = ({ unix := 1488783250, nsec := 839660000, offset := 0 }, none) ∧
    suriTime.MarshalJSON { unix := 1488783250, nsec := 839660000, offset := 0 }
      = ('"' :: ("2017-03-06T06:54:10.83966+0000".toList ++ ['"']), none) := by
  decide

/-- C1, amended: for every timestamp text `T` that `suriTime.MarshalJSON`
writes for an instant whose year is in `0..9999` and whose offset is below 25
hours, `suriTime.UnmarshalJSON` of `T` returns no error and
`suriTime.MarshalJSON` of the decoded value returns exactly `T`. -/
theorem suriTime_text_roundtrip (t t0 : Time) (h : t.encodable) :
    (suriTime.UnmarshalJSON t0 (suriTime.MarshalJSON t).1).2 = none ∧
    suriTime.MarshalJSON (suriTime.UnmarshalJSON t0 (suriTime.MarshalJSON t).1).1
      = ((suriTime.MarshalJSON t).1, none) := by
  rw [suriTime_roundtrip t t0 h]
  refine ⟨rfl, ?_⟩
  unfold suriTime.MarshalJSON
  rw [Format_reread t h]

theorem suriTime_text_roundtrip_witness :
    (suriTime.UnmarshalJSON zeroTime
      (suriTime.MarshalJSON { unix := 1488783250, nsec := 839668000, offset := 0 }).1).2 = none ∧
    suriTime.MarshalJSON (suriTime.UnmarshalJSON zeroTime
      (suriTime.MarshalJSON { unix := 1488783250, nsec := 839668000, offset := 0 }).1).1
      = ((suriTime.MarshalJSON { unix := 1488783250, nsec := 839668000, offset := 0 }).1, none) :=
  suriTime_text_roundtrip { unix := 1488783250, nsec := 839668000, offset := 0 } zeroTime
    (by decide)

/-- C10, counterexample: the first instant of the year 10000 is encoded as
`10000-01-01T00:00:00+0000`, which `suriTime.UnmarshalJSON` rejects. -/
theorem suriTime_year10000_rejected :
    suriTime.MarshalJSON { unix := 253402300800, nsec := 0, offset := 0 }
      = ('"' :: ("10000-01-01T00:00:00+0000".toList ++ ['"']), none) ∧
    (suriTime.UnmarshalJSON zeroTime
      (suriTime.MarshalJSON { unix := 253402300800, nsec := 0, offset := 0 }).1).2
      = some .timeParse := by
  decide

/-- C10, amended: `suriTime.MarshalJSON` returns no error for any instant,
and for an instant whose year is in `0..9999` and whose offset is below 25
hours `suriTime.UnmarshalJSON` returns no error on the bytes it produced. -/
theorem suriTime_marshal_accepted (t t0 : Time) :
    (suriTime.MarshalJSON t).2 = none ∧
    (t.encodable → (suriTime.UnmarshalJSON t0 (suriTime.MarshalJSON t).1).2 = none) := by
  refine ⟨rfl, fun h => ?_⟩
  rw [suriTime_roundtrip t t0 h]

theorem suriTime_marshal_accepted_witness :
    (suriTime.MarshalJSON { unix := 253402300799, nsec := 999999999, offset := 0 }).2 = none ∧
    (suriTime.UnmarshalJSON zeroTime
      (suriTime.MarshalJSON { unix := 253402300799, nsec := 999999999, offset := 0 }).1).2
      = none :=
  ⟨(suriTime_marshal_accepted { unix := 253402300799, nsec := 999999999, offset := 0 }
      zeroTime).1,
    (suriTime_marshal_accepted { unix := 253402300799, nsec := 999999999, offset := 0 }
      zeroTime).2 (by decide)⟩

/-- C11, counterexample: an instant of the year 1970 with an offset of 100
hours, a whole number of minutes, is encoded as `1970-01-05T04:00:00+10000`,
which `suriTime.UnmarshalJSON` rejects. -/
theorem suriTime_offset_100h_rejected :
    ({ unix := 0, nsec := 0, offset := 360000 } : Time).Year = 1970 ∧
    (360000 : Int) % 60 = 0 ∧
    suriTime.UnmarshalJSON zeroTime
      (suriTime.MarshalJSON { unix := 0, nsec := 0, offset := 360000 }).1
      = (zeroTime, some .timeParse) := by
  decide

/-- C11, amended: for every instant `t` whose year is in `0..9999` and whose
offset is a whole number of minutes below 25 hours,
`suriTime.UnmarshalJSON` of the bytes of `suriTime.MarshalJSON t` yields `t`
with its nanoseconds rounded down to a whole microsecond, at the same offset;
it yields `t` itself when `t` has no part below a microsecond. -/
theorem suriTime_truncates (t t0 : Time) (h : t.encodable) (hm : t.offset % 60 = 0) :
    suriTime.UnmarshalJSON t0 (suriTime.MarshalJSON t).1
      = ({ unix := t.unix, nsec := t.nsec / 1000 * 1000, offset := t.offset }, none) ∧
    (t.nsec % 1000 = 0 → (suriTime.UnmarshalJSON t0 (suriTime.MarshalJSON t).1).1 = t) := by
  rw [suriTime_roundtrip t t0 h]
  have e : goDiv t.offset 60 * 60 = t.offset := by
    rw [goDiv_sixty]
    split <;> omega
  have hr : t.reread = { unix := t.unix, nsec := t.nsec / 1000 * 1000, offset := t.offset } := by
    unfold Time.reread
    rw [e]
    simp
  rw [hr]
  refine ⟨rfl, fun h0 => ?_⟩
  have : t.nsec / 1000 * 1000 = t.nsec := by omega
  simp only [this]

theorem suriTime_truncates_witness :
    suriTime.UnmarshalJSON zeroTime
      (suriTime.MarshalJSON { unix := 1488783250, nsec := 839668123, offset := -3600 }).1
      = ({ unix := 1488783250, nsec := 839668123 / 1000 * 1000, offset := -3600 }, none) ∧
    (839668123 % 1000 = 0 → (suriTime.UnmarshalJSON zeroTime
      (suriTime.MarshalJSON { unix := 1488783250, nsec := 839668123, offset := -3600 }).1).1
      = { unix := 1488783250, nsec := 839668123, offset := -3600 }) :=
  suriTime_truncates { unix := 1488783250, nsec := 839668123, offset := -3600 } zeroTime
    (by decide) (by decide)

/-- C12, counterexample: a text with a one-digit hour, which is not in the
layout, and a back-quoted text, which is not a JSON string, are both decoded
without error. -/
theorem suriTime_lenient_inputs :
    suriTime.UnmarshalJSON zeroTime ('"' :: ("2017-03-06T6:54:10+0000".toList ++ ['"']))
      = ({ unix := 1488783250, nsec := 0, offset := 0 }, none) ∧
    suriTime.UnmarshalJSON zeroTime ('`' :: ("2017-03-06T06:54:10+0000".toList ++ ['`']))
      = ({ unix := 1488783250, nsec := 0, offset := 0 }, none) := by
  decide

/-- C12, amended: `suriTime.UnmarshalJSON` returns an error for every input
that does not begin with a quote character. On a double-quoted text made of a
four-digit year, two-digit month, day, hour, minute and second, a fraction of
at most six digits, any texts of at most one character at the places of the
five separators (a separator may be missing or be another character) and any
text, not beginning with a digit, `.` or `,`, at the place of the offset, it
returns no error exactly when the separators are `-`, `-`, `T`, `:` and `:`,
the offset is a sign and four digits `hhmm` with `hh ≤ 24` and `mm ≤ 60`, the
month is in `1..12`, the day in `1..28`, `29`, `30` or `31` as the month and
the leap year rule allow, the hour below 24 and minute and second below 60:
so it returns an error for the offset `Z`, for an offset that is not numeric
and for a missing or different separator. -/
theorem suriTime_unmarshal_errors (t0 : Time) (y mo d h mi s micro : Nat)
    (w1 w2 w3 w4 w5 zone : Str)
    (hy : y < 10000) (hmo : mo < 100) (hd : d < 100) (hh : h < 100) (hmi : mi < 100)
    (hs : s < 100) (hmic : micro < 1000000)
    (l1 : w1.length ≤ 1) (l2 : w2.length ≤ 1) (l3 : w3.length ≤ 1) (l4 : w4.length ≤ 1)
    (l5 : w5.length ≤ 1)
    (hp : ∀ c ∈ w1 ++ w2 ++ w3 ++ w4 ++ w5 ++ zone, c ≠ '"' ∧ c ≠ '\\' ∧ c ≠ '\n')
    (hz : ∀ c, zone.head? = some c → isDigitChar c = false ∧ c ≠ '.' ∧ c ≠ ',') :
    ((suriTime.UnmarshalJSON t0
        ('"' :: (stampShape y mo d h mi s micro w1 w2 w3 w4 w5 zone ++ ['"']))).2 = none ↔
      (w1 = ['-'] ∧ w2 = ['-'] ∧ w3 = ['T'] ∧ w4 = [':'] ∧ w5 = [':'] ∧
        (∃ (neg : Bool) (zh zm : Nat), zh ≤ 24 ∧ zm ≤ 60 ∧
          zone = [if neg then '-' else '+', digitChar (zh / 10), digitChar (zh % 10),
            digitChar (zm / 10), digitChar (zm % 10)]) ∧
        1 ≤ mo ∧ mo ≤ 12 ∧ 1 ≤ d ∧
        d ≤ (if mo = 2 then (if y % 4 = 0 ∧ (y % 100 ≠ 0 ∨ y % 400 = 0) then 29 else 28)
          else if mo = 4 ∨ mo = 6 ∨ mo = 9 ∨ mo = 11 then 30 else 31) ∧
        h < 24 ∧ mi < 60 ∧ s < 60)) ∧
    (∀ b : Str, b.head? ≠ some '"' → b.head? ≠ some '\'' → b.head? ≠ some '`' →
      suriTime.UnmarshalJSON t0 b = (t0, some .quoteSyntax)) := by
  constructor
  · rw [suriTime_Unmarshal_ok t0 _ _ (Unquote_plain _
      (stampShape_plain y mo d h mi s micro w1 w2 w3 w4 w5 zone hy hmo hd hh hmi hs hp)),
      Parse_stampShape_iff y mo d h mi s micro w1 w2 w3 w4 w5 zone hy hmo hd hh hmi hs hmic
        l1 l2 l3 l4 l5 (fun c hc => ⟨(hz c hc).1, by
          have h2 := (hz c hc).2
          simp [commaOrPeriod, h2.1, h2.2]⟩)]
    constructor
    · rintro ⟨a1, a2, a3, a4, a5, hzf, m1, m2, d1, d2, r⟩
      rw [daysIn_explicit mo y m1 m2] at d2
      exact ⟨a1, a2, a3, a4, a5, hzf, m1, m2, d1, d2, r⟩
    · rintro ⟨a1, a2, a3, a4, a5, hzf, m1, m2, d1, d2, r⟩
      rw [← daysIn_explicit mo y m1 m2] at d2
      exact ⟨a1, a2, a3, a4, a5, hzf, m1, m2, d1, d2, r⟩
  · intro b h1 h2 h3
    unfold suriTime.UnmarshalJSON
    rw [Unquote_unquoted b h1 h2 h3]

theorem suriTime_unmarshal_errors_witness :
    (suriTime.UnmarshalJSON zeroTime
      ('"' :: ("2016-02-29T06:54:10.839668+0000".toList ++ ['"']))).2 = none ∧
    (suriTime.UnmarshalJSON zeroTime
      ('"' :: ("2017-02-29T06:54:10.839668+0000".toList ++ ['"']))).2 ≠ none ∧
    (suriTime.UnmarshalJSON zeroTime
      ('"' :: ("2017-03-06T06:54:10.839668Z".toList ++ ['"']))).2 ≠ none ∧
    (suriTime.UnmarshalJSON zeroTime
      ('"' :: ("2017-03-06T06:54:10.839668+01:00".toList ++ ['"']))).2 ≠ none ∧
    (suriTime.UnmarshalJSON zeroTime
      ('"' :: ("2017-03-06 06:54:10.839668+0000".toList ++ ['"']))).2 ≠ none ∧
    (suriTime.UnmarshalJSON zeroTime
      ('"' :: ("20170306T065410+0000".toList ++ ['"']))).2 ≠ none := by
  have hz : ∀ (z : Char) (r : Str), isDigitChar z = false ∧ z ≠ '.' ∧ z ≠ ',' →
      ∀ c, (z :: r).head? = some c → isDigitChar c = false ∧ c ≠ '.' ∧ c ≠ ',' := by
    intro z r h c hc
    simp only [List.head?_cons, Option.some.injEq] at hc
    rw [← hc]
    exact h
  refine ⟨?_, ?_, ?_, ?_, ?_, ?_⟩
  · exact (suriTime_unmarshal_errors zeroTime 2016 2 29 6 54 10 839668 ['-'] ['-'] ['T'] [':']
      [':'] ['+', '0', '0', '0', '0'] (by decide) (by decide) (by decide) (by decide)
      (by decide) (by decide) (by decide) (by decide) (by decide) (by decide) (by decide)
      (by decide) (by decide) (hz _ _ (by decide))).1.2
      ⟨rfl, rfl, rfl, rfl, rfl, ⟨false, 0, 0, by decide, by decide, rfl⟩, by decide⟩
  · intro h
    have := ((suriTime_unmarshal_errors zeroTime 2017 2 29 6 54 10 839668 ['-'] ['-'] ['T'] [':']
      [':'] ['+', '0', '0', '0', '0'] (by decide) (by decide) (by decide) (by decide)
      (by decide) (by decide) (by decide) (by decide) (by decide) (by decide) (by decide)
      (by decide) (by decide) (hz _ _ (by decide))).1.1 h).2.2.2.2.2.2.2.2.2.1
    revert this
    decide
  · intro h
    obtain ⟨_, _, _, hzf, _⟩ := ((suriTime_unmarshal_errors zeroTime 2017 3 6 6 54 10 839668
      ['-'] ['-'] ['T'] [':'] [':'] ['Z'] (by decide) (by decide) (by decide) (by decide)
      (by decide) (by decide) (by decide) (by decide) (by decide) (by decide) (by decide)
      (by decide) (by decide) (hz _ _ (by decide))).1.1 h).2.2
    obtain ⟨_, _, _, _, _, e⟩ := hzf
    exact absurd (congrArg List.length e) (by simp)
  · intro h
    obtain ⟨_, _, _, hzf, _⟩ := ((suriTime_unmarshal_errors zeroTime 2017 3 6 6 54 10 839668
      ['-'] ['-'] ['T'] [':'] [':'] ['+', '0', '1', ':', '0', '0'] (by decide) (by decide)
      (by decide) (by decide) (by decide) (by decide) (by decide) (by decide) (by decide)
      (by decide) (by decide) (by decide) (by decide) (hz _ _ (by decide))).1.1 h).2.2
    obtain ⟨_, _, _, _, _, e⟩ := hzf
    exact absurd (congrArg List.length e) (by simp)
  · intro h
    have := ((suriTime_unmarshal_errors zeroTime 2017 3 6 6 54 10 839668 ['-'] ['-'] [' '] [':']
      [':'] ['+', '0', '0', '0', '0'] (by decide) (by decide) (by decide) (by decide)
      (by decide) (by decide) (by decide) (by decide) (by decide) (by decide) (by decide)
      (by decide) (by decide) (hz _ _ (by decide))).1.1 h).2.2.1
    revert this
    decide
  · intro h
    have := ((suriTime_unmarshal_errors zeroTime 2017 3 6 6 54 10 0 [] [] ['T'] []
      [] ['+', '0', '0', '0', '0'] (by decide) (by decide) (by decide) (by decide)
      (by decide) (by decide) (by decide) (by decide) (by decide) (by decide) (by decide)
      (by decide) (by decide) (hz _ _ (by decide))).1.1 h).1
    revert this
    decide

/-- C19, counterexample: an instant of the year 2017 with an offset of 100
hours is encoded with five digits after the sign of the offset. -/
theorem suriTime_offset_100h_text :
    ({ unix := 1488783250, nsec := 0, offset := 360000 } : Time).Year = 2017 ∧
    suriTime.MarshalJSON { unix := 1488783250, nsec := 0, offset := 360000 }
      = ('"' :: ("2017-03-10T10:54:10+10000".toList ++ ['"']), none) := by
  decide

/-- C19, amended: for every instant whose year is in `0..9999` and whose
offset is below 100 hours, `suriTime.MarshalJSON` writes, in double quotes,
the text `YYYY-MM-DDThh:mm:ss[.f]±hhmm` of its wall-clock reading, where `f`
is the six-digit text of its microseconds without the trailing zeros: at most
six digits, not ending in `0`, and with the `.` left out when the
microseconds are zero. -/
theorem suriTime_marshal_form (t : Time) (hn : t.nsec < 1000000000)
    (hlo : -62167219200 ≤ t.unix + t.offset) (hhi : t.unix + t.offset < 253402300800)
    (hoff : t.offset.natAbs < 360000) :
    (∃ y mo d h mi s zh zm : Nat, y ≤ 9999 ∧ 1 ≤ mo ∧ mo ≤ 12 ∧ 1 ≤ d ∧ d ≤ 31 ∧ h < 24 ∧
      mi < 60 ∧ s < 60 ∧ zh < 100 ∧ zm < 60 ∧
      suriTime.MarshalJSON t =
        ('"' :: (stampText y mo d h mi s (t.nsec / 1000) (decide (goDiv t.offset 60 < 0)) zh zm
          ++ ['"']), none)) ∧
    (fracList 6 (t.nsec / 1000)).length ≤ 6 ∧
    (∀ c ∈ fracList 6 (t.nsec / 1000), isDigitChar c = true) ∧
    (fracList 6 (t.nsec / 1000) = [] ↔ t.nsec / 1000 = 0) ∧
    (fracList 6 (t.nsec / 1000)).getLast? ≠ some '0' ∧
    valOf (fracList 6 (t.nsec / 1000)) 0 * 10 ^ (6 - (fracList 6 (t.nsec / 1000)).length)
      = t.nsec / 1000 := by
  have hmic : t.nsec / 1000 < 10 ^ 6 := by norm_num; omega
  obtain ⟨_, h0, h1⟩ := Time.abs_eq t hlo hhi
  obtain ⟨y0, y1, m0, m1, d0, d1, _⟩ := absDate_spec t.abs h0 h1
  obtain ⟨c1, c2, c3, _⟩ := absClock_spec t.abs
  have hd31 : daysIn (absDate t.abs).2.1 (absDate t.abs).1 ≤ 31 := by
    unfold daysIn
    generalize (absDate t.abs).2.1 = mo at *
    interval_cases mo <;> simp only [daysBefore] <;> split <;> simp
  refine ⟨⟨(absDate t.abs).1.toNat, (absDate t.abs).2.1, (absDate t.abs).2.2,
    (absClock t.abs).1, (absClock t.abs).2.1, (absClock t.abs).2.2,
    t.offset.natAbs / 60 / 60, t.offset.natAbs / 60 % 60, by omega, m0, m1, d0, by omega,
    c1, c2, c3, by omega, by omega, ?_⟩,
    fracList_length_le 6 _ hmic, isDigitChar_of_mem_fracList 6 _,
    fracList_eq_nil 6 _ hmic, ?_, valOf_fracList 6 _ hmic⟩
  · unfold suriTime.MarshalJSON
    rw [Format_eq_stampText t hn hlo hhi hoff]
    rfl
  · by_cases hz : t.nsec / 1000 = 0
    · rw [(fracList_eq_nil 6 _ hmic).2 hz]
      simp
    · exact fracList_last 6 _ hmic hz

theorem suriTime_marshal_form_witness :
    (∃ y mo d h mi s zh zm : Nat, y ≤ 9999 ∧ 1 ≤ mo ∧ mo ≤ 12 ∧ 1 ≤ d ∧ d ≤ 31 ∧ h < 24 ∧
      mi < 60 ∧ s < 60 ∧ zh < 100 ∧ zm < 60 ∧
      suriTime.MarshalJSON { unix := 1488783250, nsec := 839660000, offset := 3600 } =
        ('"' :: (stampText y mo d h mi s (839660000 / 1000)
          (decide (goDiv (3600 : Int) 60 < 0)) zh zm ++ ['"']), none)) ∧
    (fracList 6 (839660000 / 1000)).length ≤ 6 ∧
    (∀ c ∈ fracList 6 (839660000 / 1000), isDigitChar c = true) ∧
    (fracList 6 (839660000 / 1000) = [] ↔ 839660000 / 1000 = 0) ∧
    (fracList 6 (839660000 / 1000)).getLast? ≠ some '0' ∧
    valOf (fracList 6 (839660000 / 1000)) 0 *
      10 ^ (6 - (fracList 6 (839660000 / 1000)).length) = 839660000 / 1000 :=
  suriTime_marshal_form { unix := 1488783250, nsec := 839660000, offset := 3600 } (by decide)
    (by decide) (by decide) (by decide)

/-! ### Claims about the encodings of an event record -/

/-- C3: for every event record `e`, the object `EveOutEvent.MarshalJSON`
returns has exactly one member named `flow_id`; its value is the JSON string
of the base-10 text of `e.FlowID`, which `ParseInt` reads back, which starts
with `-` exactly when `FlowID` is negative, otherwise holds digits only, and
whose first digit is `0` only for `FlowID = 0`, where the text is `0`. -/
theorem outEvent_flow_id_string (e : GoVal) (h : (GoType.struct EveEvent).has e = true) :
    ∃ ms, EveOutEvent.MarshalJSON e = .ok (.obj ms) ∧
      ms.filter (fun m => m.1 == "flow_id".toList) =
        [("flow_id".toList, .str (FormatInt (FlowID e)))] ∧
      ParseInt (FormatInt (FlowID e)) = (FlowID e, none) ∧
      ((FormatInt (FlowID e)).head? = some '-' ↔ FlowID e < 0) ∧
      (∀ c ∈ (FormatInt (FlowID e)).drop (if FlowID e < 0 then 1 else 0),
        isDigitChar c = true) ∧
      (FlowID e ≠ 0 →
        ((FormatInt (FlowID e)).drop (if FlowID e < 0 then 1 else 0)).head? ≠ some '0') ∧
      (FlowID e = 0 → FormatInt (FlowID e) = ['0']) := by
  obtain ⟨vs, rfl, hvs⟩ := has_struct EveEvent e h
  obtain ⟨ms, hms, hout⟩ := outEvent_marshal vs hvs
  obtain ⟨_, hlo, hhi⟩ := flow_field vs hvs
  refine ⟨_, hout, ?_, ParseInt_FormatInt _ hlo hhi, ?_, ?_, ?_, ?_⟩
  · rw [List.filter_cons]
    simp only [beq_self_eq_true, if_true, outEvent_inner_flow vs ms hvs hms]
  · unfold FormatInt
    by_cases hn : FlowID (.struct vs) < 0
    · simp [hn]
    · rw [if_neg hn]
      simp only [hn, iff_false]
      intro hc
      have hd := isDigitChar_of_mem_decimal (FlowID (.struct vs)).natAbs '-'
        (List.mem_of_mem_head? hc)
      revert hd
      decide
  · unfold FormatInt
    by_cases hn : FlowID (.struct vs) < 0
    · simp only [hn, if_true, List.drop_succ_cons, List.drop_zero]
      exact isDigitChar_of_mem_decimal _
    · simp only [hn, if_false, List.drop_zero]
      exact isDigitChar_of_mem_decimal _
  · intro h0
    unfold FormatInt
    have hna : (FlowID (.struct vs)).natAbs ≠ 0 := by omega
    by_cases hn : FlowID (.struct vs) < 0
    · simp only [hn, if_true, List.drop_succ_cons, List.drop_zero]
      exact decimal_head _ hna
    · simp only [hn, if_false, List.drop_zero]
      exact decimal_head _ hna
  · intro h0
    rw [h0]
    decide

theorem outEvent_flow_id_string_witness :
    ∃ ms, EveOutEvent.MarshalJSON sampleEvent = .ok (.obj ms) ∧
      ms.filter (fun m => m.1 == "flow_id".toList) =
        [("flow_id".toList, .str (FormatInt (FlowID sampleEvent)))] ∧
      ParseInt (FormatInt (FlowID sampleEvent)) = (FlowID sampleEvent, none) ∧
      ((FormatInt (FlowID sampleEvent)).head? = some '-' ↔ FlowID sampleEvent < 0) ∧
      (∀ c ∈ (FormatInt (FlowID sampleEvent)).drop (if FlowID sampleEvent < 0 then 1 else 0),
        isDigitChar c = true) ∧
      (FlowID sampleEvent ≠ 0 →
        ((FormatInt (FlowID sampleEvent)).drop (if FlowID sampleEvent < 0 then 1 else 0)).head?
          ≠ some '0') ∧
      (FlowID sampleEvent = 0 → FormatInt (FlowID sampleEvent) = ['0']) :=
  outEvent_flow_id_string sampleEvent (by decide)

/-- C8: for every event record `e`, the members other than `flow_id` of the
object `EveOutEvent.MarshalJSON` returns are the members other than
`flow_id` of the canonical encoding of `e`: the same names with the same
values in the same order. -/
theorem outEvent_other_members (e : GoVal) (h : (GoType.struct EveEvent).has e = true) :
    ∃ ms ms', EveOutEvent.MarshalJSON e = .ok (.obj ms) ∧
      EveEvent.Marshal e = .ok (.obj ms') ∧
      ms.filter (fun m => m.1 != "flow_id".toList) =
        ms'.filter (fun m => m.1 != "flow_id".toList) := by
  obtain ⟨vs, rfl, hvs⟩ := has_struct EveEvent e h
  obtain ⟨ms, hms, hout⟩ := outEvent_marshal vs hvs
  obtain ⟨ms', hms', hcan⟩ := event_marshal vs hvs
  refine ⟨_, ms', hout, hcan, ?_⟩
  rw [List.filter_cons]
  simp only [bne_self_eq_false, Bool.false_eq_true, if_false]
  exact outEvent_others vs ms ms' hms hms'

theorem outEvent_other_members_witness :
    ∃ ms ms', EveOutEvent.MarshalJSON sampleEvent = .ok (.obj ms) ∧
      EveEvent.Marshal sampleEvent = .ok (.obj ms') ∧
      ms.filter (fun m => m.1 != "flow_id".toList) =
        ms'.filter (fun m => m.1 != "flow_id".toList) :=
  outEvent_other_members sampleEvent (by decide)

/-- C9, counterexample: for the zero event record, whose `FlowID` is 0, the
output-wrapper encoding has the member `flow_id` and the canonical encoding
has no such member. -/
theorem outEvent_zero_flow_id :
    EveOutEvent.MarshalJSON zeroEvent = .ok (.obj [("flow_id".toList, .str ['0']),
      ("timestamp".toList, .null), ("event_type".toList, .str [])]) ∧
    EveEvent.Marshal zeroEvent = .ok (.obj [("timestamp".toList, .null),
      ("event_type".toList, .str [])]) := by
  constructor <;> rfl

/-- C9, amended: for every event record `e`, the output-wrapper encoding and
the canonical encoding have the same members other than `flow_id`, in the
same order; the wrapper has exactly one member `flow_id`, the JSON string of
the text of `FlowID`; the canonical encoding has one member `flow_id`, the
JSON number of the same text, when `FlowID` is not 0, and none when it is 0. -/
theorem outEvent_differs_in_flow_id (e : GoVal) (h : (GoType.struct EveEvent).has e = true) :
    ∃ ms ms', EveOutEvent.MarshalJSON e = .ok (.obj ms) ∧
      EveEvent.Marshal e = .ok (.obj ms') ∧
      ms.filter (fun m => m.1 != "flow_id".toList) =
        ms'.filter (fun m => m.1 != "flow_id".toList) ∧
      ms.filter (fun m => m.1 == "flow_id".toList) =
        [("flow_id".toList, .str (FormatInt (FlowID e)))] ∧
      ms'.filter (fun m => m.1 == "flow_id".toList) =
        if FlowID e = 0 then [] else [("flow_id".toList, .num (FormatInt (FlowID e)))] := by
  obtain ⟨vs, rfl, hvs⟩ := has_struct EveEvent e h
  obtain ⟨ms, hms, hout⟩ := outEvent_marshal vs hvs
  obtain ⟨ms', hms', hcan⟩ := event_marshal vs hvs
  refine ⟨_, ms', hout, hcan, ?_, ?_, event_flow vs ms' hvs hms'⟩
  · rw [List.filter_cons]
    simp only [bne_self_eq_false, Bool.false_eq_true, if_false]
    exact outEvent_others vs ms ms' hms hms'
  · rw [List.filter_cons]
    simp only [beq_self_eq_true, if_true, outEvent_inner_flow vs ms hvs hms]

theorem outEvent_differs_in_flow_id_witness :
    ∃ ms ms', EveOutEvent.MarshalJSON (setFlowID zeroEvent 7) = .ok (.obj ms) ∧
      EveEvent.Marshal (setFlowID zeroEvent 7) = .ok (.obj ms') ∧
      ms.filter (fun m => m.1 != "flow_id".toList) =
        ms'.filter (fun m => m.1 != "flow_id".toList) ∧
      ms.filter (fun m => m.1 == "flow_id".toList) =
        [("flow_id".toList, .str (FormatInt (FlowID (setFlowID zeroEvent 7))))] ∧
      ms'.filter (fun m => m.1 == "flow_id".toList) =
        if FlowID (setFlowID zeroEvent 7) = 0 then []
        else [("flow_id".toList, .num (FormatInt (FlowID (setFlowID zeroEvent 7))))] :=
  outEvent_differs_in_flow_id (setFlowID zeroEvent 7) (by decide)

/-- C15, counterexample: the encoding of the zero event record, whose
`Timestamp` is not set, has the member `timestamp` with the value `null`,
which is not a JSON string; and the encoding of the record whose timestamp is
the first instant of the year 10000 has the member `timestamp` with a string
of a five-digit year, which is not in the sensor format. -/
theorem event_zero_timestamp_null :
    EveEvent.Marshal zeroEvent = .ok (.obj [("timestamp".toList, .null),
      ("event_type".toList, .str [])]) ∧
    EveEvent.Marshal (setTimestamp zeroEvent { unix := 253402300800, nsec := 0, offset := 0 })
      = .ok (.obj [("timestamp".toList, .str "10000-01-01T00:00:00+0000".toList),
        ("event_type".toList, .str [])]) :=
  ⟨rfl, rfl⟩

/-- C15, amended: the encoding of every event record has exactly one member
`timestamp` and exactly one member `event_type`; the latter is the JSON
string of `EventType`; the former is `null` when `Timestamp` is not set and
otherwise the JSON string of the text that `Time.Format` writes for it, and
when the year of the timestamp is in `0..9999` and its offset below 25 hours
that text has the sensor format `YYYY-MM-DDThh:mm:ss[.f]±hhmm` and
`suriTime.UnmarshalJSON` accepts it. -/
theorem event_mandatory_members (e : GoVal) (h : (GoType.struct EveEvent).has e = true) :
    ∃ ms vs ts ty, e = .struct vs ∧ vs.get? 0 = some (.time ts) ∧ vs.get? 1 = some (.str ty) ∧
      EveEvent.Marshal e = .ok (.obj ms) ∧
      ms.filter (fun m => m.1 == "timestamp".toList) =
        [("timestamp".toList, match ts with
          | none => .null
          | some t => .str t.Format)] ∧
      ms.filter (fun m => m.1 == "event_type".toList) =
        [("event_type".toList, .str ty)] ∧
      ∀ t, ts = some t → t.encodable →
        (∃ y mo d h mi s zh zm : Nat, y ≤ 9999 ∧ 1 ≤ mo ∧ mo ≤ 12 ∧ 1 ≤ d ∧ d ≤ 31 ∧ h < 24 ∧
          mi < 60 ∧ s < 60 ∧ zh ≤ 24 ∧ zm < 60 ∧
          t.Format = stampText y mo d h mi s (t.nsec / 1000)
            (decide (goDiv t.offset 60 < 0)) zh zm) ∧
        (suriTime.UnmarshalJSON zeroTime ('"' :: (t.Format ++ ['"']))).2 = none := by
  obtain ⟨vs, rfl, hvs⟩ := has_struct EveEvent e h
  obtain ⟨ms, hms, hcan⟩ := event_marshal vs hvs
  have hl := hasFields_length EveEvent vs hvs
  have l0 : 0 < vs.length := by rw [hl]; decide
  have l1 : 1 < vs.length := by rw [hl]; decide
  have g0 : vs.get? 0 = some (vs.get ⟨0, l0⟩) := List.get?_eq_get l0
  have g1 : vs.get? 1 = some (vs.get ⟨1, l1⟩) := List.get?_eq_get l1
  have f0 : EveEvent.get? 0 = some ("timestamp".toList, .plain, .suriTimePtr) := rfl
  have f1 : EveEvent.get? 1 = some ("event_type".toList, .plain, .string) := rfl
  have t0 := hasFields_get EveEvent vs hvs 0 _ _ f0 g0
  have t1 := hasFields_get EveEvent vs hvs 1 _ _ f1 g1
  have hc : ∀ n, n < 30 →
      ((typeFields EveEvent).map (fun f => f.index)).contains ([] ++ [0 + n]) = true := by
    rw [typeFields_EveEvent_index]
    decide
  obtain ⟨j0, hj0, m0⟩ := (marshalFields_filter_name _ [] EveEvent 0 vs ms EveEvent_regular hms
    0 _ _ _ _ f0 g0).1 ⟨hc 0 (by decide), Or.inl rfl⟩
  obtain ⟨j1, hj1, m1⟩ := (marshalFields_filter_name _ [] EveEvent 0 vs ms EveEvent_regular hms
    1 _ _ _ _ f1 g1).1 ⟨hc 1 (by decide), Or.inl rfl⟩
  generalize vs.get ⟨0, l0⟩ = v0 at *
  generalize vs.get ⟨1, l1⟩ = v1 at *
  cases v0 with
  | time ts =>
    cases v1 with
    | str ty =>
      refine ⟨ms, vs, ts, ty, rfl, g0, g1, hcan, ?_, ?_, ?_⟩
      · rw [m0]
        cases ts with
        | none =>
          rw [marshalVal] at hj0
          simp only [Except.ok.injEq] at hj0
          rw [← hj0]
        | some t =>
          rw [marshalVal] at hj0
          have hm : suriTime.MarshalJSON t = ((suriTime.MarshalJSON t).1, none) := rfl
          rw [hm] at hj0
          simp only [jsonOfRaw_Format, Except.ok.injEq] at hj0
          rw [← hj0]
      · rw [m1]
        rw [marshalVal] at hj1
        simp only [Except.ok.injEq] at hj1
        rw [← hj1]
      · intro t _ ht
        exact ⟨Format_form t ht, by
          have := suriTime_roundtrip t zeroTime ht
          unfold suriTime.MarshalJSON at this
          simp only [List.singleton_append, List.cons_append, List.nil_append] at this
          rw [this]⟩
    | _ => simp [GoType.has] at t1
  | _ => simp [GoType.has] at t0

theorem event_mandatory_members_witness :
    ∃ ms vs ts ty,
      setTimestamp zeroEvent { unix := 1488783250, nsec := 839668000, offset := 0 }
        = .struct vs ∧
      vs.get? 0 = some (.time ts) ∧ vs.get? 1 = some (.str ty) ∧
      EveEvent.Marshal
        (setTimestamp zeroEvent { unix := 1488783250, nsec := 839668000, offset := 0 })
        = .ok (.obj ms) ∧
      ms.filter (fun m => m.1 == "timestamp".toList) =
        [("timestamp".toList, match ts with
          | none => .null
          | some t => .str t.Format)] ∧
      ms.filter (fun m => m.1 == "event_type".toList) =
        [("event_type".toList, .str ty)] ∧
      ∀ t, ts = some t → t.encodable →
        (∃ y mo d h mi s zh zm : Nat, y ≤ 9999 ∧ 1 ≤ mo ∧ mo ≤ 12 ∧ 1 ≤ d ∧ d ≤ 31 ∧ h < 24 ∧
          mi < 60 ∧ s < 60 ∧ zh ≤ 24 ∧ zm < 60 ∧
          t.Format = stampText y mo d h mi s (t.nsec / 1000)
            (decide (goDiv t.offset 60 < 0)) zh zm) ∧
        (suriTime.UnmarshalJSON zeroTime ('"' :: (t.Format ++ ['"']))).2 = none :=
  event_mandatory_members
    (setTimestamp zeroEvent { unix := 1488783250, nsec := 839668000, offset := 0 })
    (by decide)
/-- C7, counterexample: the object `{"src_port": 0}` is decoded without
error, and the encoding of the record has the members `timestamp` and
`event_type`, which the object did not have, and no member `src_port`. -/
theorem event_zero_member_dropped :
    (EveEvent.Unmarshal (.obj [("src_port".toList, .num ['0'])]) zeroEvent).2 = none ∧
    EveEvent.Marshal (EveEvent.Unmarshal (.obj [("src_port".toList, .num ['0'])]) zeroEvent).1
      = .ok (.obj [("timestamp".toList, .null), ("event_type".toList, .str [])]) := by
  constructor
  · decide
  · rfl

/-- C7, amended: let `J` be an object whose members have distinct names, each
the name of a field of the record, and values in the form the encoder writes
for a value of the type of the field (a value that is read back unchanged).
Decoding `J` into a new record returns no error, and the encoding of the
decoded record has only members named after fields; a member of `J` is in the
encoding, once and with the value it has in `J`, when it is `timestamp` or
`event_type` or its value is not one of `null`, `false`, `0`, `""`, `[]`, and
otherwise the encoding has no member of that name; and for a field that `J`
has no member for, the encoding has the member `timestamp` with the value
`null`, the member `event_type` with the value `""`, and no member for any
other field. -/
theorem event_members_of_input (ms : List (Str × JSON))
    (hnd : (ms.map (fun m => m.1)).Nodup)
    (hval : ∀ m ∈ ms, ∃ n kind t v, EveEvent.get? n = some (m.1, kind, t) ∧ t.has v = true ∧
      v.timesOK = true ∧ t.stable v = true ∧ marshalVal t v = .ok m.2) :
    (EveEvent.Unmarshal (.obj ms) zeroEvent).2 = none ∧
    ∃ out, EveEvent.Marshal (EveEvent.Unmarshal (.obj ms) zeroEvent).1 = .ok (.obj out) ∧
      (∀ m ∈ out, m.1 ∈ EveEvent.map (fun x => x.1)) ∧
      (∀ m ∈ ms, out.filter (fun x => x.1 == m.1) =
        if m.1 = "timestamp".toList ∨ m.1 = "event_type".toList ∨ m.2.isZero = false
        then [m] else []) ∧
      (∀ k ∈ EveEvent.map (fun x => x.1), k ∉ ms.map (fun m => m.1) →
        out.filter (fun x => x.1 == k) =
          if k = "timestamp".toList then [(k, .null)]
          else if k = "event_type".toList then [(k, .str [])] else []) := by
  have hzero : zeroEvent = .struct (zeroFields EveEvent) := by
    unfold zeroEvent
    rw [GoType.zero]
  have hdecv : ∀ m ∈ ms, ∀ n kind t, EveEvent.get? n = some (m.1, kind, t) →
      ∃ v, t.has v = true ∧ marshalVal t v = .ok m.2 ∧
        decodeValue t m.2 t.zero = { val := v, saved := none, fatal := none } := by
    intro m hm n kind t hn
    obtain ⟨n', kind', t', v, hn', hh, ht, hs, hmv⟩ := hval m hm
    have e := regularFields_get_inj EveEvent EveEvent_regular n n' _ _ hn hn' rfl
    subst e
    rw [hn] at hn'
    simp only [Option.some.injEq, Prod.mk.injEq, true_and] at hn'
    obtain ⟨_, rfl⟩ := hn'
    refine ⟨v, hh, hmv, ?_⟩
    rw [decodeValue_roundtrip t (regularFields_typ EveEvent EveEvent_regular _
      (List.get?_mem hn)) v m.2 hh ht hmv, norm_stable t v hh hs]
  obtain ⟨st', hdec, hmem, hframe⟩ := decodeMembers_distinct EveEvent EveEvent_regular ms
    (zeroFields EveEvent) hnd (by
      intro m hm
      obtain ⟨n, kind, t, v, hn, _⟩ := hval m hm
      obtain ⟨v', _, _, hd⟩ := hdecv m hm n kind t hn
      exact ⟨n, kind, t, hn, zeroFields_get EveEvent n _ kind t hn, by rw [hd], by rw [hd]⟩)
  have hU : EveEvent.Unmarshal (.obj ms) zeroEvent = (.struct st', none) := by
    unfold EveEvent.Unmarshal Fever.Unmarshal
    rw [hzero]
    simp only [decodeValue, hdec]
    rfl
  have hhas : hasFields EveEvent st' = true := by
    have := event_decode_has (.obj ms) zeroEvent zeroEvent_has
    rw [hU] at this
    simpa [GoType.has] using this
  rw [hU]
  refine ⟨rfl, ?_⟩
  obtain ⟨out, hout, hcan⟩ := event_marshal st' hhas
  refine ⟨out, hcan, ?_, ?_, ?_⟩
  · intro m hm
    obtain ⟨f, hf, e⟩ := marshalFields_keys _ [] EveEvent 0 st' out
      (fun f hf => (EveEvent_kinds f hf).2.1) hout m hm
    exact List.mem_map.2 ⟨f, hf, e⟩
  · intro m hm
    obtain ⟨n, kind, t, v0, hn, _⟩ := hval m hm
    obtain ⟨v, hh, hmv, hd⟩ := hdecv m hm n kind t hn
    have hg : st'.get? n = some v := by rw [hmem m hm n kind t hn, hd]
    have hfn := marshalFields_filter_name _ [] EveEvent 0 st' out EveEvent_regular hout
      n m.1 kind t v hn hg
    have hc := typeFields_contains EveEvent EveEvent_regular n _ hn
    have hz := marshal_isZero t v m.2
      (regularFields_typ EveEvent EveEvent_regular _ (List.get?_mem hn)) hh hmv
    have hk := (EveEvent_kinds _ (List.get?_mem hn)).1
    simp only at hk
    have hiff : (kind = .plain ∨ isEmptyValue v = false) ↔
        (m.1 = "timestamp".toList ∨ m.1 = "event_type".toList ∨ m.2.isZero = false) := by
      rw [hz, hk, or_assoc]
    by_cases hp : kind = .plain ∨ isEmptyValue v = false
    · obtain ⟨j', hj', hfl⟩ := hfn.1 ⟨by simpa using hc, hp⟩
      rw [hmv] at hj'
      simp only [Except.ok.injEq] at hj'
      rw [hfl, if_pos (hiff.1 hp), ← hj']
    · rw [hfn.2 (fun q => hp q.2), if_neg (fun q => hp (hiff.2 q))]
  · intro k hk hnot
    obtain ⟨x, hx, rfl⟩ := List.mem_map.1 hk
    obtain ⟨n, hn⟩ := List.get?_of_mem hx
    obtain ⟨name, kind, t⟩ := x
    have hg : st'.get? n = some t.zero := by
      rw [hframe n _ hn hnot]
      exact zeroFields_get EveEvent n name kind t hn
    have hfn := marshalFields_filter_name _ [] EveEvent 0 st' out EveEvent_regular hout
      n name kind t t.zero hn hg
    have hc := typeFields_contains EveEvent EveEvent_regular n _ hn
    obtain ⟨hk1, _, hk3⟩ := EveEvent_kinds _ (List.get?_mem hn)
    simp only at hk1 hk3 ⊢
    have f0 : EveEvent.get? 0 = some ("timestamp".toList, .plain, .suriTimePtr) := rfl
    have f1 : EveEvent.get? 1 = some ("event_type".toList, .plain, .string) := rfl
    by_cases h0 : name = "timestamp".toList
    · subst h0
      have e := regularFields_get_inj EveEvent EveEvent_regular n 0 _ _ hn f0 rfl
      subst e
      rw [f0] at hn
      simp only [Option.some.injEq, Prod.mk.injEq, true_and] at hn
      obtain ⟨rfl, rfl⟩ := hn
      obtain ⟨j', hj', hfl⟩ := hfn.1 ⟨by simpa using hc, Or.inl rfl⟩
      have e2 : marshalVal .suriTimePtr (GoType.zero .suriTimePtr) = .ok .null := rfl
      rw [e2] at hj'
      simp only [Except.ok.injEq] at hj'
      rw [hfl, if_pos rfl, ← hj']
    · by_cases h1 : name = "event_type".toList
      · subst h1
        have e := regularFields_get_inj EveEvent EveEvent_regular n 1 _ _ hn f1 rfl
        subst e
        rw [f1] at hn
        simp only [Option.some.injEq, Prod.mk.injEq, true_and] at hn
        obtain ⟨rfl, rfl⟩ := hn
        obtain ⟨j', hj', hfl⟩ := hfn.1 ⟨by simpa using hc, Or.inl rfl⟩
        have e2 : marshalVal .string (GoType.zero .string) = .ok (.str []) := rfl
        rw [e2] at hj'
        simp only [Except.ok.injEq] at hj'
        rw [hfl, if_neg h0, if_pos rfl, ← hj']
      · have hnp : kind ≠ .plain := fun e => by
          rcases hk1.1 e with q | q
          · exact h0 q
          · exact h1 q
        have hemp : isEmptyValue t.zero = true := by
          rcases hk3 with q | q
          · exact absurd q hnp
          · exact q
        rw [hfn.2 (fun q => by
          rcases q.2 with r | r
          · exact hnp r
          · rw [hemp] at r
            exact absurd r (by simp)), if_neg h0, if_neg h1]

theorem event_members_of_input_witness :
    (EveEvent.Unmarshal (.obj [("timestamp".toList, .str "2017-03-06T06:54:10.839668+0000".toList),
      ("src_port".toList, .num ['0']), ("dest_port".toList, .num "53".toList),
      ("proto".toList, .str []), ("event_type".toList, .str "dns".toList)]) zeroEvent).2 = none ∧
    ∃ out, EveEvent.Marshal (EveEvent.Unmarshal (.obj [("timestamp".toList, .str "2017-03-06T06:54:10.839668+0000".toList),
      ("src_port".toList, .num ['0']), ("dest_port".toList, .num "53".toList),
      ("proto".toList, .str []), ("event_type".toList, .str "dns".toList)]) zeroEvent).1 = .ok (.obj out) ∧
      out.filter (fun x => x.1 == "timestamp".toList)
        = [("timestamp".toList, .str "2017-03-06T06:54:10.839668+0000".toList)] ∧
      out.filter (fun x => x.1 == "src_port".toList) = [] ∧
      out.filter (fun x => x.1 == "dest_port".toList)
        = [("dest_port".toList, .num "53".toList)] ∧
      out.filter (fun x => x.1 == "proto".toList) = [] ∧
      out.filter (fun x => x.1 == "event_type".toList)
        = [("event_type".toList, .str "dns".toList)] ∧
      out.filter (fun x => x.1 == "flow_id".toList) = [] := by
  obtain ⟨h1, out, h2, _, h4, h5⟩ := event_members_of_input [("timestamp".toList, .str "2017-03-06T06:54:10.839668+0000".toList),
      ("src_port".toList, .num ['0']), ("dest_port".toList, .num "53".toList),
      ("proto".toList, .str []), ("event_type".toList, .str "dns".toList)]
    (by decide) (by
      intro m hm
      simp only [List.mem_cons, List.mem_singleton, List.not_mem_nil, or_false] at hm
      rcases hm with rfl | rfl | rfl | rfl | rfl
      · exact ⟨0, .plain, .suriTimePtr,
          .time (some { unix := 1488783250, nsec := 839668000, offset := 0 }), rfl,
          by decide, by decide, by decide, rfl⟩
      · exact ⟨5, .omitempty, .int, .int 0, rfl, by decide, by decide, by decide, rfl⟩
      · exact ⟨8, .omitempty, .int, .int 53, rfl, by decide, by decide, by decide, rfl⟩
      · exact ⟨10, .omitempty, .string, .str [], rfl, by decide, by decide, by decide, rfl⟩
      · exact ⟨1, .plain, .string, .str "dns".toList, rfl, by decide, by decide, by decide,
          rfl⟩)
  refine ⟨h1, out, h2, ?_, ?_, ?_, ?_, ?_, ?_⟩
  · exact (h4 _ (List.mem_cons_self _ _)).trans (if_pos (by decide))
  · exact (h4 _ (List.mem_cons_of_mem _ (List.mem_cons_self _ _))).trans (if_neg (by decide))
  · exact (h4 _ (List.mem_cons_of_mem _ (List.mem_cons_of_mem _
      (List.mem_cons_self _ _)))).trans (if_pos (by decide))
  · exact (h4 _ (List.mem_cons_of_mem _ (List.mem_cons_of_mem _ (List.mem_cons_of_mem _
      (List.mem_cons_self _ _))))).trans (if_neg (by decide))
  · exact (h4 _ (List.mem_cons_of_mem _ (List.mem_cons_of_mem _ (List.mem_cons_of_mem _
      (List.mem_cons_of_mem _ (List.mem_cons_self _ _)))))).trans (if_pos (by decide))
  · exact (h5 "flow_id".toList (by decide) (by decide)).trans
      ((if_neg (by decide)).trans (if_neg (by decide)))
/-! ### Claims about the decoding of an event record -/

/-- C14, counterexample: `Timestamp` is not one of the field names of the
record, the empty object is decoded without error, and the empty object
extended with a member `Timestamp` is not: the member is decoded into the
field `timestamp`. -/
theorem event_key_case_folded :
    "Timestamp".toList ∉ EveEvent.map (fun x => x.1) ∧
    (EveEvent.Unmarshal (.obj []) zeroEvent).2 = none ∧
    (EveEvent.Unmarshal (.obj [("Timestamp".toList, .num ['5'])]) zeroEvent).2
      = some .quoteSyntax := by
  decide

/-- C14, amended: for every member name `k` that is not a field name of the
record even up to the case of its letters, decoding an object with a member
`k` of any value anywhere in it returns the record and the error that
decoding the object without that member returns. -/
theorem event_unknown_key_ignored (ms1 ms2 : List (Str × JSON)) (k : Str) (v : JSON)
    (e0 : GoVal) (hk : ∀ x ∈ EveEvent, foldName x.1 ≠ foldName k) :
    EveEvent.Unmarshal (.obj (ms1 ++ (k, v) :: ms2)) e0 =
      EveEvent.Unmarshal (.obj (ms1 ++ ms2)) e0 := by
  have hnone : findField (typeFields EveEvent) k = none := by
    apply findField_none
    intro f hf
    obtain ⟨x, hx, e⟩ := typeFields_names EveEvent EveEvent_regular f hf
    rw [← e]
    exact hk x hx
  unfold EveEvent.Unmarshal Fever.Unmarshal
  simp only [decodeValue, decodeMembers_insert_skip _ k v ms2 hnone ms1]

theorem event_unknown_key_ignored_witness :
    EveEvent.Unmarshal (.obj ([("event_type".toList, .str "dns".toList)] ++
        ("community_id".toList, .num ['1']) :: [("src_port".toList, .num "53".toList)]))
        zeroEvent =
      EveEvent.Unmarshal (.obj ([("event_type".toList, .str "dns".toList)] ++
        [("src_port".toList, .num "53".toList)])) zeroEvent :=
  event_unknown_key_ignored _ _ "community_id".toList _ zeroEvent (by decide)

/-- C5, failing input: on the record `{"flow_id": "abc"}`, which without the
member `flow_id` is decoded without error, `UnmarshalJSON` returns an error
and leaves the receiver as it is: its `FlowID`, 7 before the call, is 7
afterwards and not 0. -/
theorem flow_id_text_rejected :
    (EveOutEvent.UnmarshalJSON (setFlowID zeroEvent 7) (.obj [])).2 = none ∧
    (EveOutEvent.UnmarshalJSON (setFlowID zeroEvent 7)
      (.obj [("flow_id".toList, .str "abc".toList)])).2 ≠ none ∧
    FlowID (EveOutEvent.UnmarshalJSON (setFlowID zeroEvent 7)
      (.obj [("flow_id".toList, .str "abc".toList)])).1 = 7 := by
  decide

/-- The same for every record: when a record that is decoded without error
without its member `flow_id` has a member `flow_id` that is a JSON string and
not a JSON number literal, `UnmarshalJSON` returns an error and `FlowID`
keeps the value the receiver had. -/
theorem flow_id_text_error (e : GoVal) (ms1 ms2 : List (Str × JSON)) (s : Str)
    (he : (GoType.struct EveEvent).has e = true) (hs : isValidNumber s = false)
    (hvalid : (EveOutEvent.UnmarshalJSON e (.obj (ms1 ++ ms2))).2 = none) :
    (EveOutEvent.UnmarshalJSON e
      (.obj (ms1 ++ ("flow_id".toList, .str s) :: ms2))).2 ≠ none ∧
    FlowID (EveOutEvent.UnmarshalJSON e
      (.obj (ms1 ++ ("flow_id".toList, .str s) :: ms2))).1 = FlowID e := by
  have hv := UnmarshalJSON_noerr e _ hvalid
  obtain ⟨f, hf, hi, ht⟩ := inStruct_find_flow
  have h1 : (decodeMembers (typeFields inStruct) ms1 [e, .num []]).2.2 = none := by
    cases h : (decodeMembers (typeFields inStruct) ms1 [e, .num []]).2.2 with
    | none => rfl
    | some err =>
      rw [decodeMembers_append_fatal _ ms2 ms1 _ err h] at hv
      rw [Prod.ext_iff] at hv
      rw [hv.2] at h
      exact absurd h (by simp)
  have hfat : ∀ cur, (decodeValue f.typ (.str s) cur).fatal = some .invalidNumber := by
    intro cur
    rw [ht]
    simp [decodeValue, hs]
  have herr : (EveOutEvent.UnmarshalJSON e
      (.obj (ms1 ++ ("flow_id".toList, .str s) :: ms2))).2 = some .invalidNumber := by
    rw [UnmarshalJSON_err e _ .invalidNumber]
    rw [decodeMembers_append_ok _ _ ms1 _ h1, decodeMembers_stop _ _ _ _ _ f _ hf (hfat _)]
    rfl
  exact ⟨by rw [herr]; simp, UnmarshalJSON_failed_FlowID e _ he (by rw [herr]; simp)⟩

/-- C6, failing input: a `flow_id` outside the range of `int64` sets `FlowID`
to the largest or smallest `int64`, not to 0; a fraction and an exponent form
set it to 0. -/
theorem flow_id_out_of_range :
    (FlowID (EveOutEvent.UnmarshalJSON zeroEvent
        (.obj [("flow_id".toList, .num "9223372036854775808".toList)])).1,
      (EveOutEvent.UnmarshalJSON zeroEvent
        (.obj [("flow_id".toList, .num "9223372036854775808".toList)])).2)
      = (9223372036854775807, none) ∧
    (FlowID (EveOutEvent.UnmarshalJSON zeroEvent
        (.obj [("flow_id".toList, .num "-9223372036854775809".toList)])).1,
      (EveOutEvent.UnmarshalJSON zeroEvent
        (.obj [("flow_id".toList, .num "-9223372036854775809".toList)])).2)
      = (-9223372036854775808, none) ∧
    (FlowID (EveOutEvent.UnmarshalJSON zeroEvent
        (.obj [("flow_id".toList, .num "1.5".toList)])).1,
      (EveOutEvent.UnmarshalJSON zeroEvent
        (.obj [("flow_id".toList, .num "1.5".toList)])).2) = (0, none) ∧
    (FlowID (EveOutEvent.UnmarshalJSON zeroEvent
        (.obj [("flow_id".toList, .num "1e3".toList)])).1,
      (EveOutEvent.UnmarshalJSON zeroEvent
        (.obj [("flow_id".toList, .num "1e3".toList)])).2) = (0, none) := by
  decide

/-- C4, counterexample: the record `{"flow_id": 5, "FLOW_ID": 7}` has the
member `flow_id` with the bare number 5 and is decoded without error when
that member is left out; `UnmarshalJSON` returns no error on it and sets
`FlowID` to 7, the number of the later member `FLOW_ID`, which the decoder
takes for `flow_id`. -/
theorem flow_id_number_overridden :
    (EveOutEvent.UnmarshalJSON zeroEvent (.obj [("FLOW_ID".toList, .num ['7'])])).2 = none ∧
    (FlowID (EveOutEvent.UnmarshalJSON zeroEvent
        (.obj [("flow_id".toList, .num ['5']), ("FLOW_ID".toList, .num ['7'])])).1,
      (EveOutEvent.UnmarshalJSON zeroEvent
        (.obj [("flow_id".toList, .num ['5']), ("FLOW_ID".toList, .num ['7'])])).2)
      = (7, none) := by
  decide

/-- C4, amended: for every signed 64-bit integer `F` and every record that is
decoded without error when its member `flow_id` is left out, and that has no
other member of that name up to the case of its letters, `UnmarshalJSON`
applied to the record with the member `flow_id` being the bare JSON number
`F` returns no error and sets `FlowID` to `F`. -/
theorem flow_id_number_accepted (e : GoVal) (F : Int) (ms1 ms2 : List (Str × JSON))
    (he : (GoType.struct EveEvent).has e = true)
    (hlo : -9223372036854775808 ≤ F) (hhi : F ≤ 9223372036854775807)
    (hno : ∀ m ∈ ms1 ++ ms2, foldName m.1 ≠ foldName "flow_id".toList)
    (hvalid : (EveOutEvent.UnmarshalJSON e (.obj (ms1 ++ ms2))).2 = none) :
    (EveOutEvent.UnmarshalJSON e
      (.obj (ms1 ++ ("flow_id".toList, .num (FormatInt F)) :: ms2))).2 = none ∧
    FlowID (EveOutEvent.UnmarshalJSON e
      (.obj (ms1 ++ ("flow_id".toList, .num (FormatInt F)) :: ms2))).1 = F := by
  obtain ⟨vs, rfl, hvs⟩ := has_struct EveEvent e he
  have hl : vs.length = 30 := hasFields_length EveEvent vs hvs
  have hv := UnmarshalJSON_noerr _ _ hvalid
  obtain ⟨f, hf, hi, ht⟩ := inStruct_find_flow
  have h1 : (decodeMembers (typeFields inStruct) ms1 [.struct vs, .num []]).2.2 = none := by
    cases h : (decodeMembers (typeFields inStruct) ms1 [.struct vs, .num []]).2.2 with
    | none => rfl
    | some err =>
      rw [decodeMembers_append_fatal _ ms2 ms1 _ err h] at hv
      rw [Prod.ext_iff] at hv
      rw [hv.2] at h
      exact absurd h (by simp)
  rw [decodeMembers_append_ok _ ms2 ms1 _ h1] at hv
  simp only [Prod.mk.injEq] at hv
  obtain ⟨r1, hr1, hl1⟩ := inStruct_inv (fun r => r.length = 30) [] ms1
    (fun m _ f n kind _ _ _ _ _ r hr => by simpa using hr)
    (fun m hm => hno m (List.mem_append_left _ hm)) vs hl
  rw [hr1] at hv
  have hs1 : (decodeMembers (typeFields inStruct) ms1 [.struct vs, .num []]).2.1 = none := by
    cases h : (decodeMembers (typeFields inStruct) ms1 [.struct vs, .num []]).2.1 with
    | none => rfl
    | some err => rw [h] at hv; simp at hv
  have hval : ∀ cur, decodeValue f.typ (.num (FormatInt F)) cur = { val := .num (FormatInt F) } := by
    intro cur
    rw [ht]
    simp [decodeValue]
  obtain ⟨r2, hr2, hl2⟩ := inStruct_inv (fun r => r.length = 30) (FormatInt F) ms2
    (fun m _ f n kind _ _ _ _ _ r hr => by simpa using hr)
    (fun m hm => hno m (List.mem_append_right _ hm)) r1 hl1
  have herr := decodeMembers_errors (typeFields inStruct) ms2
    (fun m _ t v v' => decodeValue_errors m.2 t v v')
    [.struct r1, .num (FormatInt F)] [.struct r1, .num []]
  have hs2 : (decodeMembers (typeFields inStruct) ms2 [.struct r1, .num (FormatInt F)]).2
      = (none, none) := by
    rw [herr, Prod.ext_iff]
    refine ⟨?_, hv.2⟩
    rw [hs1] at hv
    cases h : (decodeMembers (typeFields inStruct) ms2 [.struct r1, .num []]).2.1 with
    | none => rfl
    | some err => rw [h] at hv; simp at hv
  have hst : setAt f.index (GoVal.num (FormatInt F)) [.struct r1, .num []]
      = [.struct r1, .num (FormatInt F)] := by
    rw [hi]
    rfl
  have hall : decodeMembers (typeFields inStruct)
      (ms1 ++ ("flow_id".toList, .num (FormatInt F)) :: ms2) [.struct vs, .num []]
      = ([.struct r2, .num (FormatInt F)], none, none) := by
    rw [decodeMembers_append_ok _ _ ms1 _ h1, hr1,
      decodeMembers_step _ _ _ _ _ f hf (by rw [hval])]
    simp only [hval, hst, hr2, hs1]
    rw [Prod.ext_iff] at hs2
    simp only at hs2
    rw [hs2.1, hs2.2]
    rfl
  rw [UnmarshalJSON_ok _ _ _ _ hall, ParseInt_FormatInt F hlo hhi]
  exact ⟨rfl, set_FlowID r2 F (by omega)⟩

theorem flow_id_number_accepted_witness :
    (EveOutEvent.UnmarshalJSON zeroEvent
      (.obj ([("event_type".toList, .str "dns".toList)] ++
        ("flow_id".toList, .num (FormatInt (-9223372036854775808))) ::
          [("src_port".toList, .num "53".toList)]))).2 = none ∧
    FlowID (EveOutEvent.UnmarshalJSON zeroEvent
      (.obj ([("event_type".toList, .str "dns".toList)] ++
        ("flow_id".toList, .num (FormatInt (-9223372036854775808))) ::
          [("src_port".toList, .num "53".toList)]))).1 = -9223372036854775808 :=
  flow_id_number_accepted zeroEvent (-9223372036854775808) _ _ (by decide) (by decide)
    (by decide) (by decide) (by decide)

/-- C18, counterexample: an object with the member `FLOW_ID` has no member
`flow_id`, yet `UnmarshalJSON` sets `FlowID` to the number of that member,
not to 0. -/
theorem flow_id_key_case_folded :
    ("flow_id".toList ∉ [("FLOW_ID".toList, JSON.num ['5'])].map (fun m => m.1)) ∧
    (FlowID (EveOutEvent.UnmarshalJSON (setFlowID zeroEvent 7)
        (.obj [("FLOW_ID".toList, .num ['5'])])).1,
      (EveOutEvent.UnmarshalJSON (setFlowID zeroEvent 7)
        (.obj [("FLOW_ID".toList, .num ['5'])])).2) = (5, none) := by
  decide

/-- C18, amended: when `UnmarshalJSON` succeeds on an object none of whose
members is named `flow_id` up to the case of its letters, it sets `FlowID` to
0, and every other field of the record whose name is not the name of a
member, up to the case of its letters, keeps the value the receiver had. -/
theorem flow_id_absent_reset (e : GoVal) (ms : List (Str × JSON))
    (he : (GoType.struct EveEvent).has e = true)
    (hno : ∀ m ∈ ms, foldName m.1 ≠ foldName "flow_id".toList)
    (hok : (EveOutEvent.UnmarshalJSON e (.obj ms)).2 = none) :
    ∃ vs vs', e = .struct vs ∧ (EveOutEvent.UnmarshalJSON e (.obj ms)).1 = .struct vs' ∧
      FlowID (.struct vs') = 0 ∧
      ∀ n x, EveEvent.get? n = some x → n ≠ 2 → (∀ m ∈ ms, foldName m.1 ≠ foldName x.1) →
        vs'.get? n = vs.get? n := by
  obtain ⟨vs, rfl, hvs⟩ := has_struct EveEvent e he
  have hl : vs.length = 30 := hasFields_length EveEvent vs hvs
  have hv := UnmarshalJSON_noerr _ _ hok
  obtain ⟨r, hr, hlr, hfr⟩ := inStruct_inv
    (fun r => r.length = 30 ∧ ∀ n x, EveEvent.get? n = some x → n ≠ 2 →
      (∀ m ∈ ms, foldName m.1 ≠ foldName x.1) → r.get? n = vs.get? n) [] ms
    (fun m hm f n0 kind _ hn0 _ _ hfold r hr => by
      refine ⟨by simpa using hr.1, fun n x hx h2 hnm => ?_⟩
      have hne : n0 ≠ n := by
        intro e
        subst e
        rw [hn0] at hx
        simp only [Option.some.injEq] at hx
        subst hx
        exact hnm m hm hfold
      rw [get?_set_other _ _ _ _ hne]
      exact hr.2 n x hx h2 hnm)
    hno vs ⟨hl, fun _ _ _ _ _ => rfl⟩
  have hall : decodeMembers (typeFields inStruct) ms [.struct vs, .num []]
      = ([.struct r, .num []], none, none) := by
    rw [Prod.ext_iff]
    exact ⟨hr, hv⟩
  refine ⟨vs, r.set 2 (.int 0), rfl, ?_, ?_, ?_⟩
  · rw [UnmarshalJSON_ok _ _ _ _ hall]
    rfl
  · have := set_FlowID r 0 (by omega)
    exact this
  · intro n x hx h2 hnm
    rw [get?_set_other _ _ _ _ (fun e => h2 e.symm)]
    exact hfr n x hx h2 hnm

theorem flow_id_absent_reset_witness :
    ∃ vs vs', setFlowID zeroEvent 7 = .struct vs ∧
      (EveOutEvent.UnmarshalJSON (setFlowID zeroEvent 7)
        (.obj [("event_type".toList, .str "dns".toList)])).1 = .struct vs' ∧
      FlowID (.struct vs') = 0 ∧
      ∀ n x, EveEvent.get? n = some x → n ≠ 2 →
        (∀ m ∈ [("event_type".toList, JSON.str "dns".toList)],
          foldName m.1 ≠ foldName x.1) →
        vs'.get? n = vs.get? n :=
  flow_id_absent_reset (setFlowID zeroEvent 7) _ (by decide) (by decide) (by decide)

/-- C17, counterexample: the receiver has a timestamp, the input has a
member `timestamp` and then a `flow_id` that makes `json.Unmarshal` fail;
`UnmarshalJSON` returns the error, and the timestamp the receiver points to
has been overwritten. -/
theorem unmarshal_failure_overwrites :
    Timestamp (setTimestamp zeroEvent { unix := 0, nsec := 0, offset := 0 })
      = some { unix := 0, nsec := 0, offset := 0 } ∧
    (Timestamp (EveOutEvent.UnmarshalJSON
        (setTimestamp zeroEvent { unix := 0, nsec := 0, offset := 0 })
        (.obj [("timestamp".toList, .str "2017-03-06T06:54:10+0000".toList),
          ("flow_id".toList, .str "abc".toList)])).1,
      (EveOutEvent.UnmarshalJSON
        (setTimestamp zeroEvent { unix := 0, nsec := 0, offset := 0 })
        (.obj [("timestamp".toList, .str "2017-03-06T06:54:10+0000".toList),
          ("flow_id".toList, .str "abc".toList)])).2)
      = (some { unix := 1488783250, nsec := 0, offset := 0 }, some .invalidNumber) := by
  decide

/-- C17, amended: `UnmarshalJSON` returns the error `json.Unmarshal` returns
for the struct it decodes into, and none when that returns none; when it
returns an error, the receiver is not assigned: its fields that are not
non-nil pointers or slices (integers, strings, nil pointers) keep their
values, while what its pointers and slices refer to may have been written
to. -/
theorem unmarshal_failure_frame (vs : List GoVal) (d : JSON) :
    (EveOutEvent.UnmarshalJSON (.struct vs) d).2
      = (Fever.Unmarshal (.struct inStruct) d (.struct [.struct vs, .num []])).2 ∧
    ((EveOutEvent.UnmarshalJSON (.struct vs) d).2 ≠ none →
      ∃ vs', (EveOutEvent.UnmarshalJSON (.struct vs) d).1 = .struct vs' ∧
        vs'.length = vs.length ∧
        ∀ n v, vs.get? n = some v → v.shared = false → vs'.get? n = some v) :=
  ⟨UnmarshalJSON_error _ d, UnmarshalJSON_failed_frame vs d⟩

theorem unmarshal_failure_frame_witness :
    (EveOutEvent.UnmarshalJSON zeroEvent
      (.obj [("src_port".toList, .num "53".toList), ("flow_id".toList, .str "abc".toList)])).2
      ≠ none ∧
    ∃ vs', (EveOutEvent.UnmarshalJSON zeroEvent
      (.obj [("src_port".toList, .num "53".toList),
        ("flow_id".toList, .str "abc".toList)])).1 = .struct vs' ∧
      vs'.length = (zeroFields EveEvent).length ∧
      ∀ n v, (zeroFields EveEvent).get? n = some v → v.shared = false →
        vs'.get? n = some v :=
  ⟨by decide, (unmarshal_failure_frame (zeroFields EveEvent)
    (.obj [("src_port".toList, .num "53".toList),
      ("flow_id".toList, .str "abc".toList)])).2 (by decide)⟩

/-! ### Claims about decoding the encoding of an event record -/

/-- C13, counterexample: a flow record whose `flow.start` has seven digits
of fraction is decoded without error; the encoding of the decoded record is
decoded without error too, but its `flow.start` has lost the seventh digit:
100 nanoseconds less. -/
theorem flow_start_truncated :
    (EveEvent.Unmarshal (flowSample "2017-03-06T06:54:06.8396681+0000".toList) zeroEvent).2
      = none ∧
    flowStart (EveEvent.Unmarshal (flowSample "2017-03-06T06:54:06.8396681+0000".toList)
      zeroEvent).1 = some { unix := 1488783246, nsec := 839668100, offset := 0 } ∧
    (EveEvent.recode (EveEvent.Unmarshal (flowSample "2017-03-06T06:54:06.8396681+0000".toList)
      zeroEvent).1).2 = none ∧
    flowStart (EveEvent.recode (EveEvent.Unmarshal
      (flowSample "2017-03-06T06:54:06.8396681+0000".toList) zeroEvent).1).1
      = some { unix := 1488783246, nsec := 839668000, offset := 0 } := by
  have h1 : (EveEvent.Unmarshal (flowSample "2017-03-06T06:54:06.8396681+0000".toList)
      zeroEvent).2 = none := by decide
  have h2 : flowStart (EveEvent.Unmarshal (flowSample "2017-03-06T06:54:06.8396681+0000".toList)
      zeroEvent).1 = some { unix := 1488783246, nsec := 839668100, offset := 0 } := by decide
  have ht : (EveEvent.Unmarshal (flowSample "2017-03-06T06:54:06.8396681+0000".toList)
      zeroEvent).1.timesOK = true := by decide
  have hh := event_decode_has (flowSample "2017-03-06T06:54:06.8396681+0000".toList) zeroEvent
    zeroEvent_has
  refine ⟨h1, h2, ?_, ?_⟩
  · rw [event_recode _ hh ht]
  · rw [event_recode _ hh ht]
    obtain ⟨vs, hR, hvs⟩ := has_struct EveEvent _ hh
    rw [hR] at h2 ⊢
    simp only []
    rw [flowStart_norm vs hvs, h2]
    decide

/-- C13, amended: for every input `J`, with `R` the record decoded from `J`:
when every timestamp of `R` is a whole number of microseconds in the years
`0..9999` at an offset of whole minutes below 25 hours, and no `omitempty`
list of `R` is empty without being nil, decoding the encoding of `R` yields
no error and the record `R`. -/
theorem flow_record_roundtrip (J : JSON)
    (ht : (EveEvent.Unmarshal J zeroEvent).1.timesOK = true)
    (hs : (GoType.struct EveEvent).stable (EveEvent.Unmarshal J zeroEvent).1 = true) :
    EveEvent.recode (EveEvent.Unmarshal J zeroEvent).1
      = ((EveEvent.Unmarshal J zeroEvent).1, none) := by
  have h := event_decode_has J zeroEvent zeroEvent_has
  rw [event_recode _ h ht, norm_stable _ _ h hs]

theorem flow_record_roundtrip_witness :
    EveEvent.recode (EveEvent.Unmarshal (flowSample "2017-03-06T06:54:06.839668+0000".toList)
        zeroEvent).1
      = ((EveEvent.Unmarshal (flowSample "2017-03-06T06:54:06.839668+0000".toList)
        zeroEvent).1, none) :=
  flow_record_roundtrip (flowSample "2017-03-06T06:54:06.839668+0000".toList) (by decide)
    (by decide)

/-- C16, counterexample: the event record that carries the stats body
`statsSample` and whose timestamp is the first instant of the year 10000 is a
well-typed record, and decoding its encoding returns an error. -/
theorem stats_year10000_rejected :
    hasFields EveEvent (statsRecord.set 0
      (.time (some { unix := 253402300800, nsec := 0, offset := 0 }))) = true ∧
    (EveEvent.recode (.struct (statsRecord.set 0
      (.time (some { unix := 253402300800, nsec := 0, offset := 0 }))))).2
      = some .timeParse := by
  decide

/-- C16, amended: for every `statsEvent` value `s` and every event record carrying `s`
whose timestamps are in the years `0..9999` at an offset below 25 hours, the
encoding of the record has one member `stats`, which lists the counters of
`s` in the order of their declaration at every depth, and decoding the
encoding yields no error and a record whose stats body is `s`. -/
theorem stats_roundtrip (vs s : List GoVal) (he : hasFields EveEvent vs = true)
    (ht : timesOKList vs = true) (hs : vs.get? 28 = some (.ptr (.struct s))) :
    ∃ ms js vs', EveEvent.Marshal (.struct vs) = .ok (.obj ms) ∧
      ms.filter (fun m => m.1 == "stats".toList) = [("stats".toList, js)] ∧
      (GoType.struct statsEvent).ordered js = true ∧
      EveEvent.recode (.struct vs) = (.struct vs', none) ∧
      vs'.get? 28 = some (.ptr (.struct s)) := by
  obtain ⟨ms, hms, hcan⟩ := event_marshal vs he
  have f28 : EveEvent.get? 28 = some ("stats".toList, .omitempty, .ptr statsEvent) := rfl
  have hc := typeFields_contains EveEvent EveEvent_regular 28 _ f28
  obtain ⟨js, hjs, hfl⟩ := (marshalFields_filter_name _ [] EveEvent 0 vs ms EveEvent_regular hms
    28 _ _ _ _ f28 hs).1 ⟨by simpa using hc, Or.inr rfl⟩
  have hreg : regularFields statsEvent = true := by
    have := regularFields_typ EveEvent EveEvent_regular _ (List.get?_mem f28)
    simpa [GoType.regular] using this
  have hcnt : countersFields statsEvent = true := by decide
  have hhs : hasFields statsEvent s = true := by
    have := hasFields_get EveEvent vs he 28 _ _ f28 hs
    simpa [GoType.has] using this
  have hjs' : marshalVal (.struct statsEvent) (.struct s) = .ok js := by
    simp only [marshalVal] at hjs ⊢
    exact hjs
  have hord := marshal_ordered (.struct statsEvent) (by simpa [GoType.regular] using hreg)
    (by simpa [GoType.counters] using hcnt) (.struct s) js (by simpa [GoType.has] using hhs) hjs'
  have hnorm := norm_counters (.struct statsEvent) (by simpa [GoType.counters] using hcnt)
    (.struct s) (by simpa [GoType.has] using hhs)
  rw [GoType.norm] at hnorm
  simp only [GoVal.struct.injEq] at hnorm
  refine ⟨ms, js, normFields EveEvent vs, hcan, hfl, hord, ?_, ?_⟩
  · rw [event_recode _ (by simpa [GoType.has] using he) (by simpa [GoVal.timesOK] using ht),
      GoType.norm]
  · rw [normFields_get EveEvent vs 28 _ _ _ _ f28 hs]
    have hne : isEmptyValue (GoVal.ptr (GoVal.struct s)) = false := rfl
    rw [hne, GoType.norm, hnorm]
    rfl

theorem stats_roundtrip_witness :
    ∃ ms js vs', EveEvent.Marshal (.struct statsRecord) = .ok (.obj ms) ∧
      ms.filter (fun m => m.1 == "stats".toList) = [("stats".toList, js)] ∧
      (GoType.struct statsEvent).ordered js = true ∧
      EveEvent.recode (.struct statsRecord) = (.struct vs', none) ∧
      vs'.get? 28 = some (.ptr (.struct statsSample)) :=
  stats_roundtrip statsRecord statsSample (by decide) (by decide) rfl
/-- C2, counterexample: for the event record whose timestamp is the first
instant of the year 10000, `MarshalJSON` returns bytes on which
`UnmarshalJSON` returns an error. -/
theorem outEvent_year10000_rejected :
    (EveOutEvent.recode zeroEvent
      (setTimestamp zeroEvent { unix := 253402300800, nsec := 0, offset := 0 })).2
      = some .timeParse := by
  decide

/-- C2, amended: for every event record `e` whose timestamps are in the
years `0..9999` at an offset below 25 hours, with any `FlowID`, and every
receiver, `UnmarshalJSON` applied to the bytes `MarshalJSON` returned for `e`
returns no error and yields the `FlowID` of `e`, and `MarshalJSON` of the
result has the same `flow_id` string. -/
theorem outEvent_roundtrip (e e0 : GoVal) (he : (GoType.struct EveEvent).has e = true)
    (he0 : (GoType.struct EveEvent).has e0 = true) (ht : e.timesOK = true) :
    (EveOutEvent.recode e0 e).2 = none ∧
    FlowID (EveOutEvent.recode e0 e).1 = FlowID e ∧
    ∃ ms, EveOutEvent.MarshalJSON (EveOutEvent.recode e0 e).1 = .ok (.obj ms) ∧
      ms.filter (fun m => m.1 == "flow_id".toList) =
        [("flow_id".toList, .str (FormatInt (FlowID e)))] := by
  obtain ⟨vs, rfl, hvs⟩ := has_struct EveEvent e he
  obtain ⟨r0, rfl, hr0⟩ := has_struct EveEvent e0 he0
  obtain ⟨r, hr, hrec⟩ := outEvent_recode vs r0 hvs hr0 (by simpa [GoVal.timesOK] using ht)
  obtain ⟨_, hlo, hhi⟩ := flow_field vs hvs
  have hl : r.length = 30 := hasFields_length EveEvent r hr
  have hF : FlowID (setFlowID (.struct r) (FlowID (.struct vs))) = FlowID (.struct vs) :=
    set_FlowID r _ (by omega)
  have hhas : hasFields EveEvent (r.set 2 (.int (FlowID (.struct vs)))) = true :=
    hasFields_set EveEvent r 2 _ _ hr EveEvent_flow_field (by simp [GoType.has, hlo, hhi])
  rw [hrec]
  refine ⟨rfl, hF, ?_⟩
  obtain ⟨ms, hms, hout⟩ := outEvent_marshal _ hhas
  refine ⟨_, hout, ?_⟩
  rw [List.filter_cons]
  simp only [beq_self_eq_true, if_true, outEvent_inner_flow _ ms hhas hms]
  have : FlowID (.struct (r.set 2 (.int (FlowID (.struct vs))))) = FlowID (.struct vs) := hF
  rw [this]

theorem outEvent_roundtrip_witness :
    (EveOutEvent.recode zeroEvent (setFlowID zeroEvent (-9223372036854775808))).2 = none ∧
    FlowID (EveOutEvent.recode zeroEvent (setFlowID zeroEvent (-9223372036854775808))).1
      = FlowID (setFlowID zeroEvent (-9223372036854775808)) ∧
    ∃ ms, EveOutEvent.MarshalJSON
        (EveOutEvent.recode zeroEvent (setFlowID zeroEvent (-9223372036854775808))).1
        = .ok (.obj ms) ∧
      ms.filter (fun m => m.1 == "flow_id".toList) =
        [("flow_id".toList, .str (FormatInt (FlowID
          (setFlowID zeroEvent (-9223372036854775808)))))] :=
  outEvent_roundtrip (setFlowID zeroEvent (-9223372036854775808)) zeroEvent (by decide)
    (by decide) (by decide)


end Fever
